import Mathlib

/-!
# resparse: the enumerator and the scan-and-coalesce pass of `resparser`

A shallow embedding of `src/source/main.cpp`.  `LONGLONG` values are `Int`,
`DWORD` values are `Nat` (the one narrowing cast is an explicit `% 2^32`), the
file handle is an abstract storage state with the operating-system calls as
functions on it, and every exception of the source is a value of `Exception`
carrying the object state at the throw.  A ghost field `trace` records the
`ReadFile` and `FSCTL_SET_ZERO_DATA` calls in the order they are issued; the
enumerator `get_allocated_ranges` has its own state, with a ghost field
`queries` for its `FSCTL_QUERY_ALLOCATED_RANGES` calls.
-/

namespace Resparse

/-- The `range` struct of main.cpp: a half-open byte interval. The field `end`
of the source is spelled `end_`. -/
structure range where
  start : Int
  end_ : Int
deriving DecidableEq, Repr

/-- The Windows structure handed to `FSCTL_SET_ZERO_DATA`. -/
structure FILE_ZERO_DATA_INFORMATION where
  FileOffset : Int
  BeyondFinalZero : Int
deriving DecidableEq, Repr

/-- Ghost record of the calls made on the file handle. A `read` carries the
position the file pointer was set to, the requested length and the bytes
returned (`none` when `ReadFile` reported failure). -/
inductive IoEvent where
  | read (pos : Int) (nNumberOfBytesToRead : Nat) (result : Option (List UInt8))
  | deallocate (range : FILE_ZERO_DATA_INFORMATION)
deriving DecidableEq, Repr

/-- The exceptions of main.cpp that the scan pass can raise, plus two outcomes
that are not exceptions of the source: `emptyDequeFront` stands for the
undefined behaviour of `std::deque::front()` on an empty deque, and
`fuelExhausted` for a loop cut off by the fuel of the embedding. -/
inductive Exception where
  | CannotSetZeroData
  | CannotSetFilePointer
  | CannotReadFilePart
  | CannotGetFileInfo
  | emptyDequeFront
  | fuelExhausted
deriving DecidableEq, Repr

/-- The text passed to `std::exception` at each throw. -/
def Exception.what : Exception → String
  | .CannotSetZeroData => "Cannot set zero data"
  | .CannotSetFilePointer => "Cannot set file pointer"
  | .CannotReadFilePart => "Cannot read file part"
  | .CannotGetFileInfo => "Cannot get file info"
  | .emptyDequeFront => "undefined behaviour: front() of an empty deque"
  | .fuelExhausted => "fuel exhausted"

/-- The operating-system calls made on the file handle, as functions on an
abstract handle state `σ`. `ReadFile h pos n` is the read of `n` bytes issued
after the file pointer was set to `pos`; `none` is a failed call. -/
structure Storage (σ : Type) where
  SetFilePointerEx : σ → Int → Bool
  ReadFile : σ → Int → Nat → Option (List UInt8 × σ)
  FSCTL_SET_ZERO_DATA : σ → FILE_ZERO_DATA_INFORMATION → Option σ
  GetFileInformationByHandleEx : σ → Option (Int × Int)

/-- The data members of `class resparser` (`verbose` only drives console
output and is left out), with the ghost `trace`. -/
structure resparser (σ : Type) where
  blockSize : Nat
  fileHandle : σ
  fileSize : Int
  deallocated_bytes : Int
  deallocateQueue : List FILE_ZERO_DATA_INFORMATION
  trace : List IoEvent

/-- Result of a member function: the object state on normal return, or the
exception together with the object state at the throw. -/
abbrev Result (σ : Type) := Except (Exception × resparser σ) (resparser σ)

/-- The requests passed to `io_deallocate_range`, in the order issued. -/
def flushed : List IoEvent → List FILE_ZERO_DATA_INFORMATION
  | [] => []
  | .deallocate r :: t => r :: flushed t
  | .read _ _ _ :: t => flushed t

/-- The state a result ends in, whether it returned or threw. -/
def Result.final {σ : Type} : Result σ → resparser σ
  | .ok s => s
  | .error (_, s) => s

/-- The exception a result ended with, if any. -/
def Result.thrown {σ : Type} : Result σ → Option Exception
  | .ok _ => none
  | .error (e, _) => some e

variable {σ : Type}

/-- `resparser::io_deallocate_range` (main.cpp 79-104). -/
def io_deallocate_range (S : Storage σ) (self : resparser σ)
    (range : FILE_ZERO_DATA_INFORMATION) : Result σ :=
  let self := { self with trace := self.trace ++ [IoEvent.deallocate range] }
  match S.FSCTL_SET_ZERO_DATA self.fileHandle range with
  | none => .error (.CannotSetZeroData, self)
  | some h =>
    .ok { self with
      fileHandle := h
      deallocated_bytes :=
        self.deallocated_bytes + (range.BeyondFinalZero - range.FileOffset) }

/-- The range-for loop of `deallocate_remained` over the queue. -/
def deallocate_remained_loop (S : Storage σ) :
    List FILE_ZERO_DATA_INFORMATION → resparser σ → Result σ
  | [], self => .ok self
  | range :: rest, self =>
    match io_deallocate_range S self range with
    | .error e => .error e
    | .ok self => deallocate_remained_loop S rest self

/-- `resparser::deallocate_remained` (main.cpp 162-170). -/
def deallocate_remained (S : Storage σ) (self : resparser σ) : Result σ :=
  match deallocate_remained_loop S self.deallocateQueue self with
  | .error e => .error e
  | .ok self => .ok { self with deallocateQueue := [] }

/-- `resparser::deallocate_next` (main.cpp 172-187). The comparison reads
`back()`, the flush takes `front()`. -/
def deallocate_next (S : Storage σ) (self : resparser σ)
    (range : FILE_ZERO_DATA_INFORMATION) : Result σ :=
  match self.deallocateQueue.getLast?, self.deallocateQueue.head? with
  | some back, some front =>
    if back.BeyondFinalZero = range.FileOffset then
      .ok { self with
        deallocateQueue := self.deallocateQueue.dropLast ++
          [{ back with BeyondFinalZero := range.BeyondFinalZero }] }
    else
      match io_deallocate_range S self front with
      | .error e => .error e
      | .ok self =>
        .ok { self with deallocateQueue := self.deallocateQueue.tail ++ [range] }
  | _, _ => .ok { self with deallocateQueue := self.deallocateQueue ++ [range] }

/-- The length `process_file` asks `ReadFile` for at `pos` inside `front`
(main.cpp 229 and 231):
`static_cast<DWORD>(std::min(static_cast<LONGLONG>(blockSize), front.end - pos))`. -/
def requestedLength (blockSize : Nat) (front : range) (pos : Int) : Nat :=
  let requiredSize : Int := min (blockSize : Int) (front.end_ - pos)
  (requiredSize % 4294967296).toNat

/-- The part of one iteration of the scan loop after the range bookkeeping
(main.cpp 222-248): set the file pointer, read, classify, queue. On normal
completion it gives the object state and the new `pos`. -/
def process_file_block (S : Storage σ) (self : resparser σ) (pos : Int)
    (allocatedRanges : List range) : Except (Exception × resparser σ) (resparser σ × Int) :=
  if S.SetFilePointerEx self.fileHandle pos = false then
    .error (.CannotSetFilePointer, self)
  else
    match allocatedRanges with
    | [] => .error (.emptyDequeFront, self)
    | front :: _ =>
      let nNumberOfBytesToRead : Nat := requestedLength self.blockSize front pos
      match S.ReadFile self.fileHandle pos nNumberOfBytesToRead with
      | none =>
        .error (.CannotReadFilePart,
          { self with trace := self.trace ++ [IoEvent.read pos nNumberOfBytesToRead none] })
      | some (buff, h) =>
        let self := { self with
          fileHandle := h
          trace := self.trace ++ [IoEvent.read pos nNumberOfBytesToRead (some buff)] }
        let bytesRead : Nat := buff.length
        if bytesRead = 0 then
          .error (.CannotReadFilePart, self)
        else
          let isFilledByZeroes : Bool := buff.all (fun i => i == 0)
          if isFilledByZeroes then
            match deallocate_next S self
                { FileOffset := pos, BeyondFinalZero := pos + (bytesRead : Int) } with
            | .error e => .error e
            | .ok self => .ok (self, pos + (bytesRead : Int))
          else
            .ok (self, pos + (bytesRead : Int))

/-- The scan loop of `process_file` (main.cpp 205-249), one iteration per unit
of fuel. -/
def process_file_loop (S : Storage σ) :
    Nat → Int → List range → resparser σ → Result σ
  | 0, _, _, self => .error (.fuelExhausted, self)
  | fuel + 1, pos, allocatedRanges, self =>
    if pos < self.fileSize then
      match allocatedRanges with
      | front :: rest =>
        if pos ≥ front.end_ then
          match rest with
          | [] => .ok self
          | next :: _ => process_file_loop S fuel next.start rest self
        else
          match process_file_block S self pos allocatedRanges with
          | .error e => .error e
          | .ok (self, pos) => process_file_loop S fuel pos allocatedRanges self
      | [] =>
        match process_file_block S self pos allocatedRanges with
        | .error e => .error e
        | .ok (self, pos) => process_file_loop S fuel pos allocatedRanges self
    else
      .ok self

/-- One unit of fuel per range and one per byte between its start and
`fileSize`. -/
def rangesFuel (fileSize : Int) : List range → Nat
  | [] => 0
  | r :: rest => (fileSize - r.start).toNat + 1 + rangesFuel fileSize rest

/-- Fuel that covers every run of the scan loop started at position 0. -/
def process_file_fuel (fileSize : Int) (allocatedRanges : List range) : Nat :=
  fileSize.toNat + 1 + rangesFuel fileSize allocatedRanges

/-- `resparser::process_file` (main.cpp 200-256). The final console report is
reduced to the call it makes, which can throw. -/
def process_file (S : Storage σ) (self : resparser σ)
    (allocatedRanges : List range) : Result σ :=
  let self := { self with deallocated_bytes := 0 }
  match process_file_loop S (process_file_fuel self.fileSize allocatedRanges)
      0 allocatedRanges self with
  | .error e => .error e
  | .ok self =>
    match deallocate_remained S self with
    | .error e => .error e
    | .ok self =>
      match S.GetFileInformationByHandleEx self.fileHandle with
      | none => .error (.CannotGetFileInfo, self)
      | some _ => .ok self

/-! ## A sparse file as storage

The file is its byte sequence together with the list of allocated ranges.
`FSCTL_SET_ZERO_DATA` overwrites the bytes of the requested interval with zero
and takes the interval out of the allocated ranges. -/

/-- A file on a sparse-capable volume. -/
structure SparseFile where
  bytes : List UInt8
  allocated : List range
deriving DecidableEq, Repr

/-- Overwrite with zero the bytes whose index, counted from `i`, lies in
`[lo, hi)`. -/
def zeroFrom (lo hi : Int) : Int → List UInt8 → List UInt8
  | _, [] => []
  | i, b :: bs => (if lo ≤ i ∧ i < hi then 0 else b) :: zeroFrom lo hi (i + 1) bs

/-- What is left of the allocated range `a` once `z` is deallocated. -/
def removeFromRange (z : FILE_ZERO_DATA_INFORMATION) (a : range) : List range :=
  if z.BeyondFinalZero ≤ z.FileOffset then [a]
  else
    (if a.start < min a.end_ z.FileOffset then [⟨a.start, min a.end_ z.FileOffset⟩] else []) ++
    (if max a.start z.BeyondFinalZero < a.end_ then [⟨max a.start z.BeyondFinalZero, a.end_⟩]
     else [])

/-- The allocated-range list with the interval `z` removed from it. -/
def removeRange (z : FILE_ZERO_DATA_INFORMATION) : List range → List range
  | [] => []
  | a :: rest => removeFromRange z a ++ removeRange z rest

/-- Sum of the lengths of the ranges of a list (`totalAllocated` of
`get_allocated_ranges`). -/
def totalAllocated : List range → Int
  | [] => 0
  | a :: rest => (a.end_ - a.start) + totalAllocated rest

/-- The storage calls on a `SparseFile`: the file pointer can be set to any
non-negative offset, a read returns the bytes present from `pos` on, at most
`n` of them and none at or past the end of the file. -/
def sparseFileStorage : Storage SparseFile where
  SetFilePointerEx := fun _ pos => decide (0 ≤ pos)
  ReadFile := fun f pos n => some ((f.bytes.drop pos.toNat).take n, f)
  FSCTL_SET_ZERO_DATA := fun f z =>
    some { bytes := zeroFrom z.FileOffset z.BeyondFinalZero 0 f.bytes
           allocated := removeRange z f.allocated }
  GetFileInformationByHandleEx := fun f =>
    some ((f.bytes.length : Int), totalAllocated f.allocated)

/-- The object as the constructor and `resparse` leave it at the call of
`process_file`: the queue is empty and `deallocated_bytes`, which no
constructor initialises, holds an arbitrary value. -/
def resparser.init (blockSize : Nat) (fileHandle : σ) (fileSize : Int)
    (uninitialised : Int) : resparser σ where
  blockSize := blockSize
  fileHandle := fileHandle
  fileSize := fileSize
  deallocated_bytes := uninitialised
  deallocateQueue := []
  trace := []

/-- One run of `process_file` on a sparse file with the allocated-range list
`allocatedRanges`: `fileSize` is the length of the file. -/
def scanFile (blockSize : Nat) (f : SparseFile) (allocatedRanges : List range)
    (uninitialised : Int) : Result SparseFile :=
  process_file sparseFileStorage
    (resparser.init blockSize f (f.bytes.length : Int) uninitialised) allocatedRanges

/-- One run of `process_file` on a sparse file, given the allocated ranges
the file has. -/
def resparseFile (blockSize : Nat) (f : SparseFile) : Result SparseFile :=
  scanFile blockSize f f.allocated 0

/-! ## The zero blocks of a trace and the coalescer as a function -/

/-- The interval of a read that returned at least one byte, all of them zero:
the argument `process_file` builds for `deallocate_next`. -/
def zeroBlock : IoEvent → Option FILE_ZERO_DATA_INFORMATION
  | .read pos _ (some buff) =>
    if buff.length ≠ 0 ∧ buff.all (fun i => i == 0) = true then
      some { FileOffset := pos, BeyondFinalZero := pos + (buff.length : Int) }
    else none
  | _ => none

/-- The all-zero blocks discovered by the reads of a trace, in order. -/
def zeroBlocks : List IoEvent → List FILE_ZERO_DATA_INFORMATION
  | [] => []
  | e :: t =>
    match zeroBlock e with
    | some z => z :: zeroBlocks t
    | none => zeroBlocks t

/-- One transition of the coalescer on the list of ranges produced so far,
whose last element is the pending one. -/
def coalesceStep (acc : List FILE_ZERO_DATA_INFORMATION)
    (r : FILE_ZERO_DATA_INFORMATION) : List FILE_ZERO_DATA_INFORMATION :=
  match acc.getLast? with
  | none => [r]
  | some p =>
    if p.BeyondFinalZero = r.FileOffset then
      acc.dropLast ++ [{ p with BeyondFinalZero := r.BeyondFinalZero }]
    else acc ++ [r]

/-- The ranges obtained by merging each block into its predecessor when it
starts where the predecessor ends. -/
def coalesce (zs : List FILE_ZERO_DATA_INFORMATION) : List FILE_ZERO_DATA_INFORMATION :=
  zs.foldl coalesceStep []

/-- Sum of the lengths of a list of requests. -/
def totalLength : List FILE_ZERO_DATA_INFORMATION → Int
  | [] => 0
  | z :: rest => (z.BeyondFinalZero - z.FileOffset) + totalLength rest

/-! ## Vocabulary of the statements -/

/-- An allocated-range list as the enumerator is meant to produce it: every
range has `start ≤ end`, and the list is sorted and non-overlapping, each range
ending no later than the next one starts. -/
def SortedRanges (rs : List range) : Prop :=
  (∀ r ∈ rs, r.start ≤ r.end_) ∧ rs.Chain' (fun a b => a.end_ ≤ b.start)

/-- The contract of `ReadFile`: a successful read returns at most the number
of bytes asked for. -/
def Storage.ReadBounded (S : Storage σ) : Prop :=
  ∀ h pos n buff hd, S.ReadFile h pos n = some (buff, hd) → buff.length ≤ n

/-- Blocks in scan order: each is non-empty and ends no later than the next
one starts. -/
def Ascending (zs : List FILE_ZERO_DATA_INFORMATION) : Prop :=
  (∀ z ∈ zs, z.FileOffset < z.BeyondFinalZero) ∧
  zs.Pairwise (fun a b => a.BeyondFinalZero ≤ b.FileOffset)

/-- Requests that neither overlap nor touch: each ends strictly before every
later one starts. -/
def Separated (l : List FILE_ZERO_DATA_INFORMATION) : Prop :=
  l.Pairwise (fun a b => a.BeyondFinalZero < b.FileOffset)

/-- The interval `x` lies inside one range of `l`. -/
def Covered (x : FILE_ZERO_DATA_INFORMATION) (l : List FILE_ZERO_DATA_INFORMATION) : Prop :=
  ∃ r ∈ l, r.FileOffset ≤ x.FileOffset ∧ x.BeyondFinalZero ≤ r.BeyondFinalZero

/-- The interval `z` lies inside the file and every byte of it is zero. -/
def ZeroIn (bytes : List UInt8) (z : FILE_ZERO_DATA_INFORMATION) : Prop :=
  0 ≤ z.FileOffset ∧ z.BeyondFinalZero ≤ (bytes.length : Int) ∧
  ∀ i : Nat, z.FileOffset ≤ (i : Int) → (i : Int) < z.BeyondFinalZero → bytes[i]? = some 0

/-- The interval `z` is a maximal run of positions satisfying `P`: it is not
empty, every position in it satisfies `P`, and it cannot be extended by one
position on either side. -/
def MaximalRun (P : Int → Prop) (z : FILE_ZERO_DATA_INFORMATION) : Prop :=
  z.FileOffset < z.BeyondFinalZero ∧
  (∀ x : Int, z.FileOffset ≤ x → x < z.BeyondFinalZero → P x) ∧
  ¬ P (z.FileOffset - 1) ∧ ¬ P z.BeyondFinalZero

/-- Position `x` holds a zero byte of the file and lies in an allocated
range. -/
def ZeroAllocated (bytes : List UInt8) (rs : List range) (x : Int) : Prop :=
  0 ≤ x ∧ bytes[x.toNat]? = some 0 ∧ ∃ r ∈ rs, r.start ≤ x ∧ x < r.end_

/-- Position `x` lies in one of the blocks `zs`. -/
def InBlock (zs : List FILE_ZERO_DATA_INFORMATION) (x : Int) : Prop :=
  ∃ y ∈ zs, y.FileOffset ≤ x ∧ x < y.BeyondFinalZero

/-! ## The block-granular reference result

The file split into consecutive blocks of `blockSize` bytes, the last one
possibly shorter, and the maximal runs of consecutive all-zero blocks. -/

/-- Block `i` of the file split into consecutive blocks of `blockSize` bytes,
the last one possibly shorter (and empty past the end of the file). -/
def fileBlock (blockSize : Nat) (bytes : List UInt8) (i : Nat) : List UInt8 :=
  (bytes.drop (i * blockSize)).take blockSize

/-- The number of blocks of the file. -/
def numBlocks (blockSize : Nat) (bytes : List UInt8) : Nat :=
  (bytes.length + blockSize - 1) / blockSize

/-- Every byte of block `i` is zero. -/
def isZeroFileBlock (blockSize : Nat) (bytes : List UInt8) (i : Nat) : Bool :=
  (fileBlock blockSize bytes i).all (fun b => b == 0)

/-- The total number of bytes in the all-zero blocks of the file. -/
def zeroBlockBytes (blockSize : Nat) (bytes : List UInt8) : Nat :=
  ((List.range (numBlocks blockSize bytes)).map (fun i =>
    if isZeroFileBlock blockSize bytes i then (fileBlock blockSize bytes i).length else 0)).sum

/-- Blocks `i, i+1, ..., j-1` are a maximal run of consecutive all-zero blocks
of the file: all of them are all-zero, and neither the block before the first
nor the block after the last is an all-zero block of the file. -/
def IsMaximalZeroBlockRun (blockSize : Nat) (bytes : List UInt8) (i j : Nat) : Prop :=
  i < j ∧ j ≤ numBlocks blockSize bytes ∧
  (∀ k, i ≤ k → k < j → isZeroFileBlock blockSize bytes k = true) ∧
  (i = 0 ∨ isZeroFileBlock blockSize bytes (i - 1) = false) ∧
  (j = numBlocks blockSize bytes ∨ isZeroFileBlock blockSize bytes j = false)

/-- The byte interval from the start of block `i` to the end of block
`j - 1`. -/
def blockRunRange (blockSize : Nat) (bytes : List UInt8) (i j : Nat) :
    FILE_ZERO_DATA_INFORMATION :=
  ⟨((i * blockSize : Nat) : Int), ((min (j * blockSize) bytes.length : Nat) : Int)⟩

/-- Position `x` lies in an all-zero block of the file. -/
def InZeroFileBlock (blockSize : Nat) (bytes : List UInt8) (x : Int) : Prop :=
  0 ≤ x ∧ x < (bytes.length : Int) ∧ isZeroFileBlock blockSize bytes (x.toNat / blockSize) = true

/-! ## Invariants of the scan -/

/-- The object state right after a read that returned `buff`. -/
def afterRead (self : resparser σ) (pos : Int) (n : Nat) (buff : List UInt8) (h : σ) :
    resparser σ :=
  { self with fileHandle := h, trace := self.trace ++ [IoEvent.read pos n (some buff)] }

/-- Invariant of the object between iterations of the scan: the counter is
the total length of the requests issued, the queue holds nothing before the
first zero block and one range afterwards, and the requests issued followed by
the pending range are the coalesced zero blocks read so far. -/
def Core (s : resparser σ) : Prop :=
  s.deallocated_bytes = totalLength (flushed s.trace) ∧
  ((s.deallocateQueue = [] ∧ flushed s.trace = [] ∧ zeroBlocks s.trace = []) ∨
   (∃ p, s.deallocateQueue = [p] ∧ flushed s.trace ++ [p] = coalesce (zeroBlocks s.trace)))

/-- What is known of the object when the scan loop ends with an exception. -/
def CoreErr (s : resparser σ) : Prop :=
  ∃ rest, coalesce (zeroBlocks s.trace) = flushed s.trace ++ rest

/-- The two ways the scan loop stops normally: `pos` has reached `fileSize`,
or the last range has been dropped. -/
def ScanEnd (fileSize pos : Int) (rs : List range) : Prop :=
  ¬ pos < fileSize ∨ ∃ front, rs = [front] ∧ front.end_ ≤ pos

/-- The reason an exception `e` was thrown, at a point of the run where the
invariant `J` holds: the call that failed, or the empty deque whose front was
taken. -/
def Cause (S : Storage σ) (bs : Nat) (fs : Int)
    (J : Int → List range → List IoEvent → σ → Prop) (e : Exception) : Prop :=
  ∃ pos rs t h, J pos rs t h ∧
    ((e = .CannotSetFilePointer ∧ pos < fs ∧ S.SetFilePointerEx h pos = false) ∨
     (e = .emptyDequeFront ∧ pos < fs ∧ rs = []) ∨
     (e = .CannotReadFilePart ∧ pos < fs ∧ ∃ front rest, rs = front :: rest ∧
        pos < front.end_ ∧ S.SetFilePointerEx h pos = true ∧
        (S.ReadFile h pos (requestedLength bs front pos) = none ∨
         ∃ hd, S.ReadFile h pos (requestedLength bs front pos) = some ([], hd))) ∨
     (e = .CannotSetZeroData ∧
        ∃ p, p ∈ coalesce (zeroBlocks t) ∧ S.FSCTL_SET_ZERO_DATA h p = none) ∨
     (e = .CannotGetFileInfo ∧ ScanEnd fs pos rs ∧
        S.GetFileInformationByHandleEx h = none))

/-- What `process_file` guarantees for an invariant `J` of the scan: `J` holds
of the final trace and handle (at a stopping point of the loop on normal
return), the requests issued are an initial part of the coalesced zero blocks,
on normal return they are all of them, the counter is their total length and
the queue is empty, and every exception has its cause (the run never stops for
lack of fuel). -/
def ScanOutcome (S : Storage σ) (bs : Nat) (fs : Int)
    (J : Int → List range → List IoEvent → σ → Prop) (r : Result σ) : Prop :=
  (∃ pos rs, J pos rs r.final.trace r.final.fileHandle ∧
    (r.thrown = none → ScanEnd fs pos rs)) ∧
  CoreErr r.final ∧
  (r.thrown = none →
    flushed r.final.trace = coalesce (zeroBlocks r.final.trace) ∧
    r.final.deallocated_bytes = totalLength (flushed r.final.trace) ∧
    r.final.deallocateQueue = []) ∧
  ∀ e, r.thrown = some e → Cause S bs fs J e

/-- Invariant of the scan over a sorted list: the ranges left are sorted, the
zero blocks read so far are ascending and end at or before `pos`, and once a
zero block has been read `pos` is not past the end of the front range. -/
def ScanOrder (pos : Int) (rs : List range) (t : List IoEvent) : Prop :=
  SortedRanges rs ∧ Ascending (zeroBlocks t) ∧
  (∀ z ∈ zeroBlocks t, z.BeyondFinalZero ≤ pos) ∧
  (zeroBlocks t ≠ [] → ∀ front ∈ rs.head?, pos ≤ front.end_)

/-- Invariant of the scan with respect to the hole between two consecutive
ranges `a` and `b` of the list (`l2` is what follows `b`): the scan is either
still at or before `a`, or at or after `b` and not before the start of the
front range, and every zero block read so far lies on one side of the hole. -/
def GapOrder (a b : range) (l2 : List range) (pos : Int) (rs : List range)
    (t : List IoEvent) : Prop :=
  SortedRanges rs ∧
  ((∃ l, rs = l ++ a :: b :: l2) ∨
   ((∃ l, b :: l2 = l ++ rs) ∧ ∀ front ∈ rs.head?, front.start ≤ pos)) ∧
  ∀ z ∈ zeroBlocks t, z.BeyondFinalZero ≤ a.end_ ∨ b.start ≤ z.FileOffset

/-- Invariant of the handle of a sparse file during a scan: its bytes are the
original `bytes` and every zero block read so far is an interval of zero bytes
of them. -/
def FileInv (bytes : List UInt8) (t : List IoEvent) (h : SparseFile) : Prop :=
  h.bytes = bytes ∧ ∀ z ∈ zeroBlocks t, ZeroIn bytes z

/-- The interval of block `i` when it is a non-empty all-zero block. -/
def fileZeroBlock (blockSize : Nat) (bytes : List UInt8) (i : Nat) :
    Option FILE_ZERO_DATA_INFORMATION :=
  if (fileBlock blockSize bytes i).length ≠ 0 ∧ isZeroFileBlock blockSize bytes i = true then
    some ⟨((i * blockSize : Nat) : Int),
      ((i * blockSize : Nat) : Int) + ((fileBlock blockSize bytes i).length : Int)⟩
  else none

/-- The all-zero blocks among the first `k` blocks of the file, in order. -/
def fileZeroBlocks (blockSize : Nat) (bytes : List UInt8) (k : Nat) :
    List FILE_ZERO_DATA_INFORMATION :=
  (List.range k).filterMap (fileZeroBlock blockSize bytes)

/-- Invariant of the scan of a file allocated as the single range
`[0, fileSize)`: `pos` is the start of block `k` (or the end of the file), the
first `k` blocks have been read and the zero blocks found are the all-zero
ones among them. -/
def BlockScan (blockSize : Nat) (bytes : List UInt8) (pos : Int) (rs : List range)
    (t : List IoEvent) (h : SparseFile) : Prop :=
  FileInv bytes t h ∧ rs = [⟨0, (bytes.length : Int)⟩] ∧
  ∃ k : Nat, pos = ((min (k * blockSize) bytes.length : Nat) : Int) ∧
    (∀ k', k = k' + 1 → k' * blockSize < bytes.length) ∧
    zeroBlocks t = fileZeroBlocks blockSize bytes k

/-- The reads of a trace: position and requested length. -/
def readsOf : List IoEvent → List (Int × Nat)
  | [] => []
  | .read pos n _ :: t => (pos, n) :: readsOf t
  | .deallocate _ :: t => readsOf t

/-- Invariant of a scan whose position is never before the start of the
front range: the ranges left are ranges of the list and every read issued so
far lies inside a range of the list. -/
def ReadsInside (rs0 : List range) (pos : Int) (rs : List range) (t : List IoEvent) : Prop :=
  (∀ front ∈ rs.head?, front.start ≤ pos) ∧ (∀ r ∈ rs, r ∈ rs0) ∧
  ∀ q ∈ readsOf t, ∃ r ∈ rs0, r.start ≤ q.1 ∧ q.1 + (q.2 : Int) ≤ r.end_

/-- The bytes of the list still ahead of the scan: what is left of the front
range after `pos` and the ranges behind it. -/
def remainingAllocated (pos : Int) : List range → Int
  | [] => 0
  | front :: rest => (front.end_ - pos) + totalAllocated rest

/-- Invariant of a scan that stays inside the ranges: the bytes of zero
blocks read so far and the bytes still ahead of the scan make at most the
allocated total. -/
def ScanBudget (rs0 : List range) (pos : Int) (rs : List range) (t : List IoEvent) : Prop :=
  (∀ r ∈ rs, r.start ≤ r.end_) ∧ (∀ front ∈ rs.head?, pos ≤ front.end_) ∧
  totalLength (zeroBlocks t) + remainingAllocated pos rs ≤ totalAllocated rs0

/-! ## The coalescer of the specification and sequences of calls -/

/-- The transition of the zero-run coalescer as the specification words it,
on a single optional pending range: the range flushed to the deallocator, if
any, and the new pending range. With no pending range `r` is buffered; a
pending `p` with `p.end = r.start` is replaced by `{p.start, r.end}`; otherwise
`p` is flushed and `r` is buffered. -/
def coalescerTransition (pending : Option FILE_ZERO_DATA_INFORMATION)
    (r : FILE_ZERO_DATA_INFORMATION) :
    Option FILE_ZERO_DATA_INFORMATION × Option FILE_ZERO_DATA_INFORMATION :=
  match pending with
  | none => (none, some r)
  | some p =>
    if p.BeyondFinalZero = r.FileOffset then
      (none, some ⟨p.FileOffset, r.BeyondFinalZero⟩)
    else (some p, some r)

/-- A sequence of `deallocate_next` calls on the incoming ranges `rs`, ended
by the first exception. -/
def deallocate_next_all (S : Storage σ) : resparser σ → List FILE_ZERO_DATA_INFORMATION →
    Result σ
  | self, [] => .ok self
  | self, r :: rest =>
    match deallocate_next S self r with
    | .error e => .error e
    | .ok self => deallocate_next_all S self rest

/-! ## Failed reads -/

/-- The event is a read that failed or returned no byte: the condition
`!ReadFile(...) || bytesRead == 0` of `process_file`. -/
def IoEvent.failedRead : IoEvent → Bool
  | .read _ _ none => true
  | .read _ _ (some buff) => decide (buff.length = 0)
  | .deallocate _ => false

/-- How a run stands with respect to failed reads: either no read failed and
the run did not end with "Cannot read file part", or it ended with that
exception, the failed read is the last event of the trace, no read before it
failed, and the queue still holds what was pending at that moment: the
requests issued before the read followed by the queue are the coalesced zero
blocks read before it. -/
def ReadAbort (r : Result σ) : Prop :=
  (r.thrown ≠ some .CannotReadFilePart ∧ ∀ e ∈ r.final.trace, e.failedRead = false) ∨
  (r.thrown = some .CannotReadFilePart ∧
    ∃ pre ev, r.final.trace = pre ++ [ev] ∧ ev.failedRead = true ∧
      (∀ e ∈ pre, e.failedRead = false) ∧
      coalesce (zeroBlocks pre) = flushed pre ++ r.final.deallocateQueue)

/-! ## One iteration of the scan loop -/

/-- What one iteration of the scan loop does: leave the loop with a result
(normally or by an exception), or go round again with a new `pos`, range list
and object state. -/
inductive LoopStep (σ : Type) where
  | exit (result : Result σ)
  | next (pos : Int) (allocatedRanges : List range) (self : resparser σ)

/-- The loop condition and body of the scan loop of `process_file`
(main.cpp 205-249), executed once. -/
def process_file_iteration (S : Storage σ) (pos : Int) (allocatedRanges : List range)
    (self : resparser σ) : LoopStep σ :=
  if pos < self.fileSize then
    match allocatedRanges with
    | front :: rest =>
      if pos ≥ front.end_ then
        match rest with
        | [] => .exit (.ok self)
        | next :: _ => .next next.start rest self
      else
        match process_file_block S self pos allocatedRanges with
        | .error e => .exit (.error e)
        | .ok (self, pos) => .next pos allocatedRanges self
    | [] =>
      match process_file_block S self pos allocatedRanges with
      | .error e => .exit (.error e)
      | .ok (self, pos) => .next pos allocatedRanges self
  else
    .exit (.ok self)

/-! ## Bounds of a read -/

/-- The bounds of one read of the scan, for the block size `blockSize` and the
list `allocatedRanges` the run started from: the read was issued inside a
range `front` of the list, the length asked for is
`min(blockSize, front.end - pos)` itself (the cast to `DWORD` lost nothing)
and lies between 1 and `blockSize`, and what came back is no longer than
that. -/
def ReadInBounds (blockSize : Nat) (allocatedRanges : List range) : IoEvent → Prop
  | .read pos nNumberOfBytesToRead result =>
    (∃ front ∈ allocatedRanges, pos < front.end_ ∧
      (nNumberOfBytesToRead : Int) = min (blockSize : Int) (front.end_ - pos)) ∧
    1 ≤ nNumberOfBytesToRead ∧ nNumberOfBytesToRead ≤ blockSize ∧
    ∀ buff, result = some buff → buff.length ≤ nNumberOfBytesToRead
  | .deallocate _ => True

/-! ## The enumerator `get_allocated_ranges` -/

/-- The Windows structure of `FSCTL_QUERY_ALLOCATED_RANGES`, used both for the
query and for each entry of the answer. -/
structure FILE_ALLOCATED_RANGE_BUFFER where
  FileOffset : Int
  Length : Int
deriving DecidableEq, Repr

/-- What one `DeviceIoControl(FSCTL_QUERY_ALLOCATED_RANGES)` call reports:
success, failure with `ERROR_MORE_DATA`, or any other failure. `buff` holds the
entries written to the output buffer, so `bytesReturned / sizeof(buff[0])` is
its length. -/
inductive QueryResponse where
  | success (buff : List FILE_ALLOCATED_RANGE_BUFFER)
  | moreData (buff : List FILE_ALLOCATED_RANGE_BUFFER)
  | failure
deriving DecidableEq, Repr

/-- The query call on an abstract handle state `σ`: the handle, the queried
range and the number of entries the output buffer has room for. -/
structure QueryStorage (σ : Type) where
  FSCTL_QUERY_ALLOCATED_RANGES :
    σ → FILE_ALLOCATED_RANGE_BUFFER → Nat → QueryResponse × σ

/-- The outcomes of `get_allocated_ranges` other than a normal return: the
exception of main.cpp 128-131, and the loop cut off by the fuel of the
embedding. -/
inductive EnumerationException where
  | CannotGetAllocatedRanges
  | fuelExhausted
deriving DecidableEq, Repr

/-- The text passed to `std::exception` at the throw. -/
def EnumerationException.what : EnumerationException → String
  | .CannotGetAllocatedRanges => "Cannot get allocated ranges"
  | .fuelExhausted => "fuel exhausted"

/-- The local variables of `get_allocated_ranges` and the handle, with a ghost
field `queries` recording the query ranges in the order they are issued. -/
structure AllocatedRangesScan (σ : Type) where
  fileHandle : σ
  result : List range
  totalAllocated : Int
  pos : Int
  done : Bool
  queries : List FILE_ALLOCATED_RANGE_BUFFER

/-- The inner loop over the entries of one answer (main.cpp 135-150). -/
def get_allocated_ranges_items (st : AllocatedRangesScan σ)
    (buff : List FILE_ALLOCATED_RANGE_BUFFER) : AllocatedRangesScan σ :=
  buff.foldl (fun st item =>
    let start := item.FileOffset
    let len := item.Length
    let end_ := start + len
    { st with
      result := st.result ++ [{ start := start, end_ := end_ }]
      totalAllocated := st.totalAllocated + len
      pos := end_ }) st

/-- The loop of `get_allocated_ranges` (main.cpp 111-151) with an output
buffer of `capacity` entries, one query per unit of fuel. -/
def get_allocated_ranges_loop (Q : QueryStorage σ) (capacity : Nat) (fileSize : Int) :
    Nat → AllocatedRangesScan σ →
      Except (EnumerationException × AllocatedRangesScan σ) (AllocatedRangesScan σ)
  | 0, st => .error (.fuelExhausted, st)
  | fuel + 1, st =>
    if st.done = false ∧ st.pos < fileSize then
      let queryRange : FILE_ALLOCATED_RANGE_BUFFER :=
        { FileOffset := st.pos, Length := fileSize - st.pos }
      match Q.FSCTL_QUERY_ALLOCATED_RANGES st.fileHandle queryRange capacity with
      | (.failure, h) =>
        .error (.CannotGetAllocatedRanges,
          { st with fileHandle := h, done := false, queries := st.queries ++ [queryRange] })
      | (.success buff, h) =>
        get_allocated_ranges_loop Q capacity fileSize fuel
          (get_allocated_ranges_items
            { st with fileHandle := h, done := true, queries := st.queries ++ [queryRange] }
            buff)
      | (.moreData buff, h) =>
        get_allocated_ranges_loop Q capacity fileSize fuel
          (get_allocated_ranges_items
            { st with fileHandle := h, done := false, queries := st.queries ++ [queryRange] }
            buff)
    else
      .ok st

/-- The state `get_allocated_ranges` starts its loop in. -/
def AllocatedRangesScan.init (fileHandle : σ) : AllocatedRangesScan σ where
  fileHandle := fileHandle
  result := []
  totalAllocated := 0
  pos := 0
  done := false
  queries := []

/-- `resparser::get_allocated_ranges` (main.cpp 106-160) with the size of its
array `buff` as a parameter. -/
def get_allocated_ranges_sized (Q : QueryStorage σ) (capacity : Nat) (fileHandle : σ)
    (fileSize : Int) (fuel : Nat) :
    Except (EnumerationException × AllocatedRangesScan σ) (AllocatedRangesScan σ) :=
  get_allocated_ranges_loop Q capacity fileSize fuel (AllocatedRangesScan.init fileHandle)

/-- `resparser::get_allocated_ranges` (main.cpp 106-160): `buff` has 64
entries. The deque returned is the field `result`. -/
def get_allocated_ranges (Q : QueryStorage σ) (fileHandle : σ) (fileSize : Int)
    (fuel : Nat) :
    Except (EnumerationException × AllocatedRangesScan σ) (AllocatedRangesScan σ) :=
  get_allocated_ranges_sized Q 64 fileHandle fileSize fuel

/-- Modelled from the specification of the storage layer, not from code: the
storage holds the list `L` of allocated ranges and answers a query at
`queryRange.FileOffset` with the first `capacity` ranges of `L` that start at
or after it, flagging "more data" exactly when further such ranges remain. -/
def listQueryStorage (L : List range) : QueryStorage Unit where
  FSCTL_QUERY_ALLOCATED_RANGES := fun h queryRange capacity =>
    let matching := L.filter (fun r => decide (queryRange.FileOffset ≤ r.start))
    let buff := (matching.take capacity).map
      (fun r => ({ FileOffset := r.start, Length := r.end_ - r.start } :
        FILE_ALLOCATED_RANGE_BUFFER))
    if capacity < matching.length then (.moreData buff, h) else (.success buff, h)

/-- A storage layer that answers every query with "more data" and no entry. -/
def stuckQueryStorage : QueryStorage Unit where
  FSCTL_QUERY_ALLOCATED_RANGES := fun h _ _ => (.moreData [], h)

/-- The progress condition on a storage layer for buffers of `capacity`
entries: every answer flagged "more data" has at least one entry, and its last
entry ends strictly after the queried position. -/
def QueryStorage.Progress (Q : QueryStorage σ) (capacity : Nat) : Prop :=
  ∀ h queryRange buff h',
    Q.FSCTL_QUERY_ALLOCATED_RANGES h queryRange capacity = (.moreData buff, h') →
    ∃ last, buff.getLast? = some last ∧ queryRange.FileOffset < last.FileOffset + last.Length

/-- The exception an enumeration ended with, if any. -/
def enumerationThrown :
    Except (EnumerationException × AllocatedRangesScan σ) (AllocatedRangesScan σ) →
      Option EnumerationException
  | .ok _ => none
  | .error (e, _) => some e

/-- The state an enumeration ended in: the returned one, or the one at the
throw. -/
def enumerationFinal :
    Except (EnumerationException × AllocatedRangesScan σ) (AllocatedRangesScan σ) →
      AllocatedRangesScan σ
  | .ok st => st
  | .error (_, st) => st

/-! ## The blocks of the allocated ranges

Each allocated range split into consecutive blocks of `blockSize` bytes from
its start, the last one possibly shorter, and the all-zero ones among them. -/

/-- Block `j` of the range `r` split into consecutive blocks of `blockSize`
bytes from its start, the last one ending with the range. -/
def rangeBlock (blockSize : Nat) (r : range) (j : Nat) : FILE_ZERO_DATA_INFORMATION :=
  ⟨r.start + ((j * blockSize : Nat) : Int),
    min (r.start + (((j + 1) * blockSize : Nat) : Int)) r.end_⟩

/-- The bytes of the file in the interval `z`. -/
def intervalBytes (bytes : List UInt8) (z : FILE_ZERO_DATA_INFORMATION) : List UInt8 :=
  (bytes.drop z.FileOffset.toNat).take (z.BeyondFinalZero - z.FileOffset).toNat

/-- Position `x` lies in an allocated range, in a block of it whose bytes are
all zero. -/
def InZeroAllocatedBlock (blockSize : Nat) (bytes : List UInt8) (rs : List range)
    (x : Int) : Prop :=
  ∃ r ∈ rs, r.start ≤ x ∧ x < r.end_ ∧
    (intervalBytes bytes (rangeBlock blockSize r ((x - r.start).toNat / blockSize))).all
      (fun b => b == 0) = true

/-- The number of blocks of the range `r`. -/
def rangeNumBlocks (blockSize : Nat) (r : range) : Nat :=
  ((r.end_ - r.start).toNat + blockSize - 1) / blockSize

/-- Block `j` of the range `r` when its bytes are all zero. -/
def rangeZeroBlock (blockSize : Nat) (bytes : List UInt8) (r : range) (j : Nat) :
    Option FILE_ZERO_DATA_INFORMATION :=
  if (intervalBytes bytes (rangeBlock blockSize r j)).all (fun b => b == 0) = true then
    some (rangeBlock blockSize r j)
  else none

/-- The all-zero blocks among the first `k` blocks of the range `r`, in
order. -/
def rangeZeroBlocks (blockSize : Nat) (bytes : List UInt8) (r : range) (k : Nat) :
    List FILE_ZERO_DATA_INFORMATION :=
  (List.range k).filterMap (rangeZeroBlock blockSize bytes r)

/-- The all-zero blocks of the ranges of a list, in order. -/
def allocatedZeroBlocks (blockSize : Nat) (bytes : List UInt8) :
    List range → List FILE_ZERO_DATA_INFORMATION
  | [] => []
  | r :: rest =>
    rangeZeroBlocks blockSize bytes r (rangeNumBlocks blockSize r) ++
      allocatedZeroBlocks blockSize bytes rest

/-- The blocks of the first `k` blocks of the range `r` as reads: position
and length. -/
def rangeReads (blockSize : Nat) (r : range) (k : Nat) : List (Int × Nat) :=
  (List.range k).map (fun j =>
    ((rangeBlock blockSize r j).FileOffset,
      ((rangeBlock blockSize r j).BeyondFinalZero - (rangeBlock blockSize r j).FileOffset).toNat))

/-- The blocks of the ranges of a list as reads, in order. -/
def allocatedReads (blockSize : Nat) : List range → List (Int × Nat)
  | [] => []
  | r :: rest => rangeReads blockSize r (rangeNumBlocks blockSize r) ++ allocatedReads blockSize rest

/-- Invariant of the scan of a file over a list `rs0` whose first range starts
at offset 0: the ranges before the front one have been read block by block,
`pos` is the start of block `k` of the front range (or its end), and the reads
issued and the zero blocks found are those of the blocks gone through. -/
def RangeScan (blockSize : Nat) (bytes : List UInt8) (rs0 : List range) (pos : Int)
    (rs : List range) (t : List IoEvent) (h : SparseFile) : Prop :=
  FileInv bytes t h ∧
  ∃ done front rest k, rs0 = done ++ front :: rest ∧ rs = front :: rest ∧
    pos = min (front.start + ((k * blockSize : Nat) : Int)) front.end_ ∧
    (∀ k', k = k' + 1 → front.start + ((k' * blockSize : Nat) : Int) < front.end_) ∧
    zeroBlocks t = allocatedZeroBlocks blockSize bytes done ++
      rangeZeroBlocks blockSize bytes front k ∧
    readsOf t = allocatedReads blockSize done ++ rangeReads blockSize front k

/-! ## Example files -/

/-- A 12-byte file of three 4-byte blocks `[0000][ABCD][0000]`, fully
allocated. -/
def exampleThreeBlocks : SparseFile :=
  ⟨[0, 0, 0, 0, 65, 66, 67, 68, 0, 0, 0, 0], [⟨0, 12⟩]⟩

/-- A 12-byte all-zero file with a hole in the middle: allocated ranges
`[0,4)` and `[8,12)`. -/
def exampleHole : SparseFile :=
  ⟨[0, 0, 0, 0, 0, 0, 0, 0, 0, 0, 0, 0], [⟨0, 4⟩, ⟨8, 12⟩]⟩

/-- A 4-byte allocated file whose only block holds three zero bytes and one
non-zero byte. -/
def exampleMixedBlock : SparseFile := ⟨[0, 0, 0, 65], [⟨0, 4⟩]⟩

/-- A 12-byte file whose first 8 bytes are a hole (they read as zero) and
whose last 4 bytes `ABCD` are the only allocated range. -/
def exampleLeadingHole : SparseFile :=
  ⟨[0, 0, 0, 0, 0, 0, 0, 0, 65, 66, 67, 68], [⟨8, 12⟩]⟩

/-- A 4-byte file that is already fully sparse: no allocated range. -/
def exampleFullySparse : SparseFile := ⟨[0, 0, 0, 0], []⟩

/-- An 8-byte fully allocated file `[0000][ABCD]`. -/
def exampleLeadingZeroBlock : SparseFile := ⟨[0, 0, 0, 0, 65, 66, 67, 68], [⟨0, 8⟩]⟩

/-- A file whose size was recorded as 8 bytes but that holds only 4 zero
bytes when it is read: the read at offset 4 returns no byte. -/
def exampleTruncated : SparseFile := ⟨[0, 0, 0, 0], [⟨0, 8⟩]⟩

/-- A 6-byte fully allocated file `[0000][AB]`: with block size 4 the last
read is clipped to 2 bytes by the end of the range. -/
def exampleSixBytes : SparseFile := ⟨[0, 0, 0, 0, 65, 66], [⟨0, 6⟩]⟩

/-- A list of 65 allocated ranges, one more than the buffer of
`get_allocated_ranges` holds: the one-byte ranges `[2i, 2i+1)` for `i < 65`, of
a 130-byte file. -/
def exampleManyRanges : List range :=
  (List.range 65).map (fun i => ⟨2 * (i : Int), 2 * (i : Int) + 1⟩)

/-- A 12-byte file `[0000][0A][0000][BC]` allocated as the two adjacent ranges
`[0,6)` and `[6,12)`. -/
def exampleTwoRanges : SparseFile :=
  ⟨[0, 0, 0, 0, 0, 65, 0, 0, 0, 0, 66, 67], [⟨0, 6⟩, ⟨6, 12⟩]⟩

/-! ## Basic facts -/

theorem flushed_append (t u : List IoEvent) : flushed (t ++ u) = flushed t ++ flushed u := by
  induction t with
  | nil => rfl
  | cons e t ih => cases e <;> simp [flushed, ih]

theorem zeroBlocks_append (t u : List IoEvent) :
    zeroBlocks (t ++ u) = zeroBlocks t ++ zeroBlocks u := by
  induction t with
  | nil => rfl
  | cons e t ih =>
    simp only [List.cons_append, zeroBlocks]
    cases zeroBlock e <;> simp [ih]

theorem totalLength_append (a b : List FILE_ZERO_DATA_INFORMATION) :
    totalLength (a ++ b) = totalLength a + totalLength b := by
  induction a with
  | nil => simp [totalLength]
  | cons z a ih => simp [totalLength, ih]; ring

theorem coalesce_snoc (zs : List FILE_ZERO_DATA_INFORMATION) (z : FILE_ZERO_DATA_INFORMATION) :
    coalesce (zs ++ [z]) = coalesceStep (coalesce zs) z := by
  simp [coalesce, List.foldl_append]

theorem io_deallocate_range_eq (S : Storage σ) (self : resparser σ)
    (r : FILE_ZERO_DATA_INFORMATION) :
    io_deallocate_range S self r =
      match S.FSCTL_SET_ZERO_DATA self.fileHandle r with
      | none => .error (.CannotSetZeroData,
          { self with trace := self.trace ++ [IoEvent.deallocate r] })
      | some h => .ok { self with
          fileHandle := h
          trace := self.trace ++ [IoEvent.deallocate r]
          deallocated_bytes := self.deallocated_bytes + (r.BeyondFinalZero - r.FileOffset) } := by
  unfold io_deallocate_range
  dsimp only

theorem deallocate_next_nil (S : Storage σ) (self : resparser σ)
    (r : FILE_ZERO_DATA_INFORMATION) (hq : self.deallocateQueue = []) :
    deallocate_next S self r = .ok { self with deallocateQueue := [r] } := by
  simp [deallocate_next, hq]

theorem deallocate_next_adjacent (S : Storage σ) (self : resparser σ)
    (p r : FILE_ZERO_DATA_INFORMATION) (hq : self.deallocateQueue = [p])
    (hadj : p.BeyondFinalZero = r.FileOffset) :
    deallocate_next S self r =
      .ok { self with deallocateQueue := [⟨p.FileOffset, r.BeyondFinalZero⟩] } := by
  simp [deallocate_next, hq, hadj]

theorem deallocate_next_apart (S : Storage σ) (self : resparser σ)
    (p r : FILE_ZERO_DATA_INFORMATION) (hq : self.deallocateQueue = [p])
    (hadj : p.BeyondFinalZero ≠ r.FileOffset) :
    deallocate_next S self r =
      match S.FSCTL_SET_ZERO_DATA self.fileHandle p with
      | none => .error (.CannotSetZeroData,
          { self with trace := self.trace ++ [IoEvent.deallocate p] })
      | some h => .ok { self with
          fileHandle := h
          trace := self.trace ++ [IoEvent.deallocate p]
          deallocated_bytes := self.deallocated_bytes + (p.BeyondFinalZero - p.FileOffset)
          deallocateQueue := [r] } := by
  simp only [deallocate_next, hq, List.getLast?_singleton, List.head?_cons, if_neg hadj,
    io_deallocate_range_eq]
  cases S.FSCTL_SET_ZERO_DATA self.fileHandle p <;> simp [hq]

/-- What a normally completed iteration body did. -/
theorem process_file_block_ok (S : Storage σ) (self self' : resparser σ) (pos pos' : Int)
    (rs : List range) (h : process_file_block S self pos rs = .ok (self', pos')) :
    ∃ front rest buff hd,
      rs = front :: rest ∧ S.SetFilePointerEx self.fileHandle pos = true ∧
      S.ReadFile self.fileHandle pos (requestedLength self.blockSize front pos) = some (buff, hd) ∧
      buff.length ≠ 0 ∧ pos' = pos + (buff.length : Int) ∧
      ((buff.all (fun i => i == 0) = true ∧
          deallocate_next S
            (afterRead self pos (requestedLength self.blockSize front pos) buff hd)
            ⟨pos, pos + (buff.length : Int)⟩ = .ok self') ∨
       (buff.all (fun i => i == 0) = false ∧
          self' = afterRead self pos (requestedLength self.blockSize front pos) buff hd)) := by
  unfold process_file_block at h
  split at h
  · cases h
  · rename_i hseek
    replace hseek : S.SetFilePointerEx self.fileHandle pos = true := by simpa using hseek
    cases rs with
    | nil => cases h
    | cons front rest =>
      refine ⟨front, rest, ?_⟩
      dsimp only at h
      cases hr : S.ReadFile self.fileHandle pos (requestedLength self.blockSize front pos) with
      | none => rw [hr] at h; cases h
      | some v =>
        obtain ⟨buff, hd⟩ := v
        rw [hr] at h
        dsimp only at h
        refine ⟨buff, hd, rfl, hseek, rfl, ?_⟩
        split at h
        · cases h
        · rename_i hlen
          split at h
          · rename_i hz
            split at h
            · cases h
            · rename_i s2 hdn
              cases h
              exact ⟨hlen, rfl, Or.inl ⟨hz, hdn⟩⟩
          · rename_i hz
            cases h
            exact ⟨hlen, rfl, Or.inr ⟨by simpa using hz, rfl⟩⟩

/-- What an iteration body that threw did. -/
theorem process_file_block_error (S : Storage σ) (self self' : resparser σ) (pos : Int)
    (rs : List range) (e : Exception)
    (h : process_file_block S self pos rs = .error (e, self')) :
    (self' = self ∧ ((e = .CannotSetFilePointer ∧ S.SetFilePointerEx self.fileHandle pos = false) ∨
      (e = .emptyDequeFront ∧ rs = []))) ∨
    (∃ front rest, rs = front :: rest ∧ e = .CannotReadFilePart ∧
      S.SetFilePointerEx self.fileHandle pos = true ∧
      S.ReadFile self.fileHandle pos (requestedLength self.blockSize front pos) = none ∧
      self' = { self with trace := self.trace ++
        [IoEvent.read pos (requestedLength self.blockSize front pos) none] }) ∨
    (∃ front rest buff hd, rs = front :: rest ∧
      S.SetFilePointerEx self.fileHandle pos = true ∧
      S.ReadFile self.fileHandle pos (requestedLength self.blockSize front pos) = some (buff, hd) ∧
      ((buff.length = 0 ∧ e = .CannotReadFilePart ∧
          self' = afterRead self pos (requestedLength self.blockSize front pos) buff hd) ∨
       (buff.length ≠ 0 ∧ buff.all (fun i => i == 0) = true ∧
          deallocate_next S
            (afterRead self pos (requestedLength self.blockSize front pos) buff hd)
            ⟨pos, pos + (buff.length : Int)⟩ = .error (e, self')))) := by
  unfold process_file_block at h
  split at h
  · rename_i hseek
    cases h
    exact Or.inl ⟨rfl, Or.inl ⟨rfl, hseek⟩⟩
  · rename_i hseek
    replace hseek : S.SetFilePointerEx self.fileHandle pos = true := by simpa using hseek
    cases rs with
    | nil =>
      cases h
      exact Or.inl ⟨rfl, Or.inr ⟨rfl, rfl⟩⟩
    | cons front rest =>
      dsimp only at h
      cases hr : S.ReadFile self.fileHandle pos (requestedLength self.blockSize front pos) with
      | none =>
        rw [hr] at h
        cases h
        exact Or.inr (Or.inl ⟨front, rest, rfl, rfl, hseek, hr, rfl⟩)
      | some v =>
        obtain ⟨buff, hd⟩ := v
        rw [hr] at h
        dsimp only at h
        refine Or.inr (Or.inr ⟨front, rest, buff, hd, rfl, hseek, hr, ?_⟩)
        split at h
        · rename_i hlen
          cases h
          exact Or.inl ⟨hlen, rfl, rfl⟩
        · rename_i hlen
          split at h
          · rename_i hz
            split at h
            · rename_i e2 hdn
              cases h
              exact Or.inr ⟨hlen, hz, hdn⟩
            · cases h
          · cases h

/-- Induction over the scan loop: an invariant of the loop variables that
every pass keeps gives the postcondition of every way the loop ends. -/
theorem process_file_loop_induct (S : Storage σ)
    (Inv : Int → List range → resparser σ → Prop) (Post : Result σ → Prop)
    (hfuel : ∀ pos rs s, Inv pos rs s → Post (.error (.fuelExhausted, s)))
    (hexit : ∀ pos rs s, Inv pos rs s → ¬ pos < s.fileSize → Post (.ok s))
    (hbreak : ∀ pos front s, Inv pos [front] s → pos < s.fileSize → front.end_ ≤ pos →
      Post (.ok s))
    (hpop : ∀ pos front next rest s, Inv pos (front :: next :: rest) s → pos < s.fileSize →
      front.end_ ≤ pos → Inv next.start (next :: rest) s)
    (hblockOk : ∀ pos rs s s' pos', Inv pos rs s → pos < s.fileSize →
      (∀ front ∈ rs.head?, pos < front.end_) →
      process_file_block S s pos rs = .ok (s', pos') → Inv pos' rs s')
    (hblockErr : ∀ pos rs s e, Inv pos rs s → pos < s.fileSize →
      (∀ front ∈ rs.head?, pos < front.end_) →
      process_file_block S s pos rs = .error e → Post (.error e)) :
    ∀ fuel pos rs s, Inv pos rs s → Post (process_file_loop S fuel pos rs s) := by
  intro fuel
  induction fuel with
  | zero => intro pos rs s hI; exact hfuel pos rs s hI
  | succ fuel ih =>
    intro pos rs s hI
    unfold process_file_loop
    by_cases hlt : pos < s.fileSize
    · rw [if_pos hlt]
      cases rs with
      | nil =>
        dsimp only
        cases hb : process_file_block S s pos [] with
        | error e => exact hblockErr pos [] s e hI hlt (by simp) hb
        | ok v =>
          obtain ⟨s', pos'⟩ := v
          exact ih pos' [] s' (hblockOk pos [] s s' pos' hI hlt (by simp) hb)
      | cons front rest =>
        dsimp only
        by_cases hge : pos ≥ front.end_
        · rw [if_pos hge]
          cases rest with
          | nil => exact hbreak pos front s hI hlt hge
          | cons next rest => exact ih _ _ _ (hpop pos front next rest s hI hlt hge)
        · rw [if_neg hge]
          have hfr : ∀ f ∈ (front :: rest).head?, pos < f.end_ := by
            intro f hf
            simp at hf
            subst hf
            omega
          cases hb : process_file_block S s pos (front :: rest) with
          | error e => exact hblockErr pos _ s e hI hlt hfr hb
          | ok v =>
            obtain ⟨s', pos'⟩ := v
            exact ih pos' _ s' (hblockOk pos _ s s' pos' hI hlt hfr hb)
    · rw [if_neg hlt]
      exact hexit pos rs s hI hlt

theorem io_deallocate_range_frame (S : Storage σ) (self self' : resparser σ)
    (r : FILE_ZERO_DATA_INFORMATION) (h : io_deallocate_range S self r = .ok self') :
    self'.fileSize = self.fileSize ∧ self'.blockSize = self.blockSize ∧
      self'.deallocateQueue = self.deallocateQueue := by
  rw [io_deallocate_range_eq] at h
  split at h
  · cases h
  · cases h
    exact ⟨rfl, rfl, rfl⟩

theorem deallocate_next_frame (S : Storage σ) (self self' : resparser σ)
    (r : FILE_ZERO_DATA_INFORMATION) (h : deallocate_next S self r = .ok self') :
    self'.fileSize = self.fileSize ∧ self'.blockSize = self.blockSize := by
  unfold deallocate_next at h
  split at h
  · split at h
    · cases h
      exact ⟨rfl, rfl⟩
    · split at h
      · cases h
      · rename_i s1 h1
        cases h
        have := io_deallocate_range_frame S self s1 _ h1
        exact ⟨this.1, this.2.1⟩
  · cases h
    exact ⟨rfl, rfl⟩

theorem process_file_block_frame (S : Storage σ) (self self' : resparser σ) (pos pos' : Int)
    (rs : List range) (h : process_file_block S self pos rs = .ok (self', pos')) :
    self'.fileSize = self.fileSize ∧ self'.blockSize = self.blockSize ∧ pos < pos' := by
  obtain ⟨front, rest, buff, hd, -, -, -, hlen, hpos, hcase⟩ := process_file_block_ok S _ _ _ _ _ h
  have hp : pos < pos' := by omega
  rcases hcase with ⟨-, hdn⟩ | ⟨-, rfl⟩
  · have := deallocate_next_frame S _ _ _ hdn
    exact ⟨this.1, this.2, hp⟩
  · exact ⟨rfl, rfl, hp⟩

/-- The scan loop never runs out of fuel when given one unit per byte left
before `fileSize` and the units of the ranges behind the front one. -/
theorem process_file_loop_fuel (S : Storage σ) :
    ∀ (fuel : Nat) (pos : Int) (rs : List range) (s : resparser σ),
      (s.fileSize - pos).toNat + rangesFuel s.fileSize rs.tail < fuel →
      (process_file_loop S fuel pos rs s).thrown ≠ some .fuelExhausted := by
  intro fuel
  induction fuel with
  | zero => intro pos rs s h; omega
  | succ fuel ih =>
    intro pos rs s hf
    unfold process_file_loop
    by_cases hlt : pos < s.fileSize
    · rw [if_pos hlt]
      have hblock : ∀ rs' : List range, rs'.tail = rs.tail →
          Result.thrown (match process_file_block S s pos rs' with
            | .error e => (.error e : Result σ)
            | .ok (self, pos) => process_file_loop S fuel pos rs' self)
            ≠ some .fuelExhausted := by
        intro rs' hrs'
        cases hb : process_file_block S s pos rs' with
        | error e =>
          obtain ⟨e, s'⟩ := e
          rcases process_file_block_error S _ _ _ _ _ hb with ⟨-, ⟨h, -⟩ | ⟨h, -⟩⟩ | ⟨_, _, -, h, -⟩ | h
          · subst h; simp [Result.thrown]
          · subst h; simp [Result.thrown]
          · subst h; simp [Result.thrown]
          · obtain ⟨front, rest, buff, hd, -, -, -, h | ⟨-, -, h⟩⟩ := h
            · rw [h.2.1]; simp [Result.thrown]
            · unfold deallocate_next at h
              split at h
              · split at h
                · cases h
                · rw [io_deallocate_range_eq] at h
                  split at h
                  · rename_i h1
                    split at h1
                    · cases h1; cases h; simp [Result.thrown]
                    · cases h1
                  · cases h
              · cases h
        | ok v =>
          obtain ⟨s', pos'⟩ := v
          obtain ⟨hfs, -, hp⟩ := process_file_block_frame S _ _ _ _ _ hb
          apply ih
          rw [hfs, hrs']
          omega
      cases rs with
      | nil => exact hblock [] rfl
      | cons front rest =>
        dsimp only
        by_cases hge : pos ≥ front.end_
        · rw [if_pos hge]
          cases rest with
          | nil => simp [Result.thrown]
          | cons next rest =>
            apply ih
            simp only [List.tail_cons, rangesFuel] at hf ⊢
            omega
        · rw [if_neg hge]
          exact hblock _ rfl
    · rw [if_neg hlt]
      simp [Result.thrown]

/-! ## The queue against the coalescer function -/

theorem coalesceStep_nil (z : FILE_ZERO_DATA_INFORMATION) : coalesceStep [] z = [z] := rfl

theorem coalesceStep_snoc (F : List FILE_ZERO_DATA_INFORMATION)
    (p z : FILE_ZERO_DATA_INFORMATION) :
    coalesceStep (F ++ [p]) z =
      if p.BeyondFinalZero = z.FileOffset then F ++ [⟨p.FileOffset, z.BeyondFinalZero⟩]
      else F ++ [p, z] := by
  simp [coalesceStep]

theorem Core.coalesce_eq {s : resparser σ} (h : Core s) :
    coalesce (zeroBlocks s.trace) = flushed s.trace ++ s.deallocateQueue := by
  rcases h.2 with ⟨hq, hf, hz⟩ | ⟨p, hq, hf⟩
  · rw [hq, hf, hz]; rfl
  · rw [hq, hf]

theorem Core.toErr {s : resparser σ} (h : Core s) : CoreErr s :=
  ⟨s.deallocateQueue, h.coalesce_eq⟩

theorem zeroBlocks_read_some (pos : Int) (n : Nat) (buff : List UInt8)
    (hlen : buff.length ≠ 0) (hz : buff.all (fun i => i == 0) = true) :
    zeroBlocks [IoEvent.read pos n (some buff)] = [⟨pos, pos + (buff.length : Int)⟩] := by
  simp [zeroBlocks, zeroBlock, hlen, hz]

theorem zeroBlocks_deallocate (r : FILE_ZERO_DATA_INFORMATION) :
    zeroBlocks [IoEvent.deallocate r] = [] := rfl

theorem zeroBlocks_read_nonzero (pos : Int) (n : Nat) (buff : List UInt8)
    (hz : buff.length = 0 ∨ buff.all (fun i => i == 0) = false) :
    zeroBlocks [IoEvent.read pos n (some buff)] = [] := by
  rcases hz with hz | hz <;> simp [zeroBlocks, zeroBlock, hz]

/-- A zero block handed to `deallocate_next` keeps the invariant. -/
theorem Core.deallocate_next_ok (S : Storage σ) (s s' : resparser σ) (pos : Int) (n : Nat)
    (buff : List UInt8) (hd : σ) (hI : Core s) (hlen : buff.length ≠ 0)
    (hz : buff.all (fun i => i == 0) = true)
    (h : deallocate_next S (afterRead s pos n buff hd) ⟨pos, pos + (buff.length : Int)⟩
      = .ok s') : Core s' := by
  obtain ⟨hc, hshape⟩ := hI
  have hzb := zeroBlocks_read_some pos n buff hlen hz
  rcases hshape with ⟨hq, hf, hzs⟩ | ⟨p, hq, hf⟩
  · rw [deallocate_next_nil S _ _ (by simpa [afterRead] using hq)] at h
    cases h
    refine ⟨by simpa [afterRead, flushed_append, flushed] using hc, Or.inr ⟨_, rfl, ?_⟩⟩
    simp [afterRead, flushed_append, flushed, zeroBlocks_append, hzb, hf, hzs, coalesce,
      coalesceStep]
  · by_cases hadj : p.BeyondFinalZero = pos
    · rw [deallocate_next_adjacent S _ p _ (by simpa [afterRead] using hq) hadj] at h
      cases h
      refine ⟨by simpa [afterRead, flushed_append, flushed] using hc, Or.inr ⟨_, rfl, ?_⟩⟩
      simp only [afterRead, flushed_append, flushed, zeroBlocks_append, hzb, coalesce_snoc,
        ← hf, coalesceStep_snoc, List.append_nil]
      rw [if_pos hadj]
    · rw [deallocate_next_apart S _ p _ (by simpa [afterRead] using hq) hadj] at h
      split at h
      · cases h
      · cases h
        refine ⟨?_, Or.inr ⟨_, rfl, ?_⟩⟩
        · simp [afterRead, flushed_append, flushed, totalLength_append, totalLength, hc]
        · simp only [afterRead, flushed_append, flushed, zeroBlocks_append, hzb,
            zeroBlocks_deallocate, coalesce_snoc, ← hf, coalesceStep_snoc, List.append_nil]
          rw [if_neg hadj]
          simp

/-- A zero block on which `deallocate_next` throws leaves the requests issued
an initial part of the coalesced zero blocks. -/
theorem Core.deallocate_next_error (S : Storage σ) (s s' : resparser σ) (pos : Int) (n : Nat)
    (buff : List UInt8) (hd : σ) (e : Exception) (hI : Core s) (hlen : buff.length ≠ 0)
    (hz : buff.all (fun i => i == 0) = true)
    (h : deallocate_next S (afterRead s pos n buff hd) ⟨pos, pos + (buff.length : Int)⟩
      = .error (e, s')) : CoreErr s' ∧ e = .CannotSetZeroData := by
  obtain ⟨hc, hshape⟩ := hI
  have hzb := zeroBlocks_read_some pos n buff hlen hz
  rcases hshape with ⟨hq, hf, hzs⟩ | ⟨p, hq, hf⟩
  · rw [deallocate_next_nil S _ _ (by simpa [afterRead] using hq)] at h
    cases h
  · by_cases hadj : p.BeyondFinalZero = pos
    · rw [deallocate_next_adjacent S _ p _ (by simpa [afterRead] using hq) hadj] at h
      cases h
    · rw [deallocate_next_apart S _ p _ (by simpa [afterRead] using hq) hadj] at h
      split at h
      · cases h
        refine ⟨⟨[⟨pos, pos + (buff.length : Int)⟩], ?_⟩, rfl⟩
        simp only [afterRead, flushed_append, flushed, zeroBlocks_append, hzb,
          zeroBlocks_deallocate, coalesce_snoc, ← hf, coalesceStep_snoc, List.append_nil]
        rw [if_neg hadj]
        simp
      · cases h

theorem Core.block_ok (S : Storage σ) (s s' : resparser σ) (pos pos' : Int) (rs : List range)
    (hI : Core s) (h : process_file_block S s pos rs = .ok (s', pos')) : Core s' := by
  obtain ⟨front, rest, buff, hd, -, -, -, hlen, -, hcase⟩ := process_file_block_ok S _ _ _ _ _ h
  rcases hcase with ⟨hz, hdn⟩ | ⟨hz, rfl⟩
  · exact Core.deallocate_next_ok S s s' pos _ buff hd hI hlen hz hdn
  · have hzb := zeroBlocks_read_nonzero pos (requestedLength s.blockSize front pos) buff
      (Or.inr hz)
    simpa [Core, afterRead, flushed_append, flushed, zeroBlocks_append, hzb] using hI

theorem Core.block_error (S : Storage σ) (s s' : resparser σ) (pos : Int) (rs : List range)
    (e : Exception) (hI : Core s) (h : process_file_block S s pos rs = .error (e, s')) :
    CoreErr s' := by
  rcases process_file_block_error S _ _ _ _ _ h with ⟨rfl, -⟩ | ⟨front, rest, -, -, -, -, rfl⟩ |
    ⟨front, rest, buff, hd, -, -, -, ⟨hlen, -, rfl⟩ | ⟨hlen, hz, hdn⟩⟩
  · exact hI.toErr
  · refine ⟨s.deallocateQueue, ?_⟩
    simpa [flushed_append, flushed, zeroBlocks_append, zeroBlocks, zeroBlock] using hI.coalesce_eq
  · have hzb := zeroBlocks_read_nonzero pos (requestedLength s.blockSize front pos) buff
      (Or.inl hlen)
    refine ⟨s.deallocateQueue, ?_⟩
    simpa [afterRead, flushed_append, flushed, zeroBlocks_append, hzb] using hI.coalesce_eq
  · exact (Core.deallocate_next_error S s s' pos _ buff hd e hI hlen hz hdn).1

/-- The effect of `deallocate_next` on the trace and the handle when the queue
holds at most one range: nothing, or one request for the pending range. -/
theorem deallocate_next_trace (S : Storage σ) (s : resparser σ)
    (z : FILE_ZERO_DATA_INFORMATION)
    (hq : s.deallocateQueue = [] ∨ ∃ p, s.deallocateQueue = [p]) :
    (∃ s', deallocate_next S s z = .ok s' ∧ s'.trace = s.trace ∧
        s'.fileHandle = s.fileHandle) ∨
    (∃ p, s.deallocateQueue = [p] ∧ p.BeyondFinalZero ≠ z.FileOffset ∧
      ((∃ h' s', S.FSCTL_SET_ZERO_DATA s.fileHandle p = some h' ∧
          deallocate_next S s z = .ok s' ∧
          s'.trace = s.trace ++ [IoEvent.deallocate p] ∧ s'.fileHandle = h') ∨
       (∃ s', S.FSCTL_SET_ZERO_DATA s.fileHandle p = none ∧
          deallocate_next S s z = .error (.CannotSetZeroData, s') ∧
          s'.trace = s.trace ++ [IoEvent.deallocate p] ∧ s'.fileHandle = s.fileHandle))) := by
  rcases hq with hq | ⟨p, hq⟩
  · exact Or.inl ⟨_, deallocate_next_nil S s z hq, rfl, rfl⟩
  · by_cases hadj : p.BeyondFinalZero = z.FileOffset
    · exact Or.inl ⟨_, deallocate_next_adjacent S s p z hq hadj, rfl, rfl⟩
    · refine Or.inr ⟨p, hq, hadj, ?_⟩
      have h := deallocate_next_apart S s p z hq hadj
      cases hf : S.FSCTL_SET_ZERO_DATA s.fileHandle p with
      | none =>
        rw [hf] at h
        exact Or.inr ⟨_, rfl, h, rfl, rfl⟩
      | some h' =>
        rw [hf] at h
        exact Or.inl ⟨h', _, rfl, h, rfl, rfl⟩

theorem Core.queue_shape {s : resparser σ} (h : Core s) :
    s.deallocateQueue = [] ∨ ∃ p, s.deallocateQueue = [p] := by
  rcases h.2 with ⟨hq, -⟩ | ⟨p, hq, -⟩
  · exact Or.inl hq
  · exact Or.inr ⟨p, hq⟩

theorem Core.mem_coalesce {s : resparser σ} (h : Core s) (p : FILE_ZERO_DATA_INFORMATION)
    (hp : p ∈ s.deallocateQueue) : p ∈ coalesce (zeroBlocks s.trace) := by
  rw [h.coalesce_eq]
  exact List.mem_append_right _ hp

theorem Core.mem_coalesce_snoc {s : resparser σ} (hC : Core s)
    (p z : FILE_ZERO_DATA_INFORMATION) (hq : s.deallocateQueue = [p])
    (hadj : p.BeyondFinalZero ≠ z.FileOffset) :
    p ∈ coalesce (zeroBlocks s.trace ++ [z]) := by
  rcases hC.2 with ⟨hq', -⟩ | ⟨p', hq', hf⟩
  · rw [hq] at hq'; cases hq'
  · rw [hq] at hq'
    cases hq'
    rw [coalesce_snoc, ← hf, coalesceStep_snoc, if_neg hadj]
    simp

/-- The scan loop, for an invariant `J` of the loop variables, the trace and
the handle that is kept by dropping a range, by every read and by every
request for a range of the coalesced zero blocks: `J` holds where the loop
ends, together with the queue invariant. -/
theorem process_file_loop_spec (S : Storage σ) (bs : Nat) (fs : Int)
    (J : Int → List range → List IoEvent → σ → Prop)
    (hpop : ∀ pos front next rest t h, J pos (front :: next :: rest) t h → pos < fs →
      front.end_ ≤ pos → J next.start (next :: rest) t h)
    (hread : ∀ pos front rest t h buff hd, J pos (front :: rest) t h → pos < fs →
      pos < front.end_ → S.SetFilePointerEx h pos = true →
      S.ReadFile h pos (requestedLength bs front pos) = some (buff, hd) →
      J (pos + (buff.length : Int)) (front :: rest)
        (t ++ [IoEvent.read pos (requestedLength bs front pos) (some buff)]) hd)
    (hreadFail : ∀ pos front rest t h, J pos (front :: rest) t h → pos < fs →
      pos < front.end_ → S.SetFilePointerEx h pos = true →
      S.ReadFile h pos (requestedLength bs front pos) = none →
      J pos (front :: rest) (t ++ [IoEvent.read pos (requestedLength bs front pos) none]) h)
    (hdealloc : ∀ pos rs t h p h', J pos rs t h → p ∈ coalesce (zeroBlocks t) →
      S.FSCTL_SET_ZERO_DATA h p = some h' → J pos rs (t ++ [IoEvent.deallocate p]) h')
    (hdeallocFail : ∀ pos rs t h p, J pos rs t h → p ∈ coalesce (zeroBlocks t) →
      S.FSCTL_SET_ZERO_DATA h p = none → J pos rs (t ++ [IoEvent.deallocate p]) h) :
    ∀ fuel pos rs s, Core s → s.blockSize = bs → s.fileSize = fs →
      J pos rs s.trace s.fileHandle →
      match process_file_loop S fuel pos rs s with
      | .ok s' => Core s' ∧ s'.fileSize = fs ∧
          ∃ pos' rs', J pos' rs' s'.trace s'.fileHandle ∧ ScanEnd fs pos' rs'
      | .error (e, s') => CoreErr s' ∧ (∃ pos' rs', J pos' rs' s'.trace s'.fileHandle) ∧
          (e = .fuelExhausted ∨ Cause S bs fs J e) := by
  intro fuel pos rs s hC hbs hfs hJ
  refine process_file_loop_induct S
    (fun pos rs s => Core s ∧ s.blockSize = bs ∧ s.fileSize = fs ∧ J pos rs s.trace s.fileHandle)
    (fun r => match r with
      | .ok s' => Core s' ∧ s'.fileSize = fs ∧
          ∃ pos' rs', J pos' rs' s'.trace s'.fileHandle ∧ ScanEnd fs pos' rs'
      | .error (e, s') => CoreErr s' ∧ (∃ pos' rs', J pos' rs' s'.trace s'.fileHandle) ∧
          (e = .fuelExhausted ∨ Cause S bs fs J e))
    ?_ ?_ ?_ ?_ ?_ ?_ fuel pos rs s ⟨hC, hbs, hfs, hJ⟩
  · rintro pos rs s ⟨hC, -, -, hJ⟩
    exact ⟨hC.toErr, ⟨pos, rs, hJ⟩, Or.inl rfl⟩
  · rintro pos rs s ⟨hC, -, hfs, hJ⟩ hlt
    exact ⟨hC, hfs, pos, rs, hJ, Or.inl (by rw [← hfs]; exact hlt)⟩
  · rintro pos front s ⟨hC, -, hfs, hJ⟩ - hge
    exact ⟨hC, hfs, pos, [front], hJ, Or.inr ⟨front, rfl, hge⟩⟩
  · rintro pos front next rest s ⟨hC, hbs, hfs, hJ⟩ hlt hge
    exact ⟨hC, hbs, hfs, hpop _ _ _ _ _ _ hJ (by rw [← hfs]; exact hlt) hge⟩
  · rintro pos rs s s' pos' ⟨hC, hbs, hfs, hJ⟩ hlt hfront hb
    obtain ⟨hfs', hbs', -⟩ := process_file_block_frame S _ _ _ _ _ hb
    refine ⟨Core.block_ok S _ _ _ _ _ hC hb, by rw [hbs', hbs], by rw [hfs', hfs], ?_⟩
    obtain ⟨front, rest, buff, hd, rfl, hseek, hrd, hlen, rfl, hcase⟩ :=
      process_file_block_ok S _ _ _ _ _ hb
    have hpf : pos < front.end_ := hfront front (by simp)
    rw [hbs] at hrd hcase
    have hJ1 := hread _ _ _ _ _ _ _ hJ (by rw [← hfs]; exact hlt) hpf hseek hrd
    rcases hcase with ⟨hz, hdn⟩ | ⟨-, rfl⟩
    · have hzb := zeroBlocks_read_some pos (requestedLength bs front pos) buff hlen hz
      rcases deallocate_next_trace S (afterRead s pos (requestedLength bs front pos) buff hd)
          ⟨pos, pos + (buff.length : Int)⟩ hC.queue_shape with
        ⟨s'', hdn', ht, hh⟩ | ⟨p, hq, hadj, ⟨h', s'', hf, hdn', ht, hh⟩ | ⟨s'', -, hdn', -, -⟩⟩
      · rw [hdn] at hdn'
        cases hdn'
        rw [ht, hh]
        exact hJ1
      · rw [hdn] at hdn'
        cases hdn'
        rw [ht, hh]
        refine hdealloc _ _ _ _ p h' hJ1 ?_ hf
        show p ∈ coalesce (zeroBlocks (s.trace ++ [_]))
        rw [zeroBlocks_append, hzb]
        exact hC.mem_coalesce_snoc p _ hq hadj
      · rw [hdn] at hdn'
        cases hdn'
    · exact hJ1
  · rintro pos rs s ⟨e, s'⟩ ⟨hC, hbs, hfs, hJ⟩ hlt hfront hb
    refine ⟨Core.block_error S _ _ _ _ _ hC hb, ?_⟩
    have hlt' : pos < fs := by rw [← hfs]; exact hlt
    rcases process_file_block_error S _ _ _ _ _ hb with
      ⟨rfl, hwhy⟩ | ⟨front, rest, rfl, rfl, hseek, hrd, rfl⟩ |
      ⟨front, rest, buff, hd, rfl, hseek, hrd, ⟨hlen, rfl, rfl⟩ | ⟨hlen, hz, hdn⟩⟩
    · refine ⟨⟨pos, rs, hJ⟩, Or.inr ⟨pos, rs, _, _, hJ, ?_⟩⟩
      rcases hwhy with ⟨rfl, hseek⟩ | ⟨rfl, rfl⟩
      · exact Or.inl ⟨rfl, hlt', hseek⟩
      · exact Or.inr (Or.inl ⟨rfl, hlt', rfl⟩)
    · have hpf : pos < front.end_ := hfront front (by simp)
      rw [hbs] at hrd ⊢
      exact ⟨⟨_, _, hreadFail _ _ _ _ _ hJ hlt' hpf hseek hrd⟩,
        Or.inr ⟨pos, _, _, _, hJ, Or.inr (Or.inr (Or.inl
          ⟨rfl, hlt', front, rest, rfl, hpf, hseek, Or.inl hrd⟩))⟩⟩
    · have hpf : pos < front.end_ := hfront front (by simp)
      rw [hbs] at hrd ⊢
      have hnil : buff = [] := List.length_eq_zero.mp hlen
      subst hnil
      exact ⟨⟨_, _, hread _ _ _ _ _ _ _ hJ hlt' hpf hseek hrd⟩,
        Or.inr ⟨pos, _, _, _, hJ, Or.inr (Or.inr (Or.inl
          ⟨rfl, hlt', front, rest, rfl, hpf, hseek, Or.inr ⟨hd, hrd⟩⟩))⟩⟩
    · have hpf : pos < front.end_ := hfront front (by simp)
      rw [hbs] at hrd hdn
      have hJ1 := hread _ _ _ _ _ _ _ hJ hlt' hpf hseek hrd
      have hzb := zeroBlocks_read_some pos (requestedLength bs front pos) buff hlen hz
      rcases deallocate_next_trace S (afterRead s pos (requestedLength bs front pos) buff hd)
          ⟨pos, pos + (buff.length : Int)⟩ hC.queue_shape with
        ⟨s'', hdn', -, -⟩ | ⟨p, hq, hadj, ⟨h', s'', -, hdn', -, -⟩ | ⟨s'', hf, hdn', ht, hh⟩⟩
      · rw [hdn] at hdn'
        cases hdn'
      · rw [hdn] at hdn'
        cases hdn'
      · rw [hdn] at hdn'
        cases hdn'
        have hmem : p ∈ coalesce (zeroBlocks
            (s.trace ++ [IoEvent.read pos (requestedLength bs front pos) (some buff)])) := by
          rw [zeroBlocks_append, hzb]
          exact hC.mem_coalesce_snoc p _ hq hadj
        refine ⟨⟨pos + (buff.length : Int), front :: rest, ?_⟩,
          Or.inr ⟨_, _, _, _, hJ1, Or.inr (Or.inr (Or.inr (Or.inl ⟨rfl, p, hmem, hf⟩)))⟩⟩
        rw [ht, hh]
        exact hdeallocFail _ _ _ _ p hJ1 hmem hf

theorem deallocate_remained_nil (S : Storage σ) (s : resparser σ)
    (hq : s.deallocateQueue = []) :
    deallocate_remained S s = .ok { s with deallocateQueue := [] } := by
  simp [deallocate_remained, hq, deallocate_remained_loop]

theorem deallocate_remained_single (S : Storage σ) (s : resparser σ)
    (p : FILE_ZERO_DATA_INFORMATION) (hq : s.deallocateQueue = [p]) :
    deallocate_remained S s =
      match S.FSCTL_SET_ZERO_DATA s.fileHandle p with
      | none => .error (.CannotSetZeroData,
          { s with trace := s.trace ++ [IoEvent.deallocate p] })
      | some h => .ok { s with
          fileHandle := h
          trace := s.trace ++ [IoEvent.deallocate p]
          deallocated_bytes := s.deallocated_bytes + (p.BeyondFinalZero - p.FileOffset)
          deallocateQueue := [] } := by
  simp only [deallocate_remained, hq, deallocate_remained_loop, io_deallocate_range_eq]
  cases S.FSCTL_SET_ZERO_DATA s.fileHandle p <;> rfl

/-- The end of `process_file` after the scan loop: the forced flush and the
final report, for a loop result satisfying the loop specification. -/
theorem process_file_finish_spec (S : Storage σ) (bs : Nat) (fs : Int)
    (J : Int → List range → List IoEvent → σ → Prop)
    (hdealloc : ∀ pos rs t h p h', J pos rs t h → p ∈ coalesce (zeroBlocks t) →
      S.FSCTL_SET_ZERO_DATA h p = some h' → J pos rs (t ++ [IoEvent.deallocate p]) h')
    (hdeallocFail : ∀ pos rs t h p, J pos rs t h → p ∈ coalesce (zeroBlocks t) →
      S.FSCTL_SET_ZERO_DATA h p = none → J pos rs (t ++ [IoEvent.deallocate p]) h)
    (r1 : Result σ) :
    (match r1 with
      | .ok s' => Core s' ∧ s'.fileSize = fs ∧
          ∃ pos' rs', J pos' rs' s'.trace s'.fileHandle ∧ ScanEnd fs pos' rs'
      | .error (e, s') => CoreErr s' ∧ (∃ pos' rs', J pos' rs' s'.trace s'.fileHandle) ∧
          (e = .fuelExhausted ∨ Cause S bs fs J e)) →
    r1.thrown ≠ some .fuelExhausted →
    ScanOutcome S bs fs J
      (match r1 with
        | .error e => .error e
        | .ok self =>
          match deallocate_remained S self with
          | .error e => .error e
          | .ok self =>
            match S.GetFileInformationByHandleEx self.fileHandle with
            | none => .error (.CannotGetFileInfo, self)
            | some _ => .ok self) := by
  intro hloop hfuel
  cases r1 with
  | error e =>
    obtain ⟨e, s'⟩ := e
    obtain ⟨hE, ⟨pos, rs, hJ⟩, hcause⟩ := hloop
    refine ⟨⟨pos, rs, hJ, by simp [Result.thrown]⟩, hE, by simp [Result.thrown], ?_⟩
    intro e' he'
    simp only [Result.thrown, Option.some.injEq] at he' hfuel
    subst he'
    rcases hcause with h | h
    · exact absurd (congrArg some h) hfuel
    · exact h
  | ok s1 =>
    obtain ⟨hC, -, pos, rs, hJ, hend⟩ := hloop
    dsimp only
    rcases hC.queue_shape with hq | ⟨p, hq⟩
    · rw [deallocate_remained_nil S s1 hq]
      dsimp only
      have hfl : flushed s1.trace = coalesce (zeroBlocks s1.trace) := by
        rw [hC.coalesce_eq, hq]; simp
      cases hg : S.GetFileInformationByHandleEx s1.fileHandle with
      | none =>
        refine ⟨⟨pos, rs, hJ, by simp [Result.thrown]⟩,
          ⟨[], by simpa [Result.final] using hfl.symm⟩, by simp [Result.thrown], ?_⟩
        intro e' he'
        simp only [Result.thrown, Option.some.injEq] at he'
        subst he'
        exact ⟨pos, rs, _, _, hJ, Or.inr (Or.inr (Or.inr (Or.inr ⟨rfl, hend, hg⟩)))⟩
      | some v =>
        exact ⟨⟨pos, rs, hJ, fun _ => hend⟩, ⟨[], by simpa [Result.final] using hfl.symm⟩,
          fun _ => ⟨hfl, hC.1, rfl⟩, by simp [Result.thrown]⟩
    · rw [deallocate_remained_single S s1 p hq]
      have hmem : p ∈ coalesce (zeroBlocks s1.trace) := hC.mem_coalesce p (by simp [hq])
      have hfl : flushed (s1.trace ++ [IoEvent.deallocate p]) =
          coalesce (zeroBlocks (s1.trace ++ [IoEvent.deallocate p])) := by
        rw [flushed_append, zeroBlocks_append, zeroBlocks_deallocate, List.append_nil,
          hC.coalesce_eq, hq]
        rfl
      have hcnt : s1.deallocated_bytes + (p.BeyondFinalZero - p.FileOffset) =
          totalLength (flushed (s1.trace ++ [IoEvent.deallocate p])) := by
        rw [flushed_append, totalLength_append, hC.1]
        simp [flushed, totalLength]
      cases hf : S.FSCTL_SET_ZERO_DATA s1.fileHandle p with
      | none =>
        refine ⟨⟨pos, rs, hdeallocFail _ _ _ _ p hJ hmem hf, by simp [Result.thrown]⟩,
          ⟨[], by simpa [Result.final] using hfl.symm⟩, by simp [Result.thrown], ?_⟩
        intro e' he'
        simp only [Result.thrown, Option.some.injEq] at he'
        subst he'
        exact ⟨pos, rs, _, _, hJ, Or.inr (Or.inr (Or.inr (Or.inl ⟨rfl, p, hmem, hf⟩)))⟩
      | some h' =>
        dsimp only
        have hJ' := hdealloc _ _ _ _ p h' hJ hmem hf
        cases hg : S.GetFileInformationByHandleEx h' with
        | none =>
          refine ⟨⟨pos, rs, hJ', by simp [Result.thrown]⟩,
            ⟨[], by simpa [Result.final] using hfl.symm⟩, by simp [Result.thrown], ?_⟩
          intro e' he'
          simp only [Result.thrown, Option.some.injEq] at he'
          subst he'
          exact ⟨pos, rs, _, _, hJ', Or.inr (Or.inr (Or.inr (Or.inr ⟨rfl, hend, hg⟩)))⟩
        | some v =>
          exact ⟨⟨pos, rs, hJ', fun _ => hend⟩, ⟨[], by simpa [Result.final] using hfl.symm⟩,
            fun _ => ⟨hfl, hcnt, rfl⟩, by simp [Result.thrown]⟩

/-- `process_file` from the state the constructor leaves: an invariant `J`
kept by the steps of the scan holds of the final trace and handle, the
requests issued are an initial part of the coalesced zero blocks and all of
them on normal return, where the counter is their total length; the run never
stops for lack of fuel. -/
theorem process_file_spec (S : Storage σ) (bs : Nat) (fs u : Int) (h0 : σ) (rs0 : List range)
    (J : Int → List range → List IoEvent → σ → Prop)
    (hinit : J 0 rs0 [] h0)
    (hpop : ∀ pos front next rest t h, J pos (front :: next :: rest) t h → pos < fs →
      front.end_ ≤ pos → J next.start (next :: rest) t h)
    (hread : ∀ pos front rest t h buff hd, J pos (front :: rest) t h → pos < fs →
      pos < front.end_ → S.SetFilePointerEx h pos = true →
      S.ReadFile h pos (requestedLength bs front pos) = some (buff, hd) →
      J (pos + (buff.length : Int)) (front :: rest)
        (t ++ [IoEvent.read pos (requestedLength bs front pos) (some buff)]) hd)
    (hreadFail : ∀ pos front rest t h, J pos (front :: rest) t h → pos < fs →
      pos < front.end_ → S.SetFilePointerEx h pos = true →
      S.ReadFile h pos (requestedLength bs front pos) = none →
      J pos (front :: rest) (t ++ [IoEvent.read pos (requestedLength bs front pos) none]) h)
    (hdealloc : ∀ pos rs t h p h', J pos rs t h → p ∈ coalesce (zeroBlocks t) →
      S.FSCTL_SET_ZERO_DATA h p = some h' → J pos rs (t ++ [IoEvent.deallocate p]) h')
    (hdeallocFail : ∀ pos rs t h p, J pos rs t h → p ∈ coalesce (zeroBlocks t) →
      S.FSCTL_SET_ZERO_DATA h p = none → J pos rs (t ++ [IoEvent.deallocate p]) h) :
    ScanOutcome S bs fs J (process_file S (resparser.init bs h0 fs u) rs0) := by
  have hC0 : Core ({ resparser.init bs h0 fs u with deallocated_bytes := 0 } : resparser σ) :=
    ⟨rfl, Or.inl ⟨rfl, rfl, rfl⟩⟩
  have hloop := process_file_loop_spec S bs fs J hpop hread hreadFail hdealloc hdeallocFail
    (process_file_fuel fs rs0) 0 rs0 _ hC0 rfl rfl hinit
  have hfuel := process_file_loop_fuel S (process_file_fuel fs rs0) 0 rs0
    ({ resparser.init bs h0 fs u with deallocated_bytes := 0 } : resparser σ)
    (by
      show (fs - 0).toNat + rangesFuel fs rs0.tail < process_file_fuel fs rs0
      unfold process_file_fuel
      cases rs0 with
      | nil => simp [rangesFuel]
      | cons r rest => simp [rangesFuel]; omega)
  exact process_file_finish_spec S bs fs J hdealloc hdeallocFail _ hloop hfuel

/-! ## The coalescer function -/

theorem coalesceStep_cases (acc : List FILE_ZERO_DATA_INFORMATION)
    (z : FILE_ZERO_DATA_INFORMATION) :
    (acc = [] ∧ coalesceStep acc z = [z]) ∨
    (∃ F p, acc = F ++ [p] ∧ p.BeyondFinalZero = z.FileOffset ∧
      coalesceStep acc z = F ++ [⟨p.FileOffset, z.BeyondFinalZero⟩]) ∨
    (∃ F p, acc = F ++ [p] ∧ p.BeyondFinalZero ≠ z.FileOffset ∧
      coalesceStep acc z = acc ++ [z]) := by
  rcases List.eq_nil_or_concat acc with h | ⟨F, p, h⟩
  · exact Or.inl ⟨h, by rw [h]; rfl⟩
  · rw [List.concat_eq_append] at h
    by_cases hadj : p.BeyondFinalZero = z.FileOffset
    · exact Or.inr (Or.inl ⟨F, p, h, hadj, by rw [h, coalesceStep_snoc, if_pos hadj]⟩)
    · refine Or.inr (Or.inr ⟨F, p, h, hadj, ?_⟩)
      rw [h, coalesceStep_snoc, if_neg hadj]
      simp

/-- A property of ranges that survives merging two adjacent ranges holds of
every coalesced range as soon as it holds of every block. -/
theorem foldl_coalesceStep_forall (P : FILE_ZERO_DATA_INFORMATION → Prop)
    (hm : ∀ p z, P p → P z → p.BeyondFinalZero = z.FileOffset →
      P ⟨p.FileOffset, z.BeyondFinalZero⟩) :
    ∀ (zs acc : List FILE_ZERO_DATA_INFORMATION), (∀ r ∈ acc, P r) → (∀ z ∈ zs, P z) →
      ∀ r ∈ zs.foldl coalesceStep acc, P r := by
  intro zs
  induction zs with
  | nil => intro acc hacc _ r hr; exact hacc r hr
  | cons z zs ih =>
    intro acc hacc hzs
    rw [List.foldl_cons]
    apply ih
    · have hz : P z := hzs z (by simp)
      rcases coalesceStep_cases acc z with ⟨-, h⟩ | ⟨F, p, hacc', hadj, h⟩ | ⟨F, p, -, -, h⟩
      · rw [h]; simpa using hz
      · rw [h]
        intro r hr
        rcases List.mem_append.mp hr with hr | hr
        · exact hacc r (by rw [hacc']; exact List.mem_append_left _ hr)
        · rw [List.mem_singleton] at hr
          rw [hr]
          exact hm p z (hacc p (by rw [hacc']; simp)) hz hadj
      · rw [h]
        intro r hr
        rcases List.mem_append.mp hr with hr | hr
        · exact hacc r hr
        · rw [List.mem_singleton] at hr
          rw [hr]; exact hz
    · intro y hy
      exact hzs y (List.mem_cons_of_mem _ hy)

theorem coalesce_forall (P : FILE_ZERO_DATA_INFORMATION → Prop)
    (hm : ∀ p z, P p → P z → p.BeyondFinalZero = z.FileOffset →
      P ⟨p.FileOffset, z.BeyondFinalZero⟩)
    (zs : List FILE_ZERO_DATA_INFORMATION) (hzs : ∀ z ∈ zs, P z) :
    ∀ r ∈ coalesce zs, P r :=
  foldl_coalesceStep_forall P hm zs [] (by simp) hzs

theorem totalLength_coalesceStep (acc : List FILE_ZERO_DATA_INFORMATION)
    (z : FILE_ZERO_DATA_INFORMATION) :
    totalLength (coalesceStep acc z) =
      totalLength acc + (z.BeyondFinalZero - z.FileOffset) := by
  rcases coalesceStep_cases acc z with ⟨h1, h⟩ | ⟨F, p, hacc, hadj, h⟩ | ⟨F, p, -, -, h⟩
  · rw [h, h1]; simp [totalLength]
  · rw [h, hacc]
    simp only [totalLength_append, totalLength]
    omega
  · rw [h]
    simp [totalLength_append, totalLength]

theorem totalLength_foldl_coalesceStep :
    ∀ (zs acc : List FILE_ZERO_DATA_INFORMATION),
      totalLength (zs.foldl coalesceStep acc) = totalLength acc + totalLength zs := by
  intro zs
  induction zs with
  | nil => intro acc; simp [totalLength]
  | cons z zs ih =>
    intro acc
    rw [List.foldl_cons, ih, totalLength_coalesceStep]
    simp only [totalLength]
    omega

/-- Coalescing keeps the total number of bytes. -/
theorem totalLength_coalesce (zs : List FILE_ZERO_DATA_INFORMATION) :
    totalLength (coalesce zs) = totalLength zs := by
  unfold coalesce
  rw [totalLength_foldl_coalesceStep]
  simp [totalLength]

/-- Folding ascending blocks into separated non-empty ranges that all end
before the blocks start gives separated non-empty ranges. -/
theorem foldl_coalesceStep_separated :
    ∀ (zs acc : List FILE_ZERO_DATA_INFORMATION), Separated acc →
      (∀ r ∈ acc, r.FileOffset < r.BeyondFinalZero) → Ascending zs →
      (∀ a ∈ acc, ∀ z ∈ zs, a.BeyondFinalZero ≤ z.FileOffset) →
      Separated (zs.foldl coalesceStep acc) ∧
      ∀ r ∈ zs.foldl coalesceStep acc, r.FileOffset < r.BeyondFinalZero := by
  intro zs
  induction zs with
  | nil => intro acc hs hne _ _; exact ⟨hs, hne⟩
  | cons z zs ih =>
    intro acc hs hne hasc hle
    rw [List.foldl_cons]
    have hz : z.FileOffset < z.BeyondFinalZero := hasc.1 z (by simp)
    have hzs : ∀ y ∈ zs, z.BeyondFinalZero ≤ y.FileOffset := (List.pairwise_cons.mp hasc.2).1
    have hasc' : Ascending zs :=
      ⟨fun y hy => hasc.1 y (List.mem_cons_of_mem _ hy), (List.pairwise_cons.mp hasc.2).2⟩
    rcases coalesceStep_cases acc z with ⟨-, h⟩ | ⟨F, p, hacc, hadj, h⟩ | ⟨F, p, hacc, hadj, h⟩
    · rw [h]
      apply ih _ (by simp [Separated]) _ hasc'
      · intro a ha y hy
        rw [List.mem_singleton] at ha
        rw [ha]; exact hzs y hy
      · intro r hr
        rw [List.mem_singleton] at hr
        rw [hr]; exact hz
    · rw [h]
      rw [hacc] at hs hne hle
      unfold Separated at hs
      rw [List.pairwise_append] at hs
      have hp : p.FileOffset < p.BeyondFinalZero := hne p (by simp)
      apply ih _ _ _ hasc'
      · intro a ha y hy
        rcases List.mem_append.mp ha with ha | ha
        · exact hle a (List.mem_append_left _ ha) y (List.mem_cons_of_mem _ hy)
        · rw [List.mem_singleton] at ha
          rw [ha]; exact hzs y hy
      · unfold Separated
        rw [List.pairwise_append]
        refine ⟨hs.1, by simp, ?_⟩
        intro a ha b hb
        rw [List.mem_singleton] at hb
        rw [hb]
        exact hs.2.2 a ha p (by simp)
      · intro r hr
        rcases List.mem_append.mp hr with hr | hr
        · exact hne r (List.mem_append_left _ hr)
        · rw [List.mem_singleton] at hr
          rw [hr]
          show p.FileOffset < z.BeyondFinalZero
          omega
    · rw [h]
      have hp : p.FileOffset < p.BeyondFinalZero := hne p (by rw [hacc]; simp)
      have hpz : p.BeyondFinalZero ≤ z.FileOffset := hle p (by rw [hacc]; simp) z (by simp)
      apply ih _ _ _ hasc'
      · intro a ha y hy
        rcases List.mem_append.mp ha with ha | ha
        · exact hle a ha y (List.mem_cons_of_mem _ hy)
        · rw [List.mem_singleton] at ha
          rw [ha]; exact hzs y hy
      · unfold Separated
        rw [List.pairwise_append]
        refine ⟨hs, by simp, ?_⟩
        intro a ha b hb
        rw [List.mem_singleton] at hb
        rw [hb]
        rw [hacc] at ha hs
        unfold Separated at hs
        rw [List.pairwise_append] at hs
        rcases List.mem_append.mp ha with ha | ha
        · have := hs.2.2 a ha p (by simp)
          omega
        · rw [List.mem_singleton] at ha
          rw [ha]
          omega
      · intro r hr
        rcases List.mem_append.mp hr with hr | hr
        · exact hne r hr
        · rw [List.mem_singleton] at hr
          rw [hr]; exact hz

/-- The coalesced form of ascending blocks is separated and made of
non-empty ranges. -/
theorem coalesce_separated (zs : List FILE_ZERO_DATA_INFORMATION) (h : Ascending zs) :
    Separated (coalesce zs) ∧ ∀ r ∈ coalesce zs, r.FileOffset < r.BeyondFinalZero :=
  foldl_coalesceStep_separated zs [] (by simp [Separated]) (by simp) h (by simp)

theorem covered_coalesceStep {x z : FILE_ZERO_DATA_INFORMATION}
    {acc : List FILE_ZERO_DATA_INFORMATION} (hx : Covered x acc)
    (hz : z.FileOffset ≤ z.BeyondFinalZero) : Covered x (coalesceStep acc z) := by
  obtain ⟨r, hr, h1, h2⟩ := hx
  rcases coalesceStep_cases acc z with ⟨h0, -⟩ | ⟨F, p, hacc, hadj, h⟩ | ⟨F, p, -, -, h⟩
  · rw [h0] at hr; cases hr
  · rw [h]
    rw [hacc] at hr
    rcases List.mem_append.mp hr with hr | hr
    · exact ⟨r, List.mem_append_left _ hr, h1, h2⟩
    · rw [List.mem_singleton] at hr
      subst hr
      exact ⟨_, List.mem_append_right _ (List.mem_singleton_self _), h1, by
        show x.BeyondFinalZero ≤ z.BeyondFinalZero
        omega⟩
  · rw [h]
    exact ⟨r, List.mem_append_left _ hr, h1, h2⟩

theorem covered_self_coalesceStep (z : FILE_ZERO_DATA_INFORMATION)
    (acc : List FILE_ZERO_DATA_INFORMATION)
    (hacc : ∀ r ∈ acc, r.FileOffset ≤ r.BeyondFinalZero) : Covered z (coalesceStep acc z) := by
  rcases coalesceStep_cases acc z with ⟨-, h⟩ | ⟨F, p, hF, hadj, h⟩ | ⟨F, p, -, -, h⟩
  · rw [h]; exact ⟨z, by simp, le_refl _, le_refl _⟩
  · rw [h]
    have hp := hacc p (by rw [hF]; simp)
    exact ⟨_, List.mem_append_right _ (List.mem_singleton_self _), by
      show p.FileOffset ≤ z.FileOffset
      omega, le_refl _⟩
  · rw [h]; exact ⟨z, by simp, le_refl _, le_refl _⟩

theorem foldl_coalesceStep_covered :
    ∀ (zs acc : List FILE_ZERO_DATA_INFORMATION),
      (∀ r ∈ acc, r.FileOffset ≤ r.BeyondFinalZero) →
      (∀ z ∈ zs, z.FileOffset ≤ z.BeyondFinalZero) →
      (∀ x, Covered x acc → Covered x (zs.foldl coalesceStep acc)) ∧
      ∀ z ∈ zs, Covered z (zs.foldl coalesceStep acc) := by
  intro zs
  induction zs with
  | nil => intro acc _ _; exact ⟨fun x hx => hx, by simp⟩
  | cons z zs ih =>
    intro acc hacc hzs
    rw [List.foldl_cons]
    have hz := hzs z (by simp)
    have hstep : ∀ r ∈ coalesceStep acc z, r.FileOffset ≤ r.BeyondFinalZero := by
      have := foldl_coalesceStep_forall (fun r => r.FileOffset ≤ r.BeyondFinalZero)
        (fun p y hp hy hadj => by
          show p.FileOffset ≤ y.BeyondFinalZero
          omega) [z] acc hacc (by simpa using hz)
      simpa using this
    obtain ⟨ih1, ih2⟩ := ih (coalesceStep acc z) hstep
      (fun y hy => hzs y (List.mem_cons_of_mem _ hy))
    refine ⟨fun x hx => ih1 x (covered_coalesceStep hx hz), ?_⟩
    intro y hy
    rcases List.mem_cons.mp hy with rfl | hy
    · exact ih1 _ (covered_self_coalesceStep _ acc hacc)
    · exact ih2 y hy

/-- Every block lies inside one of the coalesced ranges. -/
theorem coalesce_covered (zs : List FILE_ZERO_DATA_INFORMATION)
    (h : ∀ z ∈ zs, z.FileOffset ≤ z.BeyondFinalZero) : ∀ z ∈ zs, Covered z (coalesce zs) :=
  (foldl_coalesceStep_covered zs [] (by simp) h).2

/-! ## The sparse file as storage -/

theorem zeroFrom_eq_self (lo hi : Int) :
    ∀ (l : List UInt8) (k : Int),
      (∀ i : Nat, i < l.length → lo ≤ k + i → k + i < hi → l[i]? = some 0) →
      zeroFrom lo hi k l = l := by
  intro l
  induction l with
  | nil => intro k _; rfl
  | cons b bs ih =>
    intro k h
    simp only [zeroFrom]
    have hb : (if lo ≤ k ∧ k < hi then (0 : UInt8) else b) = b := by
      split
      · rename_i hk
        have := h 0 (by simp) (by simpa using hk.1) (by simpa using hk.2)
        simpa using this.symm
      · rfl
    rw [hb, ih (k + 1)]
    intro i hi1 h1 h2
    have := h (i + 1) (by simpa using hi1) (by push_cast; omega) (by push_cast; omega)
    simpa using this

theorem ZeroIn.zeroFrom_eq {bytes : List UInt8} {z : FILE_ZERO_DATA_INFORMATION}
    (h : ZeroIn bytes z) : zeroFrom z.FileOffset z.BeyondFinalZero 0 bytes = bytes := by
  apply zeroFrom_eq_self
  intro i _ h1 h2
  exact h.2.2 i (by omega) (by omega)

theorem ZeroIn.merge {bytes : List UInt8} {p z : FILE_ZERO_DATA_INFORMATION}
    (hp : ZeroIn bytes p) (hz : ZeroIn bytes z) (hadj : p.BeyondFinalZero = z.FileOffset) :
    ZeroIn bytes ⟨p.FileOffset, z.BeyondFinalZero⟩ := by
  refine ⟨hp.1, hz.2.1, ?_⟩
  intro i h1 h2
  by_cases hi : (i : Int) < p.BeyondFinalZero
  · exact hp.2.2 i h1 hi
  · exact hz.2.2 i (by omega) h2

/-- A block that the sparse file returned non-empty and all zero is an
interval of zero bytes of the file. -/
theorem ZeroIn.of_read (bytes : List UInt8) (pos : Int) (n : Nat) (hpos : 0 ≤ pos)
    (hlen : ((bytes.drop pos.toNat).take n).length ≠ 0)
    (hz : ((bytes.drop pos.toNat).take n).all (fun i => i == 0) = true) :
    ZeroIn bytes ⟨pos, pos + (((bytes.drop pos.toNat).take n).length : Int)⟩ := by
  have hl : ((bytes.drop pos.toNat).take n).length = min n (bytes.length - pos.toNat) := by
    simp
  refine ⟨hpos, ?_, ?_⟩
  · show pos + (((bytes.drop pos.toNat).take n).length : Int) ≤ bytes.length
    rw [hl] at hlen ⊢
    omega
  · intro i h1 h2
    simp only at h1 h2
    rw [hl] at h2
    have hi : i - pos.toNat < n := by omega
    have hmem : bytes[i]? = ((bytes.drop pos.toNat).take n)[i - pos.toNat]? := by
      rw [List.getElem?_take_of_lt hi, List.getElem?_drop]
      congr 1
      omega
    have hlt : i - pos.toNat < ((bytes.drop pos.toNat).take n).length := by
      rw [hl]; omega
    rw [hmem, List.getElem?_eq_getElem hlt]
    congr 1
    have := List.all_eq_true.mp hz _ (List.getElem_mem hlt)
    simpa using this

theorem zeroBlocks_read_mem (pos : Int) (n : Nat) (buff : List UInt8)
    (z : FILE_ZERO_DATA_INFORMATION) (hz : z ∈ zeroBlocks [IoEvent.read pos n (some buff)]) :
    z = ⟨pos, pos + (buff.length : Int)⟩ ∧ buff.length ≠ 0 ∧
      buff.all (fun i => i == 0) = true := by
  by_cases h : buff.length ≠ 0 ∧ buff.all (fun i => i == 0) = true
  · rw [zeroBlocks_read_some pos n buff h.1 h.2, List.mem_singleton] at hz
    exact ⟨hz, h.1, h.2⟩
  · rw [zeroBlocks_read_nonzero pos n buff (by
      by_cases h0 : buff.length = 0
      · exact Or.inl h0
      · right
        simpa [h0] using h)] at hz
    cases hz

theorem zeroBlocks_read_none (pos : Int) (n : Nat) :
    zeroBlocks [IoEvent.read pos n none] = [] := rfl

theorem FileInv.read {bytes : List UInt8} {t : List IoEvent} {h hd : SparseFile} {pos : Int}
    {n : Nat} {buff : List UInt8} (hJ : FileInv bytes t h)
    (hseek : sparseFileStorage.SetFilePointerEx h pos = true)
    (hrd : sparseFileStorage.ReadFile h pos n = some (buff, hd)) :
    FileInv bytes (t ++ [IoEvent.read pos n (some buff)]) hd ∧
      buff = (bytes.drop pos.toNat).take n ∧ 0 ≤ pos := by
  simp only [sparseFileStorage, Option.some.injEq, Prod.mk.injEq] at hrd hseek
  obtain ⟨rfl, rfl⟩ := hrd
  have hpos : 0 ≤ pos := by simpa using hseek
  refine ⟨⟨hJ.1, ?_⟩, by rw [hJ.1], hpos⟩
  intro z hz
  rw [zeroBlocks_append] at hz
  rcases List.mem_append.mp hz with hz | hz
  · exact hJ.2 z hz
  · obtain ⟨rfl, hlen, hall⟩ := zeroBlocks_read_mem _ _ _ _ hz
    rw [hJ.1] at hlen hall ⊢
    exact ZeroIn.of_read bytes pos _ hpos hlen hall

theorem FileInv.readFail {bytes : List UInt8} {t : List IoEvent} {h : SparseFile} (pos : Int)
    (n : Nat) (hJ : FileInv bytes t h) : FileInv bytes (t ++ [IoEvent.read pos n none]) h := by
  refine ⟨hJ.1, ?_⟩
  rw [zeroBlocks_append, zeroBlocks_read_none, List.append_nil]
  exact hJ.2

theorem FileInv.dealloc {bytes : List UInt8} {t : List IoEvent} {h h' : SparseFile}
    {p : FILE_ZERO_DATA_INFORMATION} (hJ : FileInv bytes t h)
    (hp : p ∈ coalesce (zeroBlocks t))
    (hf : sparseFileStorage.FSCTL_SET_ZERO_DATA h p = some h') :
    FileInv bytes (t ++ [IoEvent.deallocate p]) h' := by
  simp only [sparseFileStorage, Option.some.injEq] at hf
  subst hf
  have hzp : ZeroIn bytes p :=
    coalesce_forall (ZeroIn bytes) (fun _ _ h1 h2 h3 => h1.merge h2 h3) _ hJ.2 p hp
  refine ⟨?_, ?_⟩
  · show zeroFrom p.FileOffset p.BeyondFinalZero 0 h.bytes = bytes
    rw [hJ.1]
    exact hzp.zeroFrom_eq
  · rw [zeroBlocks_append, zeroBlocks_deallocate, List.append_nil]
    exact hJ.2

theorem FileInv.deallocFail {bytes : List UInt8} {t : List IoEvent} {h : SparseFile}
    (p : FILE_ZERO_DATA_INFORMATION) (hJ : FileInv bytes t h) :
    FileInv bytes (t ++ [IoEvent.deallocate p]) h := by
  refine ⟨hJ.1, ?_⟩
  rw [zeroBlocks_append, zeroBlocks_deallocate, List.append_nil]
  exact hJ.2

/-- The invariant of a scan of a sparse file behind C1: the bytes of the file
are the original ones and every zero block read is an interval of zero bytes
of the original file. -/
theorem scanFile_zeroIn (blockSize : Nat) (f : SparseFile) (allocatedRanges : List range)
    (uninitialised : Int) :
    ScanOutcome sparseFileStorage blockSize (f.bytes.length : Int)
      (fun _ _ t h => FileInv f.bytes t h)
      (scanFile blockSize f allocatedRanges uninitialised) := by
  apply process_file_spec
  · exact ⟨rfl, by simp [zeroBlocks]⟩
  · intro pos front next rest t h hJ _ _
    exact hJ
  · intro pos front rest t h buff hd hJ _ _ hseek hrd
    exact (hJ.read hseek hrd).1
  · intro pos front rest t h hJ _ _ _ _
    exact hJ.readFail _ _
  · intro pos rs t h p h' hJ hp hf
    exact hJ.dealloc hp hf
  · intro pos rs t h p hJ _ _
    exact hJ.deallocFail p

/-- Every request issued is one of the coalesced zero blocks of the final
trace. -/
theorem CoreErr.flushed_mem_coalesce {s : resparser σ} (h : CoreErr s)
    (z : FILE_ZERO_DATA_INFORMATION) (hz : z ∈ flushed s.trace) :
    z ∈ coalesce (zeroBlocks s.trace) := by
  obtain ⟨rest, hrest⟩ := h
  rw [hrest]
  exact List.mem_append_left _ hz

/-- C1. Content and size preservation: on a file modelled as its byte
sequence, with `FSCTL_SET_ZERO_DATA` overwriting the requested interval with
zero, for every block size and every allocated-range list each interval that
`process_file` passes to `io_deallocate_range` lies inside the file and holds
only bytes that were zero before the run, and the byte sequence of the file
after the run, however the run ends, is the one before it, with the same
length. -/
theorem C1_content_and_size_preserved (blockSize : Nat) (f : SparseFile)
    (allocatedRanges : List range) (uninitialised : Int) :
    (∀ z ∈ flushed (scanFile blockSize f allocatedRanges uninitialised).final.trace,
      ZeroIn f.bytes z) ∧
    (scanFile blockSize f allocatedRanges uninitialised).final.fileHandle.bytes = f.bytes ∧
    (scanFile blockSize f allocatedRanges uninitialised).final.fileHandle.bytes.length
      = f.bytes.length := by
  obtain ⟨⟨pos, rs, hJ, -⟩, hE, -, -⟩ :=
    scanFile_zeroIn blockSize f allocatedRanges uninitialised
  refine ⟨?_, hJ.1, by rw [hJ.1]⟩
  intro z hz
  exact coalesce_forall (ZeroIn f.bytes) (fun _ _ h1 h2 h3 => h1.merge h2 h3) _ hJ.2 z
    (hE.flushed_mem_coalesce z hz)

/-! ## The scan over a sorted list -/

theorem requestedLength_le (bs : Nat) (front : range) (pos : Int) (h : pos < front.end_) :
    (requestedLength bs front pos : Int) ≤ front.end_ - pos := by
  unfold requestedLength
  dsimp only
  omega

theorem SortedRanges.tail {a : range} {rs : List range} (h : SortedRanges (a :: rs)) :
    SortedRanges rs :=
  ⟨fun r hr => h.1 r (List.mem_cons_of_mem _ hr), h.2.tail⟩

theorem SortedRanges.head_le {a b : range} {rs : List range}
    (h : SortedRanges (a :: b :: rs)) : a.end_ ≤ b.start :=
  (List.chain'_cons.mp h.2).1

theorem sparseFileStorage_readBounded : sparseFileStorage.ReadBounded := by
  intro h pos n buff hd hrd
  simp only [sparseFileStorage, Option.some.injEq, Prod.mk.injEq] at hrd
  obtain ⟨rfl, -⟩ := hrd
  simp

/-- Over a sorted list and a storage whose reads return at most what was
asked for, the zero blocks are read in ascending order. -/
theorem process_file_scanOrder (S : Storage σ) (hS : S.ReadBounded) (bs : Nat) (fs u : Int)
    (h0 : σ) (rs0 : List range) (hsorted : SortedRanges rs0) :
    ScanOutcome S bs fs (fun pos rs t _ => ScanOrder pos rs t)
      (process_file S (resparser.init bs h0 fs u) rs0) := by
  apply process_file_spec
  · exact ⟨hsorted, ⟨by simp [zeroBlocks], by simp [zeroBlocks]⟩, by simp [zeroBlocks],
      by simp [zeroBlocks]⟩
  · rintro pos front next rest t h ⟨hs, hasc, hle, hfront⟩ _ hge
    refine ⟨hs.tail, hasc, ?_, ?_⟩
    · intro z hz
      have h1 := hle z hz
      have h2 := hfront (List.ne_nil_of_mem hz) front (by simp)
      have h3 := hs.head_le
      omega
    · intro _ fr hfr
      simp only [List.head?_cons, Option.mem_def, Option.some.injEq] at hfr
      subst hfr
      exact hs.1 next (by simp)
  · rintro pos front rest t h buff hd ⟨hs, hasc, hle, hfront⟩ _ hpf _ hrd
    have hb := hS _ _ _ _ _ hrd
    have hr := requestedLength_le bs front pos hpf
    have hnew : pos + (buff.length : Int) ≤ front.end_ := by omega
    refine ⟨hs, ?_, ?_, ?_⟩
    · rw [zeroBlocks_append]
      refine ⟨?_, ?_⟩
      · intro z hz
        rcases List.mem_append.mp hz with hz | hz
        · exact hasc.1 z hz
        · obtain ⟨rfl, hlen, -⟩ := zeroBlocks_read_mem _ _ _ _ hz
          show pos < pos + (buff.length : Int)
          omega
      · rw [List.pairwise_append]
        refine ⟨hasc.2, ?_, ?_⟩
        · by_cases hzb : buff.length ≠ 0 ∧ buff.all (fun i => i == 0) = true
          · rw [zeroBlocks_read_some _ _ _ hzb.1 hzb.2]; simp
          · rw [zeroBlocks_read_nonzero _ _ _ (by
              by_cases h0 : buff.length = 0
              · exact Or.inl h0
              · right
                simpa [h0] using hzb)]
            simp
        · intro a ha b hb'
          obtain ⟨rfl, -, -⟩ := zeroBlocks_read_mem _ _ _ _ hb'
          exact hle a ha
    · intro z hz
      rw [zeroBlocks_append] at hz
      rcases List.mem_append.mp hz with hz | hz
      · have := hle z hz
        omega
      · obtain ⟨rfl, -, -⟩ := zeroBlocks_read_mem _ _ _ _ hz
        exact le_refl _
    · intro _ fr hfr
      simp only [List.head?_cons, Option.mem_def, Option.some.injEq] at hfr
      subst hfr
      exact hnew
  · rintro pos front rest t h ⟨hs, hasc, hle, hfront⟩ _ _ _ _
    simp only [ScanOrder, zeroBlocks_append, zeroBlocks_read_none, List.append_nil]
    exact ⟨hs, hasc, hle, hfront⟩
  · rintro pos rs t h p h' ⟨hs, hasc, hle, hfront⟩ _ _
    simp only [ScanOrder, zeroBlocks_append, zeroBlocks_deallocate, List.append_nil]
    exact ⟨hs, hasc, hle, hfront⟩
  · rintro pos rs t h p ⟨hs, hasc, hle, hfront⟩ _ _
    simp only [ScanOrder, zeroBlocks_append, zeroBlocks_deallocate, List.append_nil]
    exact ⟨hs, hasc, hle, hfront⟩

theorem pairwise_mem_cases {α : Type} {R : α → α → Prop} :
    ∀ {l : List α}, l.Pairwise R → ∀ a ∈ l, ∀ b ∈ l, a = b ∨ R a b ∨ R b a := by
  intro l
  induction l with
  | nil => intro _ a ha; cases ha
  | cons x l ih =>
    intro h a ha b hb
    obtain ⟨hx, hl⟩ := List.pairwise_cons.mp h
    rcases List.mem_cons.mp ha with ha1 | ha1 <;> rcases List.mem_cons.mp hb with hb1 | hb1
    · exact Or.inl (ha1.trans hb1.symm)
    · exact Or.inr (Or.inl (ha1 ▸ hx b hb1))
    · exact Or.inr (Or.inr (hb1 ▸ hx a ha1))
    · exact ih hl a ha1 b hb1

/-- Two blocks read one after the other, the second starting where the first
ends, lie in the same coalesced range. -/
theorem coalesce_adjacent_same (zs l1 l2 : List FILE_ZERO_DATA_INFORMATION)
    (z1 z2 : FILE_ZERO_DATA_INFORMATION) (hasc : Ascending zs)
    (hzs : zs = l1 ++ z1 :: z2 :: l2) (hadj : z1.BeyondFinalZero = z2.FileOffset) :
    ∃ r ∈ coalesce zs, r.FileOffset ≤ z1.FileOffset ∧ z2.BeyondFinalZero ≤ r.BeyondFinalZero := by
  have hm1 : z1 ∈ zs := by rw [hzs]; simp
  have hm2 : z2 ∈ zs := by rw [hzs]; simp
  have hwf : ∀ z ∈ zs, z.FileOffset ≤ z.BeyondFinalZero := fun z hz => le_of_lt (hasc.1 z hz)
  obtain ⟨r1, hr1, h11, h12⟩ := coalesce_covered zs hwf z1 hm1
  obtain ⟨r2, hr2, h21, h22⟩ := coalesce_covered zs hwf z2 hm2
  have hn1 := hasc.1 z1 hm1
  have hn2 := hasc.1 z2 hm2
  rcases pairwise_mem_cases (coalesce_separated zs hasc).1 r1 hr1 r2 hr2 with rfl | h | h
  · exact ⟨r1, hr1, h11, h22⟩
  · omega
  · omega

/-- C2. For every storage whose reads return at most the bytes asked for,
every block size and every allocated-range list that is sorted and
non-overlapping, the requests `process_file` passes to `io_deallocate_range`
in one run neither overlap nor touch: each request ends strictly before every
later one starts, so of two distinct requests one ends strictly before the
other starts. On normal return, two all-zero blocks read one after the other
with the first ending where the second starts lie inside one request. -/
theorem C2_flushed_ranges_separated (S : Storage σ) (hS : S.ReadBounded) (blockSize : Nat)
    (fileSize uninitialised : Int) (h0 : σ) (allocatedRanges : List range)
    (hsorted : SortedRanges allocatedRanges) :
    (flushed (process_file S (resparser.init blockSize h0 fileSize uninitialised)
        allocatedRanges).final.trace).Pairwise
      (fun a b => a.BeyondFinalZero < b.FileOffset) ∧
    (∀ a ∈ flushed (process_file S (resparser.init blockSize h0 fileSize uninitialised)
        allocatedRanges).final.trace,
      ∀ b ∈ flushed (process_file S (resparser.init blockSize h0 fileSize uninitialised)
        allocatedRanges).final.trace,
      a = b ∨ a.BeyondFinalZero < b.FileOffset ∨ b.BeyondFinalZero < a.FileOffset) ∧
    ((process_file S (resparser.init blockSize h0 fileSize uninitialised)
        allocatedRanges).thrown = none →
      ∀ l1 z1 z2 l2,
        zeroBlocks (process_file S (resparser.init blockSize h0 fileSize uninitialised)
          allocatedRanges).final.trace = l1 ++ z1 :: z2 :: l2 →
        z1.BeyondFinalZero = z2.FileOffset →
        ∃ r ∈ flushed (process_file S (resparser.init blockSize h0 fileSize uninitialised)
          allocatedRanges).final.trace,
          r.FileOffset ≤ z1.FileOffset ∧ z2.BeyondFinalZero ≤ r.BeyondFinalZero) := by
  obtain ⟨⟨pos, rs, hJ, -⟩, ⟨rest, hE⟩, hok, -⟩ :=
    process_file_scanOrder S hS blockSize fileSize uninitialised h0 allocatedRanges hsorted
  have hsep := (coalesce_separated _ hJ.2.1).1
  have hpw : (flushed (process_file S (resparser.init blockSize h0 fileSize uninitialised)
      allocatedRanges).final.trace).Pairwise
      (fun a b => a.BeyondFinalZero < b.FileOffset) := by
    unfold Separated at hsep
    rw [hE, List.pairwise_append] at hsep
    exact hsep.1
  refine ⟨hpw, pairwise_mem_cases hpw, ?_⟩
  intro hthrown l1 z1 z2 l2 hzs hadj
  rw [(hok hthrown).1]
  exact coalesce_adjacent_same _ l1 l2 z1 z2 hJ.2.1 hzs hadj

/-- Witness for C2: the all-zero file with allocated ranges `[0,4)` and
`[8,12)` scanned with block size 4. -/
theorem C2_flushed_ranges_separated_witness :
    sparseFileStorage.ReadBounded ∧ SortedRanges [⟨0, 4⟩, ⟨8, 12⟩] ∧
    flushed (process_file sparseFileStorage (resparser.init 4 exampleHole 12 0)
      [⟨0, 4⟩, ⟨8, 12⟩]).final.trace = [⟨0, 4⟩, ⟨8, 12⟩] ∧
    (flushed (process_file sparseFileStorage (resparser.init 4 exampleHole 12 0)
      [⟨0, 4⟩, ⟨8, 12⟩]).final.trace).Pairwise
      (fun a b => a.BeyondFinalZero < b.FileOffset) :=
  ⟨sparseFileStorage_readBounded, by simp [SortedRanges], by decide,
    (C2_flushed_ranges_separated sparseFileStorage sparseFileStorage_readBounded 4 12 0
      exampleHole [⟨0, 4⟩, ⟨8, 12⟩] (by simp [SortedRanges])).1⟩

/-- C9. On every run of `process_file` that returns normally, whatever the
storage, the list and the value the uninitialised counter held before,
`deallocated_bytes` at the end is the sum of `BeyondFinalZero - FileOffset`
over the requests passed to `io_deallocate_range` during the run. -/
theorem C9_counter_is_sum_of_requests (S : Storage σ) (blockSize : Nat)
    (fileSize uninitialised : Int) (h0 : σ) (allocatedRanges : List range)
    (hok : (process_file S (resparser.init blockSize h0 fileSize uninitialised)
      allocatedRanges).thrown = none) :
    (process_file S (resparser.init blockSize h0 fileSize uninitialised)
      allocatedRanges).final.deallocated_bytes =
    totalLength (flushed (process_file S (resparser.init blockSize h0 fileSize uninitialised)
      allocatedRanges).final.trace) := by
  have h := process_file_spec S blockSize fileSize uninitialised h0 allocatedRanges
    (fun _ _ _ _ => True) trivial (fun _ _ _ _ _ _ _ _ _ => trivial)
    (fun _ _ _ _ _ _ _ _ _ _ _ _ => trivial) (fun _ _ _ _ _ _ _ _ _ _ => trivial)
    (fun _ _ _ _ _ _ _ _ _ => trivial) (fun _ _ _ _ _ _ _ _ => trivial)
  exact (h.2.2.1 hok).2.1

/-- Witness for C9: the three-block file `[0000][ABCD][0000]` with block size
4 and a counter that held 77 before the run ends with the counter at 8. -/
theorem C9_counter_is_sum_of_requests_witness :
    (process_file sparseFileStorage (resparser.init 4 exampleThreeBlocks 12 77)
      [⟨0, 12⟩]).thrown = none ∧
    (process_file sparseFileStorage (resparser.init 4 exampleThreeBlocks 12 77)
      [⟨0, 12⟩]).final.deallocated_bytes = 8 ∧
    (process_file sparseFileStorage (resparser.init 4 exampleThreeBlocks 12 77)
      [⟨0, 12⟩]).final.deallocated_bytes =
    totalLength (flushed (process_file sparseFileStorage
      (resparser.init 4 exampleThreeBlocks 12 77) [⟨0, 12⟩]).final.trace) :=
  ⟨by decide, by decide,
    C9_counter_is_sum_of_requests sparseFileStorage 4 12 77 exampleThreeBlocks [⟨0, 12⟩]
      (by decide)⟩

/-! ## Holes between allocated ranges -/

theorem SortedRanges.append_right {l r : List range} (h : SortedRanges (l ++ r)) :
    SortedRanges r :=
  ⟨fun x hx => h.1 x (List.mem_append_right _ hx), h.2.right_of_append⟩

theorem SortedRanges.rel_of_mem :
    ∀ {l : List range} {x : range}, SortedRanges (x :: l) → ∀ y ∈ l, x.end_ ≤ y.start := by
  intro l
  induction l with
  | nil => intro x _ y hy; cases hy
  | cons y1 l ih =>
    intro x h y hy
    have h1 := h.head_le
    rcases List.mem_cons.mp hy with rfl | hy
    · exact h1
    · have h2 := ih h.tail y hy
      have h3 := h.1 y1 (by simp)
      omega

theorem SortedRanges.head_end_le {l rest : List range} {a : range}
    (h : SortedRanges (l ++ a :: rest)) :
    ∀ front ∈ (l ++ a :: rest).head?, front.end_ ≤ a.end_ := by
  intro front hfront
  cases l with
  | nil =>
    simp only [List.nil_append, List.head?_cons, Option.mem_def, Option.some.injEq] at hfront
    rw [hfront]
  | cons x l =>
    simp only [List.cons_append, List.head?_cons, Option.mem_def, Option.some.injEq] at hfront
    subst hfront
    have h1 := h.rel_of_mem a (by simp)
    have h2 := h.1 a (by simp)
    omega

theorem SortedRanges.start_le {l rest l2 : List range} {b front : range}
    (h : SortedRanges (b :: l2)) (heq : b :: l2 = l ++ front :: rest) :
    b.start ≤ front.start := by
  cases l with
  | nil =>
    simp only [List.nil_append, List.cons.injEq] at heq
    rw [heq.1]
  | cons x l =>
    simp only [List.cons_append, List.cons.injEq] at heq
    have h1 := h.rel_of_mem front (by rw [heq.2]; simp)
    have h2 := h.1 b (by simp)
    omega

/-- Over a sorted list, no zero block is read across the hole between two
consecutive ranges. -/
theorem process_file_gapOrder (S : Storage σ) (hS : S.ReadBounded) (bs : Nat) (fs u : Int)
    (h0 : σ) (l1 l2 : List range) (a b : range)
    (hsorted : SortedRanges (l1 ++ a :: b :: l2)) :
    ScanOutcome S bs fs (fun pos rs t _ => GapOrder a b l2 pos rs t)
      (process_file S (resparser.init bs h0 fs u) (l1 ++ a :: b :: l2)) := by
  have hsb : SortedRanges (b :: l2) := by
    have h1 : SortedRanges (a :: b :: l2) := hsorted.append_right
    exact h1.tail
  apply process_file_spec
  · exact ⟨hsorted, Or.inl ⟨l1, rfl⟩, by simp [zeroBlocks]⟩
  · rintro pos front next rest t h ⟨hs, hphase, hz⟩ _ _
    refine ⟨hs.tail, ?_, hz⟩
    rcases hphase with ⟨l, hl⟩ | ⟨⟨l, hl⟩, -⟩
    · cases l with
      | nil =>
        simp only [List.nil_append, List.cons.injEq] at hl
        obtain ⟨-, rfl, rfl⟩ := hl
        exact Or.inr ⟨⟨[], rfl⟩, by simp⟩
      | cons x l =>
        simp only [List.cons_append, List.cons.injEq] at hl
        exact Or.inl ⟨l, hl.2⟩
    · exact Or.inr ⟨⟨l ++ [front], by rw [hl]; simp⟩, by simp⟩
  · rintro pos front rest t h buff hd ⟨hs, hphase, hz⟩ _ hpf _ hrd
    have hb := hS _ _ _ _ _ hrd
    have hr := requestedLength_le bs front pos hpf
    refine ⟨hs, ?_, ?_⟩
    · rcases hphase with hbefore | ⟨hl, hstart⟩
      · exact Or.inl hbefore
      · refine Or.inr ⟨hl, ?_⟩
        intro fr hfr
        have := hstart fr hfr
        omega
    · intro z hzm
      rw [zeroBlocks_append] at hzm
      rcases List.mem_append.mp hzm with hzm | hzm
      · exact hz z hzm
      · obtain ⟨rfl, -, -⟩ := zeroBlocks_read_mem _ _ _ _ hzm
        rcases hphase with ⟨l, hl⟩ | ⟨⟨l, hl⟩, hstart⟩
        · left
          have h1 := (hl ▸ hs).head_end_le front (by rw [← hl]; simp)
          show pos + (buff.length : Int) ≤ a.end_
          omega
        · right
          have h1 := hsb.start_le hl
          have h2 := hstart front (by simp)
          show b.start ≤ pos
          omega
  · rintro pos front rest t h ⟨hs, hphase, hz⟩ _ _ _ _
    simp only [GapOrder, zeroBlocks_append, zeroBlocks_read_none, List.append_nil]
    exact ⟨hs, hphase, hz⟩
  · rintro pos rs t h p h' ⟨hs, hphase, hz⟩ _ _
    simp only [GapOrder, zeroBlocks_append, zeroBlocks_deallocate, List.append_nil]
    exact ⟨hs, hphase, hz⟩
  · rintro pos rs t h p ⟨hs, hphase, hz⟩ _ _
    simp only [GapOrder, zeroBlocks_append, zeroBlocks_deallocate, List.append_nil]
    exact ⟨hs, hphase, hz⟩

/-- C10. A hole between two allocated ranges is never spanned: for every
storage whose reads return at most the bytes asked for, every block size and
every sorted non-overlapping list in which `a` is directly followed by `b`
with `a.end < b.start`, each request of `process_file` lies wholly at or before
`a.end` or wholly at or after `b.start`, so it contains no byte of the hole
`[a.end, b.start)` and cannot hold both a block ending at `a.end` and a block
starting at `b.start`. -/
theorem C10_hole_never_spanned (S : Storage σ) (hS : S.ReadBounded) (blockSize : Nat)
    (fileSize uninitialised : Int) (h0 : σ) (l1 l2 : List range) (a b : range)
    (hsorted : SortedRanges (l1 ++ a :: b :: l2)) (hgap : a.end_ < b.start) :
    ∀ z ∈ flushed (process_file S (resparser.init blockSize h0 fileSize uninitialised)
        (l1 ++ a :: b :: l2)).final.trace,
      (z.BeyondFinalZero ≤ a.end_ ∨ b.start ≤ z.FileOffset) ∧
      ∀ x : Int, a.end_ ≤ x → x < b.start → ¬ (z.FileOffset ≤ x ∧ x < z.BeyondFinalZero) := by
  obtain ⟨⟨pos, rs, hJ, -⟩, hE, -, -⟩ :=
    process_file_gapOrder S hS blockSize fileSize uninitialised h0 l1 l2 a b hsorted
  intro z hz
  have hside : z.BeyondFinalZero ≤ a.end_ ∨ b.start ≤ z.FileOffset :=
    coalesce_forall (fun z => z.BeyondFinalZero ≤ a.end_ ∨ b.start ≤ z.FileOffset)
      (fun p y hp hy hadj => by
        show y.BeyondFinalZero ≤ a.end_ ∨ b.start ≤ p.FileOffset
        omega) _ hJ.2.2 z (hE.flushed_mem_coalesce z hz)
  refine ⟨hside, ?_⟩
  intro x h1 h2 h3
  omega

/-- Witness for C10: allocated ranges `[0,4)` and `[8,12)`, all bytes zero,
block size 4 give the two requests `[0,4)` and `[8,12)`, neither containing a
byte of the hole `[4,8)`. -/
theorem C10_hole_never_spanned_witness :
    sparseFileStorage.ReadBounded ∧ SortedRanges ([] ++ ⟨0, 4⟩ :: ⟨8, 12⟩ :: []) ∧
    ((⟨0, 4⟩ : range).end_ < (⟨8, 12⟩ : range).start) ∧
    flushed (process_file sparseFileStorage (resparser.init 4 exampleHole 12 0)
      ([] ++ ⟨0, 4⟩ :: ⟨8, 12⟩ :: [])).final.trace = [⟨0, 4⟩, ⟨8, 12⟩] ∧
    (process_file sparseFileStorage (resparser.init 4 exampleHole 12 0)
      ([] ++ ⟨0, 4⟩ :: ⟨8, 12⟩ :: [])).final.deallocated_bytes = 8 ∧
    ∀ z ∈ flushed (process_file sparseFileStorage (resparser.init 4 exampleHole 12 0)
        ([] ++ ⟨0, 4⟩ :: ⟨8, 12⟩ :: [])).final.trace,
      (z.BeyondFinalZero ≤ (⟨0, 4⟩ : range).end_ ∨ (⟨8, 12⟩ : range).start ≤ z.FileOffset) ∧
      ∀ x : Int, (⟨0, 4⟩ : range).end_ ≤ x → x < (⟨8, 12⟩ : range).start →
        ¬ (z.FileOffset ≤ x ∧ x < z.BeyondFinalZero) :=
  ⟨sparseFileStorage_readBounded, by simp [SortedRanges], by decide, by decide, by decide,
    C10_hole_never_spanned sparseFileStorage sparseFileStorage_readBounded 4 12 0 exampleHole
      [] [] ⟨0, 4⟩ ⟨8, 12⟩ (by simp [SortedRanges]) (by decide)⟩

/-! ## The coalesced ranges as maximal runs -/

theorem coalesce_inBlock (zs : List FILE_ZERO_DATA_INFORMATION) :
    ∀ r ∈ coalesce zs, ∀ x : Int, r.FileOffset ≤ x → x < r.BeyondFinalZero → InBlock zs x := by
  apply coalesce_forall
    (fun r => ∀ x : Int, r.FileOffset ≤ x → x < r.BeyondFinalZero → InBlock zs x)
  · intro p z hp hz hadj x h1 h2
    by_cases hx : x < p.BeyondFinalZero
    · exact hp x h1 hx
    · exact hz x (by omega) h2
  · intro z hz x h1 h2
    exact ⟨z, hz, h1, h2⟩

theorem coalesce_maximalRun (zs : List FILE_ZERO_DATA_INFORMATION) (hasc : Ascending zs)
    (z : FILE_ZERO_DATA_INFORMATION) (hz : z ∈ coalesce zs) : MaximalRun (InBlock zs) z := by
  have hsep := coalesce_separated zs hasc
  have hwf : ∀ y ∈ zs, y.FileOffset ≤ y.BeyondFinalZero := fun y hy => le_of_lt (hasc.1 y hy)
  have hne := hsep.2 z hz
  refine ⟨hne, coalesce_inBlock zs z hz, ?_, ?_⟩
  · rintro ⟨y, hy, h1, h2⟩
    obtain ⟨r, hr, h3, h4⟩ := coalesce_covered zs hwf y hy
    have hrn := hsep.2 r hr
    rcases pairwise_mem_cases hsep.1 r hr z hz with rfl | h | h <;> omega
  · rintro ⟨y, hy, h1, h2⟩
    obtain ⟨r, hr, h3, h4⟩ := coalesce_covered zs hwf y hy
    have hrn := hsep.2 r hr
    rcases pairwise_mem_cases hsep.1 r hr z hz with rfl | h | h <;> omega

/-- The coalesced form of ascending blocks is exactly the set of maximal runs
of positions lying in a block. -/
theorem mem_coalesce_iff_maximalRun (zs : List FILE_ZERO_DATA_INFORMATION)
    (hasc : Ascending zs) (z : FILE_ZERO_DATA_INFORMATION) :
    z ∈ coalesce zs ↔ MaximalRun (InBlock zs) z := by
  refine ⟨coalesce_maximalRun zs hasc z, ?_⟩
  rintro ⟨hne, hin, hleft, hright⟩
  have hwf : ∀ y ∈ zs, y.FileOffset ≤ y.BeyondFinalZero := fun y hy => le_of_lt (hasc.1 y hy)
  obtain ⟨y, hy, h1, h2⟩ := hin z.FileOffset (le_refl _) hne
  obtain ⟨r, hr, h3, h4⟩ := coalesce_covered zs hwf y hy
  obtain ⟨-, hrin, hrleft, hrright⟩ := coalesce_maximalRun zs hasc r hr
  have hF : r.FileOffset = z.FileOffset := by
    by_contra hcon
    exact hleft (hrin (z.FileOffset - 1) (by omega) (by omega))
  have hB : r.BeyondFinalZero = z.BeyondFinalZero := by
    by_contra hcon
    rcases lt_or_gt_of_ne hcon with h | h
    · exact hrright (hin r.BeyondFinalZero (by omega) h)
    · exact hright (hrin z.BeyondFinalZero (by omega) h)
  have : r = z := by
    cases r; cases z
    simp only at hF hB
    rw [hF, hB]
  rw [← this]
  exact hr

/-- C4, as stated, fails. With block size 4 on the allocated 4-byte file
`[0,0,0,A]` the run returns normally and issues no request, while bytes
`[0,3)` are a maximal run of zero bytes inside the allocated range: zero
detection is per block. On the 12-byte file whose only allocated range is
`[8,12)` (a sorted list) the run returns normally and requests `[0,8)`, which
lies in no allocated range: the scan starts at offset 0 whatever the first
range is. And on the fully sparse 4-byte file, whose list is empty, the run
does not end normally: `front()` is taken of the empty deque. -/
theorem C4_counterexample :
    ((resparseFile 4 exampleMixedBlock).thrown = none ∧
      ¬ (∀ z, z ∈ flushed (resparseFile 4 exampleMixedBlock).final.trace ↔
          MaximalRun (ZeroAllocated exampleMixedBlock.bytes exampleMixedBlock.allocated) z)) ∧
    (SortedRanges exampleLeadingHole.allocated ∧
      (resparseFile 4 exampleLeadingHole).thrown = none ∧
      flushed (resparseFile 4 exampleLeadingHole).final.trace = [⟨0, 8⟩] ∧
      ¬ (∀ z, z ∈ flushed (resparseFile 4 exampleLeadingHole).final.trace ↔
          MaximalRun (ZeroAllocated exampleLeadingHole.bytes exampleLeadingHole.allocated) z)) ∧
    (exampleFullySparse.allocated = [] ∧
      (resparseFile 4 exampleFullySparse).thrown = some Exception.emptyDequeFront) := by
  refine ⟨⟨by decide, ?_⟩,
    ⟨by simp [SortedRanges, exampleLeadingHole], by decide, by decide, ?_⟩, rfl, by decide⟩
  · intro h
    have hrun : MaximalRun (ZeroAllocated exampleMixedBlock.bytes exampleMixedBlock.allocated)
        ⟨0, 3⟩ := by
      refine ⟨by decide, ?_, ?_, ?_⟩
      · intro x h1 h2
        simp only at h1 h2
        refine ⟨h1, ?_, ⟨0, 4⟩, by simp [exampleMixedBlock], h1, by simp only; omega⟩
        interval_cases x <;> decide
      · rintro ⟨h1, -⟩
        simp at h1
      · rintro ⟨-, h1, -⟩
        revert h1
        decide
    have hmem := (h ⟨0, 3⟩).2 hrun
    revert hmem
    decide
  · intro h
    have hmem : (⟨0, 8⟩ : FILE_ZERO_DATA_INFORMATION) ∈
        flushed (resparseFile 4 exampleLeadingHole).final.trace := by decide
    obtain ⟨-, hin, -, -⟩ := (h ⟨0, 8⟩).1 hmem
    obtain ⟨-, -, r, hr, h1, -⟩ := hin 0 (le_refl _) (by decide)
    simp only [exampleLeadingHole, List.mem_singleton] at hr
    subst hr
    simp at h1

/-- C5 fails on the code: with the single allocated range `[8,12)` (sorted,
non-empty) and block size 4 the first read `process_file` issues is at
position 0 for 4 bytes, and no range of the list contains `[0,4)`. -/
theorem C5_first_read_outside_allocated_ranges :
    SortedRanges exampleLeadingHole.allocated ∧
    (resparseFile 4 exampleLeadingHole).final.trace.head? =
      some (IoEvent.read 0 4 (some [0, 0, 0, 0])) ∧
    ¬ ∃ r ∈ exampleLeadingHole.allocated, r.start ≤ 0 ∧ (0 : Int) + 4 ≤ r.end_ :=
  ⟨by simp [SortedRanges, exampleLeadingHole], by decide, by decide⟩

/-- C6 fails on the code: on a 4-byte file with an empty allocated-range list
the loop is entered (`0 < fileSize`), the guard on the empty deque is skipped
and `allocatedRanges.front()` is taken of the empty deque; the run does not
end normally. -/
theorem C6_empty_list_takes_front_of_empty_deque :
    exampleFullySparse.allocated = [] ∧
    (resparseFile 4 exampleFullySparse).thrown = some Exception.emptyDequeFront :=
  ⟨rfl, by decide⟩

/-- C7 fails on the code: on the allocated file `[0000][ABCD]` with block size
4 the first run returns normally, requests `[0,4)` and leaves the same bytes
with the allocated list `[4,8)`; the second run on that state reads the hole
`[0,4)` again, requests `[0,4)` once more and ends with
`deallocated_bytes = 4`. -/
theorem C7_second_run_deallocates_again :
    (resparseFile 4 exampleLeadingZeroBlock).thrown = none ∧
    flushed (resparseFile 4 exampleLeadingZeroBlock).final.trace = [⟨0, 4⟩] ∧
    (resparseFile 4 exampleLeadingZeroBlock).final.fileHandle =
      ⟨[0, 0, 0, 0, 65, 66, 67, 68], [⟨4, 8⟩]⟩ ∧
    (resparseFile 4 (resparseFile 4 exampleLeadingZeroBlock).final.fileHandle).thrown = none ∧
    flushed (resparseFile 4 (resparseFile 4 exampleLeadingZeroBlock).final.fileHandle).final.trace
      = [⟨0, 4⟩] ∧
    (resparseFile 4 (resparseFile 4 exampleLeadingZeroBlock).final.fileHandle).final.deallocated_bytes
      = 4 :=
  ⟨by decide, by decide, by decide, by decide, by decide, by decide⟩

/-- C8 fails on the code: with the single allocated range `[8,12)` of a
12-byte file (allocated total 4) and block size 4, the run returns normally
with `deallocated_bytes = 8`, the length of the hole `[0,8)` it read from
position 0. -/
theorem C8_deallocated_exceeds_allocated :
    SortedRanges exampleLeadingHole.allocated ∧
    (∀ r ∈ exampleLeadingHole.allocated,
      0 ≤ r.start ∧ r.end_ ≤ (exampleLeadingHole.bytes.length : Int)) ∧
    (resparseFile 4 exampleLeadingHole).thrown = none ∧
    totalAllocated exampleLeadingHole.allocated = 4 ∧
    (resparseFile 4 exampleLeadingHole).final.deallocated_bytes = 8 :=
  ⟨by simp [SortedRanges, exampleLeadingHole], by decide, by decide, by decide, by decide⟩

/-! ## The fully allocated file, block by block -/

theorem requestedLength_eq (bs : Nat) (front : range) (pos : Int) (h : pos < front.end_)
    (hbs : bs < 4294967296) :
    (requestedLength bs front pos : Int) = min (bs : Int) (front.end_ - pos) := by
  unfold requestedLength
  dsimp only
  omega

theorem take_min_drop (bytes : List UInt8) (m bs : Nat) :
    (bytes.drop m).take (min bs (bytes.length - m)) = (bytes.drop m).take bs := by
  by_cases h : bs ≤ bytes.length - m
  · rw [Nat.min_eq_left h]
  · rw [Nat.min_eq_right (by omega)]
    rw [List.take_of_length_le (by simp), List.take_of_length_le (by simp; omega)]

theorem fileBlock_length (bs : Nat) (bytes : List UInt8) (i : Nat) :
    (fileBlock bs bytes i).length = min bs (bytes.length - i * bs) := by
  simp [fileBlock]

theorem fileZeroBlocks_succ (bs : Nat) (bytes : List UInt8) (k : Nat) :
    fileZeroBlocks bs bytes (k + 1) =
      fileZeroBlocks bs bytes k ++
        zeroBlocks [IoEvent.read ((k * bs : Nat) : Int) (min bs (bytes.length - k * bs))
          (some (fileBlock bs bytes k))] := by
  unfold fileZeroBlocks
  rw [List.range_succ, List.filterMap_append]
  congr 1
  by_cases hc : (fileBlock bs bytes k).length ≠ 0 ∧
      (fileBlock bs bytes k).all (fun i => i == 0) = true
  · rw [zeroBlocks_read_some _ _ _ hc.1 hc.2]
    simp only [List.filterMap_cons, List.filterMap_nil, fileZeroBlock, isZeroFileBlock,
      if_pos hc]
  · rw [zeroBlocks_read_nonzero _ _ _ (by
      by_cases h0 : (fileBlock bs bytes k).length = 0
      · exact Or.inl h0
      · right
        simpa [h0] using hc)]
    simp only [List.filterMap_cons, List.filterMap_nil, fileZeroBlock, isZeroFileBlock,
      if_neg hc]

/-- The scan of a file allocated as the single range `[0, fileSize)` reads the
blocks of the file one after the other. -/
theorem scanFile_blockScan (bs : Nat) (hbs2 : bs < 4294967296)
    (bytes : List UInt8) (allocated : List range) (u : Int) :
    ScanOutcome sparseFileStorage bs (bytes.length : Int) (BlockScan bs bytes)
      (scanFile bs ⟨bytes, allocated⟩ [⟨0, (bytes.length : Int)⟩] u) := by
  apply process_file_spec
  · refine ⟨⟨rfl, by simp [zeroBlocks]⟩, rfl, 0, by simp, by omega, rfl⟩
  · rintro pos front next rest t h ⟨-, hrs, -⟩ _ _
    simp at hrs
  · rintro pos front rest t h buff hd ⟨hF, hrs, k, hpos, hk, hz⟩ hlt hpf hseek hrd
    obtain ⟨hF', hbuff, hpos0⟩ := hF.read hseek hrd
    simp only [List.cons.injEq] at hrs
    obtain ⟨rfl, rfl⟩ := hrs
    have hkl : k * bs < bytes.length := by omega
    have hposk : pos = ((k * bs : Nat) : Int) := by omega
    have hn : requestedLength bs ⟨0, (bytes.length : Int)⟩ pos
        = min bs (bytes.length - k * bs) := by
      have := requestedLength_eq bs ⟨0, (bytes.length : Int)⟩ pos hpf hbs2
      simp only at this
      omega
    have hb : buff = fileBlock bs bytes k := by
      rw [hbuff, hn, hposk]
      simp only [Int.toNat_ofNat]
      exact take_min_drop bytes (k * bs) bs
    refine ⟨hF', rfl, k + 1, ?_, ?_, ?_⟩
    · rw [hb, fileBlock_length, hposk]
      have : (k + 1) * bs = k * bs + bs := by ring
      rw [this]
      omega
    · intro k' hk'
      have : k' = k := by omega
      rw [this]; exact hkl
    · rw [zeroBlocks_append, hz, fileZeroBlocks_succ, hn, hb, hposk]
  · rintro pos front rest t h ⟨hF, hrs, k, hpos, hk, hz⟩ _ _ _ _
    refine ⟨hF.readFail _ _, hrs, k, hpos, hk, ?_⟩
    rw [zeroBlocks_append, zeroBlocks_read_none, List.append_nil, hz]
  · rintro pos rs t h p h' ⟨hF, hrs, k, hpos, hk, hz⟩ hp hf
    refine ⟨hF.dealloc hp hf, hrs, k, hpos, hk, ?_⟩
    rw [zeroBlocks_append, zeroBlocks_deallocate, List.append_nil, hz]
  · rintro pos rs t h p ⟨hF, hrs, k, hpos, hk, hz⟩ _ _
    refine ⟨hF.deallocFail p, hrs, k, hpos, hk, ?_⟩
    rw [zeroBlocks_append, zeroBlocks_deallocate, List.append_nil, hz]

/-- The scan of a non-empty-block-size file allocated as the single range
`[0, fileSize)` returns normally. -/
theorem scanFile_single_ok (bs : Nat) (hbs1 : 1 ≤ bs) (hbs2 : bs < 4294967296)
    (bytes : List UInt8) (allocated : List range) (u : Int) :
    (scanFile bs ⟨bytes, allocated⟩ [⟨0, (bytes.length : Int)⟩] u).thrown = none := by
  cases hth : (scanFile bs ⟨bytes, allocated⟩ [⟨0, (bytes.length : Int)⟩] u).thrown with
  | none => rfl
  | some e =>
    exfalso
    obtain ⟨pos, rs, t, h, ⟨hF, hrs, k, hpos, -, -⟩, hc⟩ :=
      (scanFile_blockScan bs hbs2 bytes allocated u).2.2.2 e hth
    rcases hc with ⟨-, -, hseek⟩ | ⟨-, -, hnil⟩ | ⟨-, hlt, front, rest, hfr, hpf, -, hrd⟩ |
      ⟨-, p, -, hf⟩ | ⟨-, -, hg⟩
    · simp only [sparseFileStorage, decide_eq_false_iff_not] at hseek
      omega
    · rw [hnil] at hrs
      cases hrs
    · rw [hrs] at hfr
      simp only [List.cons.injEq] at hfr
      obtain ⟨rfl, -⟩ := hfr
      have hn := requestedLength_eq bs ⟨0, (bytes.length : Int)⟩ pos hpf hbs2
      rcases hrd with hrd | ⟨hd, hrd⟩
      · simp [sparseFileStorage] at hrd
      · simp only [sparseFileStorage, Option.some.injEq, Prod.mk.injEq] at hrd
        have hlen := congrArg List.length hrd.1
        rw [hF.1] at hlen
        simp only [List.length_take, List.length_drop, List.length_nil] at hlen
        simp only at hn
        omega
    · simp [sparseFileStorage] at hf
    · simp [sparseFileStorage] at hg

theorem mem_fileZeroBlocks (bs : Nat) (bytes : List UInt8) (k : Nat)
    (y : FILE_ZERO_DATA_INFORMATION) :
    y ∈ fileZeroBlocks bs bytes k ↔
      ∃ i, i < k ∧ (fileBlock bs bytes i).length ≠ 0 ∧ isZeroFileBlock bs bytes i = true ∧
        y = ⟨((i * bs : Nat) : Int),
          ((i * bs : Nat) : Int) + ((fileBlock bs bytes i).length : Int)⟩ := by
  unfold fileZeroBlocks
  rw [List.mem_filterMap]
  constructor
  · rintro ⟨i, hi, hy⟩
    rw [List.mem_range] at hi
    unfold fileZeroBlock at hy
    split at hy
    · rename_i hc
      simp only [Option.some.injEq] at hy
      exact ⟨i, hi, hc.1, hc.2, hy.symm⟩
    · cases hy
  · rintro ⟨i, hi, h1, h2, rfl⟩
    refine ⟨i, List.mem_range.mpr hi, ?_⟩
    unfold fileZeroBlock
    rw [if_pos ⟨h1, h2⟩]

/-- Once the scan has gone through the whole file, a position lies in a zero
block read exactly when it lies in an all-zero block of the file. -/
theorem inBlock_fileZeroBlocks (bs : Nat) (hbs1 : 1 ≤ bs) (bytes : List UInt8) (k : Nat)
    (hk : bytes.length ≤ k * bs) (x : Int) :
    InBlock (fileZeroBlocks bs bytes k) x ↔ InZeroFileBlock bs bytes x := by
  constructor
  · rintro ⟨y, hy, h1, h2⟩
    obtain ⟨i, -, hlen, hz, rfl⟩ := (mem_fileZeroBlocks bs bytes k y).mp hy
    simp only at h1 h2
    rw [fileBlock_length] at hlen h2
    have hx0 : 0 ≤ x := by omega
    have hdiv : x.toNat / bs = i := by
      apply Nat.div_eq_of_lt_le
      · omega
      · have : (i + 1) * bs = i * bs + bs := by ring
        omega
    refine ⟨hx0, by omega, ?_⟩
    rw [hdiv]
    exact hz
  · rintro ⟨h0, hlt, hz⟩
    have hdm := Nat.div_add_mod x.toNat bs
    have hml := Nat.mod_lt x.toNat (show bs > 0 by omega)
    have hc : bs * (x.toNat / bs) = x.toNat / bs * bs := Nat.mul_comm _ _
    have hi : x.toNat / bs < k := by
      by_contra hcon
      have : k * bs ≤ x.toNat / bs * bs := Nat.mul_le_mul_right bs (by omega)
      omega
    have hlen : (fileBlock bs bytes (x.toNat / bs)).length ≠ 0 := by
      rw [fileBlock_length]
      omega
    refine ⟨_, (mem_fileZeroBlocks bs bytes k _).mpr ⟨x.toNat / bs, hi, hlen, hz, rfl⟩, ?_, ?_⟩
    · simp only
      omega
    · simp only
      rw [fileBlock_length]
      omega

theorem totalLength_fileZeroBlocks (bs : Nat) (bytes : List UInt8) (k : Nat) :
    totalLength (fileZeroBlocks bs bytes k) =
      (((List.range k).map (fun i =>
        if isZeroFileBlock bs bytes i then (fileBlock bs bytes i).length else 0)).sum : Nat) := by
  induction k with
  | zero => simp [fileZeroBlocks, totalLength]
  | succ k ih =>
    unfold fileZeroBlocks at ih ⊢
    rw [List.range_succ, List.filterMap_append, totalLength_append, ih, List.map_append,
      List.sum_append]
    simp only [List.filterMap_cons, List.filterMap_nil, List.map_cons, List.map_nil,
      List.sum_cons, List.sum_nil, fileZeroBlock]
    push_cast
    congr 1
    by_cases hz : isZeroFileBlock bs bytes k = true
    · by_cases hl : (fileBlock bs bytes k).length = 0
      · simp [hz, hl, totalLength]
      · simp [hz, hl, totalLength]
    · simp [hz, totalLength]

theorem MaximalRun.congr {P Q : Int → Prop} (h : ∀ x, P x ↔ Q x)
    (z : FILE_ZERO_DATA_INFORMATION) : MaximalRun P z ↔ MaximalRun Q z := by
  unfold MaximalRun
  simp only [h]

theorem numBlocks_eq (bs : Nat) (hbs1 : 1 ≤ bs) (bytes : List UInt8) (k : Nat)
    (h : bytes.length ≤ k * bs) (hk : ∀ k', k = k' + 1 → k' * bs < bytes.length) :
    k = numBlocks bs bytes := by
  unfold numBlocks
  apply Nat.le_antisymm
  · rw [Nat.le_div_iff_mul_le (by omega)]
    cases k with
    | zero => omega
    | succ k' =>
      have := hk k' rfl
      have : (k' + 1) * bs = k' * bs + bs := by ring
      omega
  · have : (bytes.length + bs - 1) / bs < k + 1 := by
      rw [Nat.div_lt_iff_lt_mul (by omega)]
      have : (k + 1) * bs = k * bs + bs := by ring
      omega
    omega

theorem lt_numBlocks_iff (bs : Nat) (hbs1 : 1 ≤ bs) (bytes : List UInt8) (i : Nat) :
    i < numBlocks bs bytes ↔ i * bs < bytes.length := by
  unfold numBlocks
  rw [Nat.lt_iff_add_one_le, Nat.le_div_iff_mul_le (by omega)]
  have : (i + 1) * bs = i * bs + bs := by ring
  omega

theorem div_eq_of_bounds (bs x i : Nat) (h1 : i * bs ≤ x) (h2 : x < i * bs + bs) :
    x / bs = i := by
  apply Nat.div_eq_of_lt_le h1
  have : (i + 1) * bs = i * bs + bs := by ring
  omega

theorem blockRun_maximalRun (bs : Nat) (hbs1 : 1 ≤ bs) (bytes : List UInt8) (i j : Nat)
    (h : IsMaximalZeroBlockRun bs bytes i j) :
    MaximalRun (InZeroFileBlock bs bytes) (blockRunRange bs bytes i j) := by
  obtain ⟨hij, hjN, hall, hleft, hright⟩ := h
  have hiN : i * bs < bytes.length := (lt_numBlocks_iff bs hbs1 bytes i).mp (by omega)
  have hijb : i * bs + bs ≤ j * bs := by
    have : (i + 1) * bs ≤ j * bs := Nat.mul_le_mul_right bs hij
    have h2 : (i + 1) * bs = i * bs + bs := by ring
    omega
  refine ⟨?_, ?_, ?_, ?_⟩
  · simp only [blockRunRange]
    omega
  · intro x h1 h2
    simp only [blockRunRange] at h1 h2
    have hx0 : 0 ≤ x := by omega
    refine ⟨hx0, by omega, ?_⟩
    apply hall
    · rw [Nat.le_div_iff_mul_le (by omega)]
      omega
    · rw [Nat.div_lt_iff_lt_mul (by omega)]
      omega
  · rintro ⟨h0, hlt, hz⟩
    simp only [blockRunRange] at h0 hlt hz
    rcases hleft with rfl | hleft
    · simp at h0
    · have hi1 : 1 ≤ i := by
        by_contra hc
        have : i = 0 := by omega
        subst this
        simp at h0
      have hm : (i - 1) * bs + bs = i * bs := by
        have : (i - 1 + 1) * bs = (i - 1) * bs + bs := by ring
        rw [Nat.sub_add_cancel hi1] at this
        omega
      have hdiv : (((i * bs : Nat) : Int) - 1).toNat / bs = i - 1 := by
        apply div_eq_of_bounds <;> omega
      rw [hdiv, hleft] at hz
      cases hz
  · rintro ⟨h0, hlt, hz⟩
    simp only [blockRunRange] at h0 hlt hz
    have hjl : j * bs < bytes.length := by omega
    rcases hright with rfl | hright
    · have := (lt_numBlocks_iff bs hbs1 bytes (numBlocks bs bytes)).mpr hjl
      omega
    · have hdiv : (((min (j * bs) bytes.length : Nat) : Int)).toNat / bs = j := by
        apply div_eq_of_bounds <;> omega
      rw [hdiv, hright] at hz
      cases hz

theorem maximalRun_blockRun (bs : Nat) (hbs1 : 1 ≤ bs) (bytes : List UInt8)
    (z : FILE_ZERO_DATA_INFORMATION) (h : MaximalRun (InZeroFileBlock bs bytes) z) :
    ∃ i j, IsMaximalZeroBlockRun bs bytes i j ∧ z = blockRunRange bs bytes i j := by
  obtain ⟨hne, hin, hl, hr⟩ := h
  obtain ⟨F, B⟩ := z
  simp only at hne hin hl hr
  have hPF := hin F (le_refl _) hne
  have hPB := hin (B - 1) (by omega) (by omega)
  obtain ⟨hF0, hFl, hFz⟩ := hPF
  obtain ⟨hB0, hBl, hBz⟩ := hPB
  lift F to ℕ using hF0
  lift B to ℕ using (by omega)
  simp only [Int.toNat_ofNat] at hFz
  have hB1 : ((B : Int) - 1).toNat = B - 1 := by omega
  rw [hB1] at hBz
  have hbpos : 0 < bs := by omega
  -- the first block starts at `F`
  have hdmF := Nat.div_add_mod F bs
  have hmlF := Nat.mod_lt F hbpos
  have hcF : bs * (F / bs) = F / bs * bs := Nat.mul_comm _ _
  have hFi : F = F / bs * bs := by
    by_contra hcon
    apply hl
    refine ⟨by omega, by omega, ?_⟩
    have : ((F : Int) - 1).toNat / bs = F / bs := by
      apply div_eq_of_bounds <;> omega
    rw [this]
    exact hFz
  -- the last block ends at `B`
  have hdmB := Nat.div_add_mod (B - 1) bs
  have hmlB := Nat.mod_lt (B - 1) hbpos
  have hcB : bs * ((B - 1) / bs) = (B - 1) / bs * bs := Nat.mul_comm _ _
  have hjm : ((B - 1) / bs + 1) * bs = (B - 1) / bs * bs + bs := by ring
  have hBj : B = min (((B - 1) / bs + 1) * bs) bytes.length := by
    by_contra hcon
    apply hr
    refine ⟨by omega, by omega, ?_⟩
    have : ((B : Int)).toNat / bs = (B - 1) / bs := by
      apply div_eq_of_bounds <;> omega
    rw [this]
    exact hBz
  have hle : F / bs ≤ (B - 1) / bs := Nat.div_le_div_right (by omega)
  refine ⟨F / bs, (B - 1) / bs + 1, ⟨by omega, ?_, ?_, ?_, ?_⟩, ?_⟩
  · have := (lt_numBlocks_iff bs hbs1 bytes ((B - 1) / bs)).mpr (by omega)
    omega
  · intro k hk1 hk2
    have h1 : F / bs * bs ≤ k * bs := Nat.mul_le_mul_right bs hk1
    have h2 : k * bs ≤ (B - 1) / bs * bs := Nat.mul_le_mul_right bs (by omega)
    have := (hin ((k * bs : Nat) : Int) (by omega) (by omega)).2.2
    simp only [Int.toNat_ofNat] at this
    rw [Nat.mul_div_cancel k hbpos] at this
    exact this
  · by_cases hi0 : F / bs = 0
    · exact Or.inl hi0
    · right
      have hm : (F / bs - 1) * bs + bs = F / bs * bs := by
        have : (F / bs - 1 + 1) * bs = (F / bs - 1) * bs + bs := by ring
        rw [Nat.sub_add_cancel (Nat.pos_of_ne_zero hi0)] at this
        omega
      have hdiv : ((F : Int) - 1).toNat / bs = F / bs - 1 := by
        apply div_eq_of_bounds <;> omega
      cases hz : isZeroFileBlock bs bytes (F / bs - 1) with
      | false => rfl
      | true =>
        exfalso
        apply hl
        refine ⟨by omega, by omega, ?_⟩
        rw [hdiv]
        exact hz
  · by_cases hj : ((B - 1) / bs + 1) * bs < bytes.length
    · right
      have hdiv : ((B : Int)).toNat / bs = (B - 1) / bs + 1 := by
        apply div_eq_of_bounds <;> omega
      cases hz : isZeroFileBlock bs bytes ((B - 1) / bs + 1) with
      | false => rfl
      | true =>
        exfalso
        apply hr
        refine ⟨by omega, by omega, ?_⟩
        rw [hdiv]
        exact hz
    · left
      have h1 := (lt_numBlocks_iff bs hbs1 bytes ((B - 1) / bs)).mpr (by omega)
      have h2 : ¬ (B - 1) / bs + 1 < numBlocks bs bytes := by
        rw [lt_numBlocks_iff bs hbs1]
        exact hj
      omega
  · simp only [blockRunRange]
    rw [← hFi, ← hBj]

/-- C3. Block-granular reference result: for every block size from 1 to
2^32 - 1 (a `DWORD`) and every file that is allocated as the single range
`[0, fileSize)`, on the byte-sequence file model (whose reads are never short)
`process_file` returns normally, the requests it issues are in increasing
order, they are exactly the maximal runs of consecutive all-zero blocks of the
file split into blocks of `blockSize` bytes, each run requested as one range
from the start of its first block to the end of its last block, and
`deallocated_bytes` ends as the total number of bytes in all-zero blocks. -/
theorem C3_block_granular_reference (blockSize : Nat) (hbs1 : 1 ≤ blockSize)
    (hbs2 : blockSize < 4294967296) (bytes : List UInt8) :
    (resparseFile blockSize ⟨bytes, [⟨0, (bytes.length : Int)⟩]⟩).thrown = none ∧
    (flushed (resparseFile blockSize ⟨bytes, [⟨0, (bytes.length : Int)⟩]⟩).final.trace).Pairwise
      (fun a b => a.BeyondFinalZero < b.FileOffset) ∧
    (∀ z, z ∈ flushed (resparseFile blockSize ⟨bytes, [⟨0, (bytes.length : Int)⟩]⟩).final.trace ↔
      ∃ i j, IsMaximalZeroBlockRun blockSize bytes i j ∧ z = blockRunRange blockSize bytes i j) ∧
    (resparseFile blockSize ⟨bytes, [⟨0, (bytes.length : Int)⟩]⟩).final.deallocated_bytes =
      (zeroBlockBytes blockSize bytes : Int) := by
  have hrf : resparseFile blockSize ⟨bytes, [⟨0, (bytes.length : Int)⟩]⟩ =
      scanFile blockSize ⟨bytes, [⟨0, (bytes.length : Int)⟩]⟩ [⟨0, (bytes.length : Int)⟩] 0 :=
    rfl
  rw [hrf]
  have hok := scanFile_single_ok blockSize hbs1 hbs2 bytes [⟨0, (bytes.length : Int)⟩] 0
  obtain ⟨⟨pos, rs, ⟨-, hrs, k, hpos, hk, hz⟩, hend⟩, -, hfl, -⟩ :=
    scanFile_blockScan blockSize hbs2 bytes [⟨0, (bytes.length : Int)⟩] 0
  obtain ⟨hflushed, hcount, -⟩ := hfl hok
  have hkl : bytes.length ≤ k * blockSize := by
    rcases hend hok with h | ⟨front, hfr, hge⟩
    · omega
    · rw [hrs] at hfr
      simp only [List.cons.injEq, and_true] at hfr
      subst hfr
      simp only at hge
      omega
  have hkN := numBlocks_eq blockSize hbs1 bytes k hkl hk
  have hasc : Ascending (zeroBlocks
      (scanFile blockSize ⟨bytes, [⟨0, (bytes.length : Int)⟩]⟩
        [⟨0, (bytes.length : Int)⟩] 0).final.trace) := by
    obtain ⟨⟨_, _, hJ2, -⟩, -, -, -⟩ :=
      process_file_scanOrder sparseFileStorage sparseFileStorage_readBounded blockSize
        (bytes.length : Int) 0 (⟨bytes, [⟨0, (bytes.length : Int)⟩]⟩ : SparseFile)
        [⟨0, (bytes.length : Int)⟩] (by simp [SortedRanges])
    exact hJ2.2.1
  refine ⟨hok, ?_, ?_, ?_⟩
  · have := (coalesce_separated _ hasc).1
    unfold Separated at this
    rw [← hflushed] at this
    exact this
  · intro z
    rw [hflushed, mem_coalesce_iff_maximalRun _ hasc z, hz,
      MaximalRun.congr (inBlock_fileZeroBlocks blockSize hbs1 bytes k hkl) z]
    exact ⟨maximalRun_blockRun blockSize hbs1 bytes z,
      fun ⟨i, j, hrun, hzeq⟩ => hzeq ▸ blockRun_maximalRun blockSize hbs1 bytes i j hrun⟩
  · rw [hcount, hflushed, totalLength_coalesce, hz, totalLength_fileZeroBlocks, hkN]
    rfl

/-- Witness for C3: block size 4 and bytes `[0000][ABCD][0000]` give the
requests `[0,4)` and `[8,12)` and 8 bytes zeroed. -/
theorem C3_block_granular_reference_witness :
    (1 ≤ 4 ∧ 4 < 4294967296) ∧
    flushed (resparseFile 4 ⟨exampleThreeBlocks.bytes,
      [⟨0, (exampleThreeBlocks.bytes.length : Int)⟩]⟩).final.trace = [⟨0, 4⟩, ⟨8, 12⟩] ∧
    zeroBlockBytes 4 exampleThreeBlocks.bytes = 8 ∧
    (resparseFile 4 ⟨exampleThreeBlocks.bytes,
      [⟨0, (exampleThreeBlocks.bytes.length : Int)⟩]⟩).final.deallocated_bytes =
      (zeroBlockBytes 4 exampleThreeBlocks.bytes : Int) :=
  ⟨⟨by decide, by decide⟩, by decide, by decide,
    (C3_block_granular_reference 4 (by decide) (by decide) exampleThreeBlocks.bytes).2.2.2⟩

/-! ## The scan when the first range starts at offset 0

The loop of `process_file` starts at position 0 whatever the first range is.
When the first range starts there, the reads stay inside the ranges of the list
and the counter stays within the allocated total. -/

theorem readsOf_append (t u : List IoEvent) : readsOf (t ++ u) = readsOf t ++ readsOf u := by
  induction t with
  | nil => rfl
  | cons e t ih => cases e <;> simp [readsOf, ih]

/-- When the first range of the list starts at or before offset 0, every read
of `process_file` lies inside a range of the list. -/
theorem reads_inside_when_first_range_starts_at_zero (S : Storage σ) (bs : Nat) (fs u : Int)
    (h0 : σ) (rs0 : List range) (hfirst : ∀ front ∈ rs0.head?, front.start ≤ 0) :
    ∀ q ∈ readsOf (process_file S (resparser.init bs h0 fs u) rs0).final.trace,
      ∃ r ∈ rs0, r.start ≤ q.1 ∧ q.1 + (q.2 : Int) ≤ r.end_ := by
  have h : ScanOutcome S bs fs (fun pos rs t _ => ReadsInside rs0 pos rs t)
      (process_file S (resparser.init bs h0 fs u) rs0) := by
    apply process_file_spec
    · exact ⟨hfirst, fun r hr => hr, by simp [readsOf]⟩
    · rintro pos front next rest t h ⟨-, hsub, hr⟩ _ _
      exact ⟨by simp, fun r hr' => hsub r (List.mem_cons_of_mem _ hr'), hr⟩
    · rintro pos front rest t h buff hd ⟨hst, hsub, hr⟩ _ hpf _ _
      have h1 := hst front (by simp)
      have h2 := requestedLength_le bs front pos hpf
      refine ⟨?_, hsub, ?_⟩
      · intro fr hfr
        simp only [List.head?_cons, Option.mem_def, Option.some.injEq] at hfr
        subst hfr
        omega
      · intro q hq
        rw [readsOf_append] at hq
        rcases List.mem_append.mp hq with hq | hq
        · exact hr q hq
        · simp only [readsOf, List.mem_singleton] at hq
          subst hq
          exact ⟨front, hsub front (by simp), h1, by simp only; omega⟩
    · rintro pos front rest t h ⟨hst, hsub, hr⟩ _ hpf _ _
      have h1 := hst front (by simp)
      have h2 := requestedLength_le bs front pos hpf
      refine ⟨hst, hsub, ?_⟩
      intro q hq
      rw [readsOf_append] at hq
      rcases List.mem_append.mp hq with hq | hq
      · exact hr q hq
      · simp only [readsOf, List.mem_singleton] at hq
        subst hq
        exact ⟨front, hsub front (by simp), h1, by simp only; omega⟩
    · rintro pos rs t h p h' ⟨hst, hsub, hr⟩ _ _
      refine ⟨hst, hsub, ?_⟩
      rw [readsOf_append]
      simpa [readsOf] using hr
    · rintro pos rs t h p ⟨hst, hsub, hr⟩ _ _
      refine ⟨hst, hsub, ?_⟩
      rw [readsOf_append]
      simpa [readsOf] using hr
  obtain ⟨⟨pos, rs, hJ, -⟩, -⟩ := h
  exact hJ.2.2

theorem totalAllocated_nonneg : ∀ (rs : List range), (∀ r ∈ rs, r.start ≤ r.end_) →
    0 ≤ totalAllocated rs := by
  intro rs
  induction rs with
  | nil => intro _; simp [totalAllocated]
  | cons a rs ih =>
    intro h
    have h1 := h a (by simp)
    have h2 := ih (fun r hr => h r (List.mem_cons_of_mem _ hr))
    simp only [totalAllocated]
    omega

theorem totalLength_zeroBlocks_read_le (pos : Int) (n : Nat) (buff : List UInt8) :
    totalLength (zeroBlocks [IoEvent.read pos n (some buff)]) ≤ (buff.length : Int) := by
  by_cases hzb : buff.length ≠ 0 ∧ buff.all (fun i => i == 0) = true
  · rw [zeroBlocks_read_some _ _ _ hzb.1 hzb.2]
    simp [totalLength]
  · rw [zeroBlocks_read_nonzero _ _ _ (by
      by_cases h0 : buff.length = 0
      · exact Or.inl h0
      · right
        simpa [h0] using hzb)]
    simp [totalLength]

/-- When the first range of the list starts at offset 0, a run of
`process_file` that returns normally ends with `deallocated_bytes` at most the
allocated total. -/
theorem deallocated_le_allocated_when_first_range_starts_at_zero (S : Storage σ)
    (hS : S.ReadBounded) (bs : Nat) (fs u : Int) (h0 : σ) (rs0 : List range)
    (hwf : ∀ r ∈ rs0, r.start ≤ r.end_) (hfirst : ∀ front ∈ rs0.head?, front.start = 0)
    (hok : (process_file S (resparser.init bs h0 fs u) rs0).thrown = none) :
    (process_file S (resparser.init bs h0 fs u) rs0).final.deallocated_bytes
      ≤ totalAllocated rs0 := by
  have h : ScanOutcome S bs fs (fun pos rs t _ => ScanBudget rs0 pos rs t)
      (process_file S (resparser.init bs h0 fs u) rs0) := by
    apply process_file_spec
    · refine ⟨hwf, ?_, ?_⟩
      · intro front hfront
        have h1 := hfirst front hfront
        have h2 := hwf front (List.mem_of_mem_head? hfront)
        omega
      · cases rs0 with
        | nil => simp [zeroBlocks, totalLength, remainingAllocated, totalAllocated]
        | cons front rest =>
          have h1 := hfirst front (by simp)
          simp only [zeroBlocks, totalLength, remainingAllocated, totalAllocated]
          omega
    · rintro pos front next rest t h ⟨hw, hle, hb⟩ _ hge
      have h1 := hle front (by simp)
      refine ⟨fun r hr => hw r (List.mem_cons_of_mem _ hr), ?_, ?_⟩
      · intro fr hfr
        simp only [List.head?_cons, Option.mem_def, Option.some.injEq] at hfr
        subst hfr
        exact hw next (by simp)
      · simp only [remainingAllocated, totalAllocated] at hb ⊢
        omega
    · rintro pos front rest t h buff hd ⟨hw, hle, hb⟩ _ hpf _ hrd
      have hbd := hS _ _ _ _ _ hrd
      have hr := requestedLength_le bs front pos hpf
      have hz := totalLength_zeroBlocks_read_le pos (requestedLength bs front pos) buff
      refine ⟨hw, ?_, ?_⟩
      · intro fr hfr
        simp only [List.head?_cons, Option.mem_def, Option.some.injEq] at hfr
        subst hfr
        omega
      · rw [zeroBlocks_append, totalLength_append]
        simp only [remainingAllocated] at hb ⊢
        omega
    · rintro pos front rest t h ⟨hw, hle, hb⟩ _ _ _ _
      refine ⟨hw, hle, ?_⟩
      rw [zeroBlocks_append, zeroBlocks_read_none, List.append_nil]
      exact hb
    · rintro pos rs t h p h' ⟨hw, hle, hb⟩ _ _
      refine ⟨hw, hle, ?_⟩
      rw [zeroBlocks_append, zeroBlocks_deallocate, List.append_nil]
      exact hb
    · rintro pos rs t h p ⟨hw, hle, hb⟩ _ _
      refine ⟨hw, hle, ?_⟩
      rw [zeroBlocks_append, zeroBlocks_deallocate, List.append_nil]
      exact hb
  obtain ⟨⟨pos, rs, ⟨hw, hle, hb⟩, -⟩, -, hfl, -⟩ := h
  obtain ⟨hflushed, hcount, -⟩ := hfl hok
  rw [hcount, hflushed, totalLength_coalesce]
  have hrem : 0 ≤ remainingAllocated pos rs := by
    cases rs with
    | nil => simp [remainingAllocated]
    | cons front rest =>
      have h1 := hle front (by simp)
      have h2 := totalAllocated_nonneg rest (fun r hr => hw r (List.mem_cons_of_mem _ hr))
      simp only [remainingAllocated]
      omega
  omega

/-! ## The all-zero file -/

/-- The requests of the scan of a file allocated as the single range
`[0, fileSize)`: the run returns normally, the requests are separated, they
are the maximal runs of positions in all-zero blocks of the file, and the
counter is their total length. -/
theorem scanFile_single_flushed (bs : Nat) (hbs1 : 1 ≤ bs) (hbs2 : bs < 4294967296)
    (bytes : List UInt8) :
    (scanFile bs ⟨bytes, [⟨0, (bytes.length : Int)⟩]⟩ [⟨0, (bytes.length : Int)⟩] 0).thrown
      = none ∧
    Separated (flushed (scanFile bs ⟨bytes, [⟨0, (bytes.length : Int)⟩]⟩
      [⟨0, (bytes.length : Int)⟩] 0).final.trace) ∧
    (∀ z, z ∈ flushed (scanFile bs ⟨bytes, [⟨0, (bytes.length : Int)⟩]⟩
        [⟨0, (bytes.length : Int)⟩] 0).final.trace ↔
      MaximalRun (InZeroFileBlock bs bytes) z) ∧
    (scanFile bs ⟨bytes, [⟨0, (bytes.length : Int)⟩]⟩
      [⟨0, (bytes.length : Int)⟩] 0).final.deallocated_bytes =
      totalLength (flushed (scanFile bs ⟨bytes, [⟨0, (bytes.length : Int)⟩]⟩
        [⟨0, (bytes.length : Int)⟩] 0).final.trace) := by
  have hok := scanFile_single_ok bs hbs1 hbs2 bytes [⟨0, (bytes.length : Int)⟩] 0
  obtain ⟨⟨pos, rs, ⟨-, hrs, k, hpos, hk, hz⟩, hend⟩, -, hfl, -⟩ :=
    scanFile_blockScan bs hbs2 bytes [⟨0, (bytes.length : Int)⟩] 0
  obtain ⟨hflushed, hcount, -⟩ := hfl hok
  have hkl : bytes.length ≤ k * bs := by
    rcases hend hok with h | ⟨front, hfr, hge⟩
    · omega
    · rw [hrs] at hfr
      simp only [List.cons.injEq, and_true] at hfr
      subst hfr
      simp only at hge
      omega
  have hasc : Ascending (zeroBlocks
      (scanFile bs ⟨bytes, [⟨0, (bytes.length : Int)⟩]⟩
        [⟨0, (bytes.length : Int)⟩] 0).final.trace) := by
    obtain ⟨⟨_, _, hJ2, -⟩, -, -, -⟩ :=
      process_file_scanOrder sparseFileStorage sparseFileStorage_readBounded bs
        (bytes.length : Int) 0 (⟨bytes, [⟨0, (bytes.length : Int)⟩]⟩ : SparseFile)
        [⟨0, (bytes.length : Int)⟩] (by simp [SortedRanges])
    exact hJ2.2.1
  refine ⟨hok, ?_, ?_, hcount⟩
  · rw [hflushed]
    exact (coalesce_separated _ hasc).1
  · intro z
    rw [hflushed, mem_coalesce_iff_maximalRun _ hasc z, hz,
      MaximalRun.congr (inBlock_fileZeroBlocks bs hbs1 bytes k hkl) z]

theorem inZeroFileBlock_replicate (bs n : Nat) (x : Int) :
    InZeroFileBlock bs (List.replicate n 0) x ↔ 0 ≤ x ∧ x < (n : Int) := by
  unfold InZeroFileBlock
  rw [List.length_replicate]
  constructor
  · rintro ⟨h1, h2, -⟩
    exact ⟨h1, h2⟩
  · rintro ⟨h1, h2⟩
    refine ⟨h1, h2, ?_⟩
    unfold isZeroFileBlock fileBlock
    rw [List.all_eq_true]
    intro b hb
    have hb' : b ∈ List.replicate n (0 : UInt8) :=
      List.mem_of_mem_drop (List.mem_of_mem_take hb)
    rw [List.eq_of_mem_replicate hb']
    rfl

theorem maximalRun_interval (n : Nat) (hn : 1 ≤ n) (z : FILE_ZERO_DATA_INFORMATION) :
    MaximalRun (fun x => 0 ≤ x ∧ x < (n : Int)) z ↔ z = ⟨0, (n : Int)⟩ := by
  constructor
  · rintro ⟨hne, hin, hl, hr⟩
    have h1 := hin z.FileOffset (le_refl _) hne
    have h2 := hin (z.BeyondFinalZero - 1) (by omega) (by omega)
    have hF : z.FileOffset = 0 := by
      by_contra hc
      exact hl ⟨by omega, by omega⟩
    have hB : z.BeyondFinalZero = (n : Int) := by
      by_contra hc
      exact hr ⟨by omega, by omega⟩
    cases z
    simp only at hF hB
    rw [hF, hB]
  · rintro rfl
    refine ⟨by simp only; omega, fun x h1 h2 => ⟨h1, h2⟩, ?_, ?_⟩
    · rintro ⟨h1, -⟩
      simp only at h1
      omega
    · rintro ⟨-, h2⟩
      simp only at h2
      omega

theorem separated_eq_singleton (l : List FILE_ZERO_DATA_INFORMATION)
    (a : FILE_ZERO_DATA_INFORMATION) (hsep : Separated l) (hall : ∀ z ∈ l, z = a)
    (hmem : a ∈ l) (ha : a.FileOffset ≤ a.BeyondFinalZero) : l = [a] := by
  cases l with
  | nil => cases hmem
  | cons x l =>
    have hx := hall x (by simp)
    subst hx
    cases l with
    | nil => rfl
    | cons y l =>
      exfalso
      have hy := hall y (by simp)
      subst hy
      unfold Separated at hsep
      have := (List.pairwise_cons.mp hsep).1 y (by simp)
      omega

/-- C11. For every file size of at least 1 and every block size from 1 to
2^32 - 1, on the byte-sequence file model (whose reads are never short) a file
that consists only of zero bytes and is allocated as the single range
`[0, fileSize)` makes `process_file` return normally after exactly one
deallocation request, for the range `[0, fileSize)`, with
`deallocated_bytes = fileSize`. -/
theorem C11_all_zero_file_single_request (blockSize fileSize : Nat) (hbs1 : 1 ≤ blockSize)
    (hbs2 : blockSize < 4294967296) (hfs : 1 ≤ fileSize) :
    (resparseFile blockSize ⟨List.replicate fileSize 0, [⟨0, (fileSize : Int)⟩]⟩).thrown
      = none ∧
    flushed (resparseFile blockSize
      ⟨List.replicate fileSize 0, [⟨0, (fileSize : Int)⟩]⟩).final.trace
      = [⟨0, (fileSize : Int)⟩] ∧
    (resparseFile blockSize
      ⟨List.replicate fileSize 0, [⟨0, (fileSize : Int)⟩]⟩).final.deallocated_bytes
      = (fileSize : Int) := by
  have h := scanFile_single_flushed blockSize hbs1 hbs2 (List.replicate fileSize 0)
  rw [List.length_replicate] at h
  obtain ⟨hok, hsep, hmem, hcount⟩ := h
  have hiff : ∀ z, z ∈ flushed (scanFile blockSize
      ⟨List.replicate fileSize 0, [⟨0, (fileSize : Int)⟩]⟩
      [⟨0, (fileSize : Int)⟩] 0).final.trace ↔ z = ⟨0, (fileSize : Int)⟩ := by
    intro z
    rw [hmem z, MaximalRun.congr (inZeroFileBlock_replicate blockSize fileSize) z]
    exact maximalRun_interval fileSize hfs z
  have hlist := separated_eq_singleton _ ⟨0, (fileSize : Int)⟩ hsep
    (fun z hz => (hiff z).mp hz) ((hiff _).mpr rfl) (by simp only; omega)
  refine ⟨hok, hlist, ?_⟩
  show (scanFile blockSize ⟨List.replicate fileSize 0, [⟨0, (fileSize : Int)⟩]⟩
    [⟨0, (fileSize : Int)⟩] 0).final.deallocated_bytes = _
  rw [hcount, hlist]
  simp [totalLength]

/-- Witness for C11: an all-zero file of 8 bytes, twice the block size 4,
allocated as `[0,8)`: one request `[0,8)` and 8 bytes zeroed. -/
theorem C11_all_zero_file_single_request_witness :
    (1 ≤ 4 ∧ 4 < 4294967296 ∧ 1 ≤ 2 * 4) ∧
    flushed (resparseFile 4 ⟨List.replicate (2 * 4) 0, [⟨0, ((2 * 4 : Nat) : Int)⟩]⟩).final.trace
      = [⟨0, 8⟩] ∧
    (resparseFile 4
      ⟨List.replicate (2 * 4) 0, [⟨0, ((2 * 4 : Nat) : Int)⟩]⟩).final.deallocated_bytes
      = ((2 * 4 : Nat) : Int) :=
  ⟨⟨by decide, by decide, by decide⟩, by decide,
    (C11_all_zero_file_single_request 4 (2 * 4) (by decide) (by decide) (by decide)).2.2⟩

/-! ## The deallocation queue as a single pending range -/

theorem deallocate_next_queue_le_one (S : Storage σ) (s s' : resparser σ)
    (r : FILE_ZERO_DATA_INFORMATION) (hq : s.deallocateQueue.length ≤ 1)
    (h : deallocate_next S s r = .ok s') : s'.deallocateQueue.length = 1 := by
  have hshape : s.deallocateQueue = [] ∨ ∃ p, s.deallocateQueue = [p] := by
    cases hl : s.deallocateQueue with
    | nil => exact Or.inl rfl
    | cons p l =>
      cases l with
      | nil => exact Or.inr ⟨p, rfl⟩
      | cons q l => rw [hl] at hq; simp at hq
  rcases hshape with hnil | ⟨p, hp⟩
  · rw [deallocate_next_nil S s r hnil] at h
    cases h
    rfl
  · by_cases hadj : p.BeyondFinalZero = r.FileOffset
    · rw [deallocate_next_adjacent S s p r hp hadj] at h
      cases h
      rfl
    · rw [deallocate_next_apart S s p r hp hadj] at h
      split at h
      · cases h
      · cases h
        rfl

theorem deallocate_next_all_queue_le_one (S : Storage σ) :
    ∀ (zs : List FILE_ZERO_DATA_INFORMATION) (s : resparser σ),
      s.deallocateQueue.length ≤ 1 → (deallocate_next_all S s zs).thrown = none →
      (deallocate_next_all S s zs).final.deallocateQueue.length ≤ 1 := by
  intro zs
  induction zs with
  | nil => intro s hq _; exact hq
  | cons z zs ih =>
    intro s hq hok
    unfold deallocate_next_all at hok ⊢
    cases hd : deallocate_next S s z with
    | error e =>
      rw [hd] at hok
      obtain ⟨e, s'⟩ := e
      simp [Result.thrown] at hok
    | ok s1 =>
      rw [hd] at hok
      exact ih s1 (le_of_eq (deallocate_next_queue_le_one S s s1 z hq hd)) hok

theorem getLast?_eq_head?_of_length_le_one {α : Type} (l : List α) (h : l.length ≤ 1) :
    l.getLast? = l.head? := by
  cases l with
  | nil => rfl
  | cons a l =>
    cases l with
    | nil => rfl
    | cons b l => simp at h

/-- C14. `deallocate_next` implements the three-case transition of the
coalescer on a queue that holds the single optional pending range: with no
pending range `r` becomes pending and nothing is requested; with a pending `p`
ending where `r` starts the pending range becomes `{p.start, r.end}` and
nothing is requested; otherwise exactly one request is issued, for `p`, and
when that request succeeds `r` becomes pending (when it fails the exception
leaves the queue as it was). So the requests issued and, on normal return, the
new queue are those of `coalescerTransition`. The element compared (`back()`)
and the element flushed (`front()`) are the same in such a state and in every
state reached from the empty queue by successful calls. -/
theorem C14_deallocate_next_refines_coalescer (S : Storage σ) (self : resparser σ)
    (pending : Option FILE_ZERO_DATA_INFORMATION) (r : FILE_ZERO_DATA_INFORMATION)
    (hq : self.deallocateQueue = pending.toList) :
    (pending = none →
      deallocate_next S self r = .ok { self with deallocateQueue := [r] }) ∧
    (∀ p, pending = some p → p.BeyondFinalZero = r.FileOffset →
      deallocate_next S self r =
        .ok { self with deallocateQueue := [⟨p.FileOffset, r.BeyondFinalZero⟩] }) ∧
    (∀ p, pending = some p → p.BeyondFinalZero ≠ r.FileOffset →
      (∀ h, S.FSCTL_SET_ZERO_DATA self.fileHandle p = some h →
        deallocate_next S self r = .ok { self with
          fileHandle := h
          trace := self.trace ++ [IoEvent.deallocate p]
          deallocated_bytes := self.deallocated_bytes + (p.BeyondFinalZero - p.FileOffset)
          deallocateQueue := [r] }) ∧
      (S.FSCTL_SET_ZERO_DATA self.fileHandle p = none →
        deallocate_next S self r = .error (.CannotSetZeroData,
          { self with trace := self.trace ++ [IoEvent.deallocate p] }))) ∧
    flushed (deallocate_next S self r).final.trace =
      flushed self.trace ++ (coalescerTransition pending r).1.toList ∧
    ((deallocate_next S self r).thrown = none →
      (deallocate_next S self r).final.deallocateQueue =
        (coalescerTransition pending r).2.toList) ∧
    self.deallocateQueue.getLast? = self.deallocateQueue.head? ∧
    (∀ (s0 : resparser σ) (zs : List FILE_ZERO_DATA_INFORMATION),
      s0.deallocateQueue = [] → (deallocate_next_all S s0 zs).thrown = none →
      (deallocate_next_all S s0 zs).final.deallocateQueue.getLast? =
        (deallocate_next_all S s0 zs).final.deallocateQueue.head?) := by
  have hreach : ∀ (s0 : resparser σ) (zs : List FILE_ZERO_DATA_INFORMATION),
      s0.deallocateQueue = [] → (deallocate_next_all S s0 zs).thrown = none →
      (deallocate_next_all S s0 zs).final.deallocateQueue.getLast? =
        (deallocate_next_all S s0 zs).final.deallocateQueue.head? := by
    intro s0 zs h0 hok
    exact getLast?_eq_head?_of_length_le_one _
      (deallocate_next_all_queue_le_one S zs s0 (by rw [h0]; simp) hok)
  cases pending with
  | none =>
    have hnil : self.deallocateQueue = [] := hq
    have hdn := deallocate_next_nil S self r hnil
    refine ⟨fun _ => hdn, fun p hp => (by cases hp), fun p hp => (by cases hp), ?_, ?_, ?_, hreach⟩
    · rw [hdn]
      simp [Result.final, coalescerTransition]
    · intro _
      rw [hdn]
      simp [Result.final, coalescerTransition]
    · rw [hnil]
      rfl
  | some p =>
    have hp : self.deallocateQueue = [p] := hq
    refine ⟨fun h => (by cases h), ?_, ?_, ?_, ?_, (by rw [hp]; rfl), hreach⟩
    · intro p' hp' hadj
      cases hp'
      exact deallocate_next_adjacent S self p r hp hadj
    · intro p' hp' hadj
      cases hp'
      have hdn := deallocate_next_apart S self p r hp hadj
      constructor
      · intro h hf
        rw [hf] at hdn
        exact hdn
      · intro hf
        rw [hf] at hdn
        exact hdn
    · by_cases hadj : p.BeyondFinalZero = r.FileOffset
      · rw [deallocate_next_adjacent S self p r hp hadj]
        simp [Result.final, coalescerTransition, hadj]
      · rw [deallocate_next_apart S self p r hp hadj]
        cases S.FSCTL_SET_ZERO_DATA self.fileHandle p <;>
          simp [Result.final, coalescerTransition, hadj, flushed_append, flushed]
    · by_cases hadj : p.BeyondFinalZero = r.FileOffset
      · intro _
        rw [deallocate_next_adjacent S self p r hp hadj]
        simp [Result.final, coalescerTransition, hadj]
      · rw [deallocate_next_apart S self p r hp hadj]
        cases S.FSCTL_SET_ZERO_DATA self.fileHandle p <;>
          simp [Result.final, Result.thrown, coalescerTransition, hadj]

/-- Witness for C14: on a sparse file, with `[0,4)` pending, the incoming
range `[8,12)` makes `deallocate_next` request `[0,4)` and leave `[8,12)`
pending. -/
theorem C14_deallocate_next_refines_coalescer_witness :
    ({ resparser.init 4 exampleHole 12 0 with deallocateQueue := [⟨0, 4⟩] } :
      resparser SparseFile).deallocateQueue = (some ⟨0, 4⟩ : Option _).toList ∧
    flushed (deallocate_next sparseFileStorage
      { resparser.init 4 exampleHole 12 0 with deallocateQueue := [⟨0, 4⟩] }
      ⟨8, 12⟩).final.trace = [⟨0, 4⟩] ∧
    (deallocate_next sparseFileStorage
      { resparser.init 4 exampleHole 12 0 with deallocateQueue := [⟨0, 4⟩] }
      ⟨8, 12⟩).final.deallocateQueue = [⟨8, 12⟩] ∧
    flushed (deallocate_next sparseFileStorage
      { resparser.init 4 exampleHole 12 0 with deallocateQueue := [⟨0, 4⟩] }
      ⟨8, 12⟩).final.trace =
      flushed ({ resparser.init 4 exampleHole 12 0 with deallocateQueue := [⟨0, 4⟩] } :
        resparser SparseFile).trace ++
        (coalescerTransition (some ⟨0, 4⟩) ⟨8, 12⟩).1.toList :=
  ⟨rfl, by decide, by decide,
    (C14_deallocate_next_refines_coalescer sparseFileStorage
      { resparser.init 4 exampleHole 12 0 with deallocateQueue := [⟨0, 4⟩] }
      (some ⟨0, 4⟩) ⟨8, 12⟩ rfl).2.2.2.1⟩

theorem deallocate_remained_loop_ok (S : Storage σ) :
    ∀ (q : List FILE_ZERO_DATA_INFORMATION) (s s' : resparser σ),
      deallocate_remained_loop S q s = .ok s' →
      s'.trace = s.trace ++ q.map IoEvent.deallocate := by
  intro q
  induction q with
  | nil =>
    intro s s' h
    simp only [deallocate_remained_loop, Except.ok.injEq] at h
    subst h
    simp
  | cons p q ih =>
    intro s s' h
    simp only [deallocate_remained_loop, io_deallocate_range_eq] at h
    cases hf : S.FSCTL_SET_ZERO_DATA s.fileHandle p with
    | none => rw [hf] at h; cases h
    | some hd =>
      rw [hf] at h
      have := ih _ _ h
      rw [this]
      simp

theorem flushed_map_deallocate (q : List FILE_ZERO_DATA_INFORMATION) :
    flushed (q.map IoEvent.deallocate) = q := by
  induction q with
  | nil => rfl
  | cons p q ih => simp [flushed, ih]

/-- What a `deallocate_remained` that returns normally did: the queue is
empty and the ranges it held were requested, each once, in order. -/
theorem deallocate_remained_ok (S : Storage σ) (s : resparser σ)
    (hok : (deallocate_remained S s).thrown = none) :
    (deallocate_remained S s).final.deallocateQueue = [] ∧
    (deallocate_remained S s).final.trace =
      s.trace ++ s.deallocateQueue.map IoEvent.deallocate := by
  unfold deallocate_remained at hok ⊢
  cases hl : deallocate_remained_loop S s.deallocateQueue s with
  | error e =>
    rw [hl] at hok
    obtain ⟨e, s'⟩ := e
    simp [Result.thrown] at hok
  | ok s' =>
    exact ⟨rfl, deallocate_remained_loop_ok S _ _ s' hl⟩

/-- C15. Single-slot invariant of the deallocation queue: starting from the
empty queue, after any sequence of successful `deallocate_next` calls
`deallocateQueue` holds at most one range; and when `deallocate_remained` then
returns normally the queue is empty and the requests it issued are exactly the
range that was pending, once, or none when nothing was pending. -/
theorem C15_single_slot_queue (S : Storage σ) (s0 : resparser σ)
    (zs : List FILE_ZERO_DATA_INFORMATION) (h0 : s0.deallocateQueue = [])
    (hok : (deallocate_next_all S s0 zs).thrown = none) :
    (deallocate_next_all S s0 zs).final.deallocateQueue.length ≤ 1 ∧
    ((deallocate_remained S (deallocate_next_all S s0 zs).final).thrown = none →
      (deallocate_remained S (deallocate_next_all S s0 zs).final).final.deallocateQueue = [] ∧
      (deallocate_remained S (deallocate_next_all S s0 zs).final).final.trace =
        (deallocate_next_all S s0 zs).final.trace ++
          (deallocate_next_all S s0 zs).final.deallocateQueue.map IoEvent.deallocate ∧
      flushed (deallocate_remained S (deallocate_next_all S s0 zs).final).final.trace =
        flushed (deallocate_next_all S s0 zs).final.trace ++
          (deallocate_next_all S s0 zs).final.deallocateQueue) := by
  refine ⟨deallocate_next_all_queue_le_one S zs s0 (by rw [h0]; simp) hok, ?_⟩
  intro hrem
  obtain ⟨h1, h2⟩ := deallocate_remained_ok S _ hrem
  refine ⟨h1, h2, ?_⟩
  rw [h2, flushed_append, flushed_map_deallocate]

/-- Witness for C15: from the empty queue on a sparse file, the incoming
ranges `[0,4)`, `[4,8)`, `[12,16)` leave `[12,16)` alone in the queue after
the request `[0,8)`, and `deallocate_remained` then requests `[12,16)` and
empties the queue. -/
theorem C15_single_slot_queue_witness :
    (resparser.init 4 exampleHole 12 0 : resparser SparseFile).deallocateQueue = [] ∧
    (deallocate_next_all sparseFileStorage (resparser.init 4 exampleHole 12 0)
      [⟨0, 4⟩, ⟨4, 8⟩, ⟨12, 16⟩]).thrown = none ∧
    (deallocate_next_all sparseFileStorage (resparser.init 4 exampleHole 12 0)
      [⟨0, 4⟩, ⟨4, 8⟩, ⟨12, 16⟩]).final.deallocateQueue = [⟨12, 16⟩] ∧
    flushed (deallocate_remained sparseFileStorage
      (deallocate_next_all sparseFileStorage (resparser.init 4 exampleHole 12 0)
        [⟨0, 4⟩, ⟨4, 8⟩, ⟨12, 16⟩]).final).final.trace = [⟨0, 8⟩, ⟨12, 16⟩] ∧
    (deallocate_next_all sparseFileStorage (resparser.init 4 exampleHole 12 0)
      [⟨0, 4⟩, ⟨4, 8⟩, ⟨12, 16⟩]).final.deallocateQueue.length ≤ 1 :=
  ⟨rfl, by decide, by decide, by decide,
    (C15_single_slot_queue sparseFileStorage (resparser.init 4 exampleHole 12 0)
      [⟨0, 4⟩, ⟨4, 8⟩, ⟨12, 16⟩] rfl (by decide)).1⟩

/-! ## A failed read ends the run -/

theorem process_file_loop_readAbort (S : Storage σ) :
    ∀ (fuel : Nat) (pos : Int) (rs : List range) (s : resparser σ),
      Core s → (∀ e ∈ s.trace, e.failedRead = false) →
      (match process_file_loop S fuel pos rs s with
        | .ok s' => Core s'
        | .error _ => True) ∧
      ReadAbort (process_file_loop S fuel pos rs s) := by
  intro fuel pos rs s hC hN
  refine process_file_loop_induct S
    (fun _ _ s => Core s ∧ ∀ e ∈ s.trace, e.failedRead = false)
    (fun r => (match r with
        | .ok s' => Core s'
        | .error _ => True) ∧ ReadAbort r)
    ?_ ?_ ?_ ?_ ?_ ?_ fuel pos rs s ⟨hC, hN⟩
  · rintro pos rs s ⟨-, hN⟩
    exact ⟨trivial, Or.inl ⟨by simp [Result.thrown], hN⟩⟩
  · rintro pos rs s ⟨hC, hN⟩ -
    exact ⟨hC, Or.inl ⟨by simp [Result.thrown], hN⟩⟩
  · rintro pos front s ⟨hC, hN⟩ - -
    exact ⟨hC, Or.inl ⟨by simp [Result.thrown], hN⟩⟩
  · rintro pos front next rest s hI - -
    exact hI
  · rintro pos rs s s' pos' ⟨hC, hN⟩ - - hb
    refine ⟨Core.block_ok S _ _ _ _ _ hC hb, ?_⟩
    obtain ⟨front, rest, buff, hd, -, -, -, hlen, -, hcase⟩ :=
      process_file_block_ok S _ _ _ _ _ hb
    have hN1 : ∀ e ∈ (afterRead s pos (requestedLength s.blockSize front pos) buff hd).trace,
        e.failedRead = false := by
      intro e he
      simp only [afterRead, List.mem_append, List.mem_singleton] at he
      rcases he with he | rfl
      · exact hN e he
      · simp [IoEvent.failedRead, hlen]
    rcases hcase with ⟨-, hdn⟩ | ⟨-, rfl⟩
    · rcases deallocate_next_trace S
          (afterRead s pos (requestedLength s.blockSize front pos) buff hd)
          ⟨pos, pos + (buff.length : Int)⟩ hC.queue_shape with
        ⟨s'', hdn', ht, -⟩ | ⟨p, -, -, ⟨h', s'', -, hdn', ht, -⟩ | ⟨s'', -, hdn', -, -⟩⟩
      · rw [hdn] at hdn'
        cases hdn'
        rw [ht]
        exact hN1
      · rw [hdn] at hdn'
        cases hdn'
        rw [ht]
        intro e he
        rcases List.mem_append.mp he with he | he
        · exact hN1 e he
        · rw [List.mem_singleton] at he
          rw [he]
          rfl
      · rw [hdn] at hdn'
        cases hdn'
    · exact hN1
  · rintro pos rs s ⟨e, s'⟩ ⟨hC, hN⟩ - - hb
    refine ⟨trivial, ?_⟩
    rcases process_file_block_error S _ _ _ _ _ hb with
      ⟨rfl, hwhy⟩ | ⟨front, rest, -, rfl, -, -, rfl⟩ |
      ⟨front, rest, buff, hd, -, -, -, ⟨hlen, rfl, rfl⟩ | ⟨hlen, hz, hdn⟩⟩
    · refine Or.inl ⟨?_, hN⟩
      rcases hwhy with ⟨rfl, -⟩ | ⟨rfl, -⟩ <;> simp [Result.thrown]
    · exact Or.inr ⟨rfl, s.trace, _, rfl, rfl, hN, hC.coalesce_eq⟩
    · exact Or.inr ⟨rfl, s.trace, _, rfl, by simp [IoEvent.failedRead, hlen], hN,
        hC.coalesce_eq⟩
    · have hN1 : ∀ e ∈ (afterRead s pos (requestedLength s.blockSize front pos) buff hd).trace,
          e.failedRead = false := by
        intro e he
        simp only [afterRead, List.mem_append, List.mem_singleton] at he
        rcases he with he | rfl
        · exact hN e he
        · simp [IoEvent.failedRead, hlen]
      rcases deallocate_next_trace S
          (afterRead s pos (requestedLength s.blockSize front pos) buff hd)
          ⟨pos, pos + (buff.length : Int)⟩ hC.queue_shape with
        ⟨s'', hdn', -, -⟩ | ⟨p, -, -, ⟨h', s'', -, hdn', -, -⟩ | ⟨s'', -, hdn', ht, -⟩⟩
      · rw [hdn] at hdn'
        cases hdn'
      · rw [hdn] at hdn'
        cases hdn'
      · rw [hdn] at hdn'
        cases hdn'
        refine Or.inl ⟨by simp [Result.thrown], ?_⟩
        show ∀ e ∈ s'.trace, e.failedRead = false
        rw [ht]
        intro e he
        rcases List.mem_append.mp he with he | he
        · exact hN1 e he
        · rw [List.mem_singleton] at he
          rw [he]
          rfl

/-- The end of `process_file` keeps what the loop established about failed
reads: the forced flush and the final report issue no read and never throw
"Cannot read file part". -/
theorem process_file_finish_readAbort (S : Storage σ) (r1 : Result σ) :
    ((match r1 with
        | .ok s' => Core s'
        | .error _ => True) ∧ ReadAbort r1) →
    ReadAbort
      (match r1 with
        | .error e => .error e
        | .ok self =>
          match deallocate_remained S self with
          | .error e => .error e
          | .ok self =>
            match S.GetFileInformationByHandleEx self.fileHandle with
            | none => .error (.CannotGetFileInfo, self)
            | some _ => .ok self) := by
  rintro ⟨hC, hR⟩
  cases r1 with
  | error e => exact hR
  | ok s1 =>
    have hN : ∀ e ∈ s1.trace, e.failedRead = false := by
      rcases hR with ⟨-, h⟩ | ⟨h, -⟩
      · exact h
      · simp [Result.thrown] at h
    have hN' : ∀ p, ∀ e ∈ s1.trace ++ [IoEvent.deallocate p], e.failedRead = false := by
      intro p e he
      rcases List.mem_append.mp he with he | he
      · exact hN e he
      · rw [List.mem_singleton] at he
        rw [he]
        rfl
    dsimp only
    rcases Core.queue_shape hC with hq | ⟨p, hq⟩
    · rw [deallocate_remained_nil S s1 hq]
      dsimp only
      cases S.GetFileInformationByHandleEx s1.fileHandle <;>
        exact Or.inl ⟨by simp [Result.thrown], hN⟩
    · rw [deallocate_remained_single S s1 p hq]
      cases S.FSCTL_SET_ZERO_DATA s1.fileHandle p with
      | none => exact Or.inl ⟨by simp [Result.thrown], hN' p⟩
      | some h' =>
        dsimp only
        cases S.GetFileInformationByHandleEx h' <;>
          exact Or.inl ⟨by simp [Result.thrown], hN' p⟩

theorem process_file_readAbort (S : Storage σ) (bs : Nat) (fs u : Int) (h0 : σ)
    (rs : List range) : ReadAbort (process_file S (resparser.init bs h0 fs u) rs) := by
  have hC0 : Core ({ resparser.init bs h0 fs u with deallocated_bytes := 0 } : resparser σ) :=
    ⟨rfl, Or.inl ⟨rfl, rfl, rfl⟩⟩
  have hloop := process_file_loop_readAbort S (process_file_fuel fs rs) 0 rs _ hC0
    (by intro e he; cases he)
  exact process_file_finish_readAbort S _ hloop

/-- C13. A failed read aborts the run with no flush: for every storage, block
size and allocated-range list, if a read issued by `process_file` fails or
returns zero bytes, the run ends with the exception whose text is
"Cannot read file part", that read is the last event of the run, so the
requests issued in the whole run are exactly those issued before it, and the
range pending at that moment is still in the queue, not passed to
`io_deallocate_range`. -/
theorem C13_failed_read_aborts_without_flush (S : Storage σ) (blockSize : Nat)
    (fileSize uninitialised : Int) (h0 : σ) (allocatedRanges : List range) (e : IoEvent)
    (he : e ∈ (process_file S (resparser.init blockSize h0 fileSize uninitialised)
      allocatedRanges).final.trace)
    (hfail : e.failedRead = true) :
    (process_file S (resparser.init blockSize h0 fileSize uninitialised)
      allocatedRanges).thrown = some .CannotReadFilePart ∧
    Exception.what .CannotReadFilePart = "Cannot read file part" ∧
    ∃ pre,
      (process_file S (resparser.init blockSize h0 fileSize uninitialised)
        allocatedRanges).final.trace = pre ++ [e] ∧
      (∀ e' ∈ pre, e'.failedRead = false) ∧
      flushed (process_file S (resparser.init blockSize h0 fileSize uninitialised)
        allocatedRanges).final.trace = flushed pre ∧
      coalesce (zeroBlocks pre) = flushed pre ++
        (process_file S (resparser.init blockSize h0 fileSize uninitialised)
          allocatedRanges).final.deallocateQueue := by
  rcases process_file_readAbort S blockSize fileSize uninitialised h0 allocatedRanges with
    ⟨-, hN⟩ | ⟨hth, pre, ev, htr, hev, hpre, hq⟩
  · rw [hN e he] at hfail
    cases hfail
  · have hee : e = ev := by
      rw [htr] at he
      rcases List.mem_append.mp he with he | he
      · rw [hpre e he] at hfail
        cases hfail
      · exact List.mem_singleton.mp he
    subst hee
    refine ⟨hth, rfl, pre, htr, hpre, ?_, hq⟩
    rw [htr, flushed_append]
    cases e with
    | read pos n res => simp [flushed]
    | deallocate p => cases hfail
theorem C13_failed_read_aborts_without_flush_witness :
    IoEvent.read 4 4 (some []) ∈
      (process_file sparseFileStorage (resparser.init 4 exampleTruncated 8 0)
        [⟨0, 8⟩]).final.trace ∧
    (IoEvent.read 4 4 (some [])).failedRead = true ∧
    (process_file sparseFileStorage (resparser.init 4 exampleTruncated 8 0)
      [⟨0, 8⟩]).final.deallocateQueue = [⟨0, 4⟩] ∧
    ((process_file sparseFileStorage (resparser.init 4 exampleTruncated 8 0)
      [⟨0, 8⟩]).thrown = some .CannotReadFilePart ∧
    Exception.what .CannotReadFilePart = "Cannot read file part" ∧
    ∃ pre,
      (process_file sparseFileStorage (resparser.init 4 exampleTruncated 8 0)
        [⟨0, 8⟩]).final.trace = pre ++ [IoEvent.read 4 4 (some [])] ∧
      (∀ e' ∈ pre, e'.failedRead = false) ∧
      flushed (process_file sparseFileStorage (resparser.init 4 exampleTruncated 8 0)
        [⟨0, 8⟩]).final.trace = flushed pre ∧
      coalesce (zeroBlocks pre) = flushed pre ++
        (process_file sparseFileStorage (resparser.init 4 exampleTruncated 8 0)
          [⟨0, 8⟩]).final.deallocateQueue) :=
  ⟨by decide, rfl, by decide,
    C13_failed_read_aborts_without_flush sparseFileStorage 4 8 0 exampleTruncated [⟨0, 8⟩]
      (IoEvent.read 4 4 (some [])) (by decide) rfl⟩

/-! ## Termination of the scan loop -/

theorem process_file_loop_succ (S : Storage σ) (fuel : Nat) (pos : Int) (rs : List range)
    (s : resparser σ) :
    process_file_loop S (fuel + 1) pos rs s =
      match process_file_iteration S pos rs s with
      | .exit r => r
      | .next pos' rs' s' => process_file_loop S fuel pos' rs' s' := by
  conv_lhs => unfold process_file_loop
  unfold process_file_iteration
  by_cases hlt : pos < s.fileSize
  · rw [if_pos hlt, if_pos hlt]
    cases rs with
    | nil =>
      dsimp only
      cases process_file_block S s pos [] with
      | error e => rfl
      | ok p => rfl
    | cons front rest =>
      dsimp only
      by_cases hge : pos ≥ front.end_
      · rw [if_pos hge, if_pos hge]
        cases rest with
        | nil => rfl
        | cons next rest => rfl
      · rw [if_neg hge, if_neg hge]
        cases process_file_block S s pos (front :: rest) with
        | error e => rfl
        | ok p => rfl
  · rw [if_neg hlt, if_neg hlt]

theorem process_file_iteration_next (S : Storage σ) (pos pos' : Int) (rs rs' : List range)
    (s s' : resparser σ) (hne : rs ≠ [])
    (h : process_file_iteration S pos rs s = .next pos' rs' s') :
    s'.fileSize = s.fileSize ∧ rs' ≠ [] ∧ pos < s.fileSize ∧
    ((rs'.length < rs.length ∧ s' = s) ∨
     (rs' = rs ∧ pos + 1 ≤ pos' ∧
       (s.fileSize - pos').toNat < (s.fileSize - pos).toNat)) := by
  unfold process_file_iteration at h
  by_cases hlt : pos < s.fileSize
  · rw [if_pos hlt] at h
    cases rs with
    | nil => exact absurd rfl hne
    | cons front rest =>
      dsimp only at h
      by_cases hge : pos ≥ front.end_
      · rw [if_pos hge] at h
        cases rest with
        | nil => cases h
        | cons next rest =>
          cases h
          exact ⟨rfl, by simp, hlt, Or.inl ⟨by simp, rfl⟩⟩
      · rw [if_neg hge] at h
        cases hb : process_file_block S s pos (front :: rest) with
        | error e =>
          rw [hb] at h
          cases h
        | ok p =>
          obtain ⟨s1, pos1⟩ := p
          rw [hb] at h
          cases h
          obtain ⟨hfs, -, hp⟩ := process_file_block_frame S _ _ _ _ _ hb
          exact ⟨hfs, by simp, hlt, Or.inr ⟨rfl, by omega, by omega⟩⟩
  · rw [if_neg hlt] at h
    cases h

theorem process_file_loop_fuel_succ (S : Storage σ) :
    ∀ (fuel : Nat) (pos : Int) (rs : List range) (s : resparser σ),
      (process_file_loop S fuel pos rs s).thrown ≠ some .fuelExhausted →
      process_file_loop S (fuel + 1) pos rs s = process_file_loop S fuel pos rs s := by
  intro fuel
  induction fuel with
  | zero =>
    intro pos rs s h
    exact absurd rfl h
  | succ fuel ih =>
    intro pos rs s h
    rw [process_file_loop_succ S fuel] at h ⊢
    rw [process_file_loop_succ S (fuel + 1)]
    revert h
    cases process_file_iteration S pos rs s with
    | exit r => intro _; rfl
    | next pos' rs' s' => intro h; exact ih pos' rs' s' h

theorem process_file_loop_fuel_add (S : Storage σ) (fuel : Nat) (pos : Int) (rs : List range)
    (s : resparser σ)
    (h : (process_file_loop S fuel pos rs s).thrown ≠ some .fuelExhausted) (k : Nat) :
    process_file_loop S (fuel + k) pos rs s = process_file_loop S fuel pos rs s := by
  induction k with
  | zero => rfl
  | succ k ih =>
    rw [← Nat.add_assoc, process_file_loop_fuel_succ S (fuel + k) pos rs s (by rw [ih]; exact h),
      ih]

theorem deallocate_next_thrown (S : Storage σ) (s s' : resparser σ)
    (r : FILE_ZERO_DATA_INFORMATION) (e : Exception)
    (h : deallocate_next S s r = .error (e, s')) : e = .CannotSetZeroData := by
  unfold deallocate_next at h
  split at h
  · split at h
    · cases h
    · rw [io_deallocate_range_eq] at h
      rename_i back front _ _ _
      cases hz : S.FSCTL_SET_ZERO_DATA s.fileHandle front with
      | none =>
        rw [hz] at h
        cases h
        rfl
      | some h' =>
        rw [hz] at h
        cases h
  · cases h

theorem process_file_loop_nonempty (S : Storage σ) :
    ∀ (fuel : Nat) (pos : Int) (rs : List range) (s : resparser σ), rs ≠ [] →
      (process_file_loop S fuel pos rs s).thrown ≠ some .emptyDequeFront := by
  intro fuel pos rs s hne
  refine process_file_loop_induct S (fun _ rs _ => rs ≠ [])
    (fun r => r.thrown ≠ some .emptyDequeFront) ?_ ?_ ?_ ?_ ?_ ?_ fuel pos rs s hne
  · intro pos rs s _
    simp [Result.thrown]
  · intro pos rs s _ _
    simp [Result.thrown]
  · intro pos front s _ _ _
    simp [Result.thrown]
  · intro pos front next rest s _ _ _
    simp
  · intro pos rs s s' pos' h _ _ _
    exact h
  · rintro pos rs s ⟨e, s'⟩ h _ _ hb
    rcases process_file_block_error S _ _ _ _ _ hb with
      ⟨-, ⟨rfl, -⟩ | ⟨-, hnil⟩⟩ | ⟨front, rest, -, rfl, -⟩ |
      ⟨front, rest, buff, hd, -, -, -, ⟨-, rfl, -⟩ | ⟨-, -, hdn⟩⟩
    · simp [Result.thrown]
    · exact absurd hnil h
    · simp [Result.thrown]
    · simp [Result.thrown]
    · rw [deallocate_next_thrown S _ _ _ _ hdn]
      simp [Result.thrown]

/-- C16. The scan loop of `process_file` terminates: for every storage (so
every read oracle), every object state (so every `fileSize` and `blockSize`,
0 included), every `pos` and every non-empty range list, sorted or not, the
loop is its body iterated; an iteration that does not leave the loop keeps
`fileSize` and the list non-empty and either shortens the list or keeps it and
moves `pos` forward by at least one byte below `fileSize`, so the pair
(ranges left, `fileSize - pos`) decreases lexicographically; and once the fuel
exceeds `(fileSize - pos) + rangesFuel fileSize rs.tail` iterations the loop has
ended, normally or with an exception of the source, with the same result for
every larger fuel. The fuel `process_file` passes is above that bound.
Positions are unbounded integers in the model. -/
theorem C16_scan_loop_terminates (S : Storage σ) (s : resparser σ) (pos : Int)
    (allocatedRanges : List range) (hne : allocatedRanges ≠ []) :
    (∀ fuel, process_file_loop S (fuel + 1) pos allocatedRanges s =
      match process_file_iteration S pos allocatedRanges s with
      | .exit r => r
      | .next pos' rs' s' => process_file_loop S fuel pos' rs' s') ∧
    (∀ pos' rs' s', process_file_iteration S pos allocatedRanges s = .next pos' rs' s' →
      s'.fileSize = s.fileSize ∧ rs' ≠ [] ∧ pos < s.fileSize ∧
      ((rs'.length < allocatedRanges.length ∧ s' = s) ∨
       (rs' = allocatedRanges ∧ pos + 1 ≤ pos' ∧
         (s.fileSize - pos').toNat < (s.fileSize - pos).toNat))) ∧
    (∀ fuel, (s.fileSize - pos).toNat + rangesFuel s.fileSize allocatedRanges.tail < fuel →
      (process_file_loop S fuel pos allocatedRanges s).thrown ≠ some .fuelExhausted ∧
      (process_file_loop S fuel pos allocatedRanges s).thrown ≠ some .emptyDequeFront ∧
      process_file_loop S fuel pos allocatedRanges s =
        process_file_loop S
          ((s.fileSize - pos).toNat + rangesFuel s.fileSize allocatedRanges.tail + 1)
          pos allocatedRanges s) ∧
    (s.fileSize - 0).toNat + rangesFuel s.fileSize allocatedRanges.tail <
      process_file_fuel s.fileSize allocatedRanges := by
  refine ⟨fun fuel => process_file_loop_succ S fuel pos allocatedRanges s,
    fun pos' rs' s' h => process_file_iteration_next S pos pos' allocatedRanges rs' s s' hne h,
    ?_, ?_⟩
  · intro fuel hf
    refine ⟨process_file_loop_fuel S fuel pos allocatedRanges s hf,
      process_file_loop_nonempty S fuel pos allocatedRanges s hne, ?_⟩
    obtain ⟨k, rfl⟩ := Nat.exists_eq_add_of_le (Nat.succ_le_of_lt hf)
    exact process_file_loop_fuel_add S _ pos allocatedRanges s
      (process_file_loop_fuel S _ pos allocatedRanges s (Nat.lt_succ_self _)) k
  · unfold process_file_fuel
    cases allocatedRanges with
    | nil => exact absurd rfl hne
    | cons r rest => simp [rangesFuel]; omega

theorem C16_scan_loop_terminates_witness :
    ([⟨0, 12⟩] : List range) ≠ [] ∧
    (process_file_loop sparseFileStorage 13 0 [⟨0, 12⟩]
      (resparser.init 4 exampleThreeBlocks 12 0)).thrown = none ∧
    ((process_file_loop sparseFileStorage 20 0 [⟨0, 12⟩]
        (resparser.init 4 exampleThreeBlocks 12 0)).thrown ≠ some .fuelExhausted ∧
      (process_file_loop sparseFileStorage 20 0 [⟨0, 12⟩]
        (resparser.init 4 exampleThreeBlocks 12 0)).thrown ≠ some .emptyDequeFront ∧
      process_file_loop sparseFileStorage 20 0 [⟨0, 12⟩]
          (resparser.init 4 exampleThreeBlocks 12 0) =
        process_file_loop sparseFileStorage
          (((resparser.init 4 exampleThreeBlocks 12 0).fileSize - 0).toNat +
            rangesFuel (resparser.init 4 exampleThreeBlocks 12 0).fileSize
              ([⟨0, 12⟩] : List range).tail + 1)
          0 [⟨0, 12⟩] (resparser.init 4 exampleThreeBlocks 12 0)) :=
  ⟨by simp, by decide,
    (C16_scan_loop_terminates sparseFileStorage (resparser.init 4 exampleThreeBlocks 12 0) 0
      [⟨0, 12⟩] (by simp)).2.2.1 20 (by decide)⟩

/-! ## Read lengths and buffer bounds -/

theorem mem_zeroBlocks_read :
    ∀ (t : List IoEvent) (z : FILE_ZERO_DATA_INFORMATION), z ∈ zeroBlocks t →
      ∃ pos n buff, IoEvent.read pos n (some buff) ∈ t ∧ buff.length ≠ 0 ∧
        z = ⟨pos, pos + (buff.length : Int)⟩ := by
  intro t
  induction t with
  | nil => intro z hz; cases hz
  | cons e t ih =>
    intro z hz
    have happ : zeroBlocks (e :: t) = zeroBlocks [e] ++ zeroBlocks t :=
      zeroBlocks_append [e] t
    rw [happ] at hz
    rcases List.mem_append.mp hz with hz | hz
    · cases e with
      | deallocate p => cases hz
      | read pos n res =>
        cases res with
        | none => cases hz
        | some buff =>
          obtain ⟨rfl, hlen, -⟩ := zeroBlocks_read_mem pos n buff z hz
          exact ⟨pos, n, buff, List.mem_cons_self _ _, hlen, rfl⟩
    · obtain ⟨pos, n, buff, hm, hlen, rfl⟩ := ih z hz
      exact ⟨pos, n, buff, List.mem_cons_of_mem _ hm, hlen, rfl⟩

theorem requestedLength_bounds (bs : Nat) (front : range) (pos : Int) (h : pos < front.end_)
    (h1 : 1 ≤ bs) (hbs : bs < 4294967296) :
    (requestedLength bs front pos : Int) = min (bs : Int) (front.end_ - pos) ∧
    1 ≤ requestedLength bs front pos ∧ requestedLength bs front pos ≤ bs := by
  have he := requestedLength_eq bs front pos h hbs
  refine ⟨he, ?_, ?_⟩ <;> omega

theorem process_file_readInBounds (S : Storage σ) (hS : S.ReadBounded) (bs : Nat)
    (h1 : 1 ≤ bs) (hbs : bs < 4294967296) (fs u : Int) (h0 : σ) (rs0 : List range)
    (hne : rs0 ≠ []) :
    ScanOutcome S bs fs
      (fun _ rs t _ => rs ≠ [] ∧ (∀ r ∈ rs, r ∈ rs0) ∧ ∀ e ∈ t, ReadInBounds bs rs0 e)
      (process_file S (resparser.init bs h0 fs u) rs0) := by
  have hsnoc : ∀ (t : List IoEvent) (e : IoEvent), (∀ e' ∈ t, ReadInBounds bs rs0 e') →
      ReadInBounds bs rs0 e → ∀ e' ∈ t ++ [e], ReadInBounds bs rs0 e' := by
    intro t e ht he e' hm
    rcases List.mem_append.mp hm with hm | hm
    · exact ht e' hm
    · rw [List.mem_singleton] at hm
      rw [hm]
      exact he
  refine process_file_spec S bs fs u h0 rs0 _ ⟨hne, fun r hr => hr, fun e he => by cases he⟩
    ?_ ?_ ?_ ?_ ?_
  · rintro pos front next rest t h ⟨-, hsub, ht⟩ - -
    exact ⟨by simp, fun r hr => hsub r (List.mem_cons_of_mem _ hr), ht⟩
  · rintro pos front rest t h buff hd ⟨hn, hsub, ht⟩ - hlt - hrd
    obtain ⟨he, hlo, hhi⟩ := requestedLength_bounds bs front pos hlt h1 hbs
    refine ⟨hn, hsub, hsnoc t _ ht ?_⟩
    refine ⟨⟨front, hsub front (List.mem_cons_self _ _), hlt, he⟩, hlo, hhi, ?_⟩
    intro b hb
    cases hb
    exact hS h pos _ buff hd hrd
  · rintro pos front rest t h ⟨hn, hsub, ht⟩ - hlt - -
    obtain ⟨he, hlo, hhi⟩ := requestedLength_bounds bs front pos hlt h1 hbs
    refine ⟨hn, hsub, hsnoc t _ ht ?_⟩
    refine ⟨⟨front, hsub front (List.mem_cons_self _ _), hlt, he⟩, hlo, hhi, ?_⟩
    intro b hb
    cases hb
  · rintro pos rs t h p h' ⟨hn, hsub, ht⟩ - -
    exact ⟨hn, hsub, hsnoc t _ ht trivial⟩
  · rintro pos rs t h p ⟨hn, hsub, ht⟩ - -
    exact ⟨hn, hsub, hsnoc t _ ht trivial⟩

theorem ReadAbort.read_continued {r : Result σ} (h : ReadAbort r) (pre post : List IoEvent)
    (pos : Int) (n : Nat) (result : Option (List UInt8))
    (ht : r.final.trace = pre ++ IoEvent.read pos n result :: post)
    (hc : post ≠ [] ∨ r.thrown ≠ some .CannotReadFilePart) :
    ∃ buff, result = some buff ∧ 1 ≤ buff.length := by
  have hgood : (IoEvent.read pos n result).failedRead = false →
      ∃ buff, result = some buff ∧ 1 ≤ buff.length := by
    intro hf
    cases result with
    | none => cases hf
    | some buff =>
      simp only [IoEvent.failedRead, decide_eq_false_iff_not] at hf
      exact ⟨buff, rfl, by omega⟩
  rcases h with ⟨-, hall⟩ | ⟨hth, pre0, ev0, htr, -, hpre, -⟩
  · exact hgood (hall _ (by rw [ht]; simp))
  · have hpost : post ≠ [] := by
      rcases hc with hc | hc
      · exact hc
      · exact absurd hth hc
    have hd := congrArg List.dropLast (ht.symm.trans htr)
    rw [List.dropLast_append_of_ne_nil _ (by simp), List.dropLast_cons_of_ne_nil hpost,
      List.dropLast_concat] at hd
    exact hgood (hpre _ (by rw [← hd]; simp))

theorem coalesce_nonempty (t : List IoEvent) :
    ∀ p ∈ coalesce (zeroBlocks t), p.FileOffset < p.BeyondFinalZero := by
  apply coalesce_forall (fun p => p.FileOffset < p.BeyondFinalZero)
  · intro p z hp hz hadj
    dsimp only
    omega
  · intro z hz
    obtain ⟨pos, n, buff, -, hlen, rfl⟩ := mem_zeroBlocks_read t z hz
    dsimp only
    omega

/-- C18. Read length and buffer bounds: for every block size with
`1 ≤ blockSize < 2^32`, every non-empty range list and every storage whose
reads return at most the number of bytes asked for, `front()` is never taken
of an empty deque, and every read `process_file` issues is made at a `pos`
inside a range `front` of the list with a requested length that is
`min(blockSize, front.end - pos)` without loss in the cast to `DWORD` and lies
between 1 and `blockSize`, and returns at most `blockSize` bytes. Every read
after which the run goes on, that is every read but one that is the last call
of a run ended by "Cannot read file part", returned between 1 and `blockSize`
bytes, so the all-zero check stays inside the buffer; every range passed to
`io_deallocate_range` is non-empty; and in any object state, an iteration that
reads inside the front range and goes on has read between 1 and `blockSize`
bytes, has moved `pos` by that number, and has handed `deallocate_next` exactly
the non-empty range `[pos, pos + bytesRead)` when the bytes were all zero. -/
theorem C18_read_length_and_buffer_bounds (S : Storage σ) (hS : S.ReadBounded)
    (blockSize : Nat) (h1 : 1 ≤ blockSize) (h32 : blockSize < 4294967296)
    (fileSize uninitialised : Int) (h0 : σ) (allocatedRanges : List range)
    (hne : allocatedRanges ≠ []) :
    (process_file S (resparser.init blockSize h0 fileSize uninitialised)
      allocatedRanges).thrown ≠ some .emptyDequeFront ∧
    (∀ pos n result, IoEvent.read pos n result ∈
        (process_file S (resparser.init blockSize h0 fileSize uninitialised)
          allocatedRanges).final.trace →
      (∃ front ∈ allocatedRanges, pos < front.end_ ∧
        (n : Int) = min (blockSize : Int) (front.end_ - pos) ∧
        n = requestedLength blockSize front pos) ∧
      1 ≤ n ∧ n ≤ blockSize ∧
      ∀ buff, result = some buff → buff.length ≤ n ∧ buff.length ≤ blockSize) ∧
    (∀ pre pos n result post,
      (process_file S (resparser.init blockSize h0 fileSize uninitialised)
        allocatedRanges).final.trace = pre ++ IoEvent.read pos n result :: post →
      (post ≠ [] ∨
        (process_file S (resparser.init blockSize h0 fileSize uninitialised)
          allocatedRanges).thrown ≠ some .CannotReadFilePart) →
      ∃ buff, result = some buff ∧ 1 ≤ buff.length ∧ buff.length ≤ blockSize) ∧
    (∀ p ∈ flushed (process_file S (resparser.init blockSize h0 fileSize uninitialised)
        allocatedRanges).final.trace,
      p.FileOffset < p.BeyondFinalZero) ∧
    (∀ z ∈ zeroBlocks (process_file S (resparser.init blockSize h0 fileSize uninitialised)
        allocatedRanges).final.trace,
      z.BeyondFinalZero - z.FileOffset ≤ (blockSize : Int)) ∧
    (∀ (s s' : resparser σ) (pos pos' : Int) (front : range) (rest : List range),
      s.blockSize = blockSize → pos < front.end_ →
      process_file_block S s pos (front :: rest) = .ok (s', pos') →
      ∃ buff hd,
        S.ReadFile s.fileHandle pos (requestedLength blockSize front pos) = some (buff, hd) ∧
        1 ≤ buff.length ∧ buff.length ≤ blockSize ∧ pos' = pos + (buff.length : Int) ∧
        ((buff.all (fun i => i == 0) = true ∧
            deallocate_next S (afterRead s pos (requestedLength blockSize front pos) buff hd)
              ⟨pos, pos + (buff.length : Int)⟩ = .ok s') ∨
          (buff.all (fun i => i == 0) = false ∧
            s' = afterRead s pos (requestedLength blockSize front pos) buff hd))) := by
  obtain ⟨⟨pos, rs, ⟨-, -, hJ⟩, -⟩, ⟨qrest, hcore⟩, -, hcause⟩ :=
    process_file_readInBounds S hS blockSize h1 h32 fileSize uninitialised h0 allocatedRanges hne
  have hread : ∀ pos n result, IoEvent.read pos n result ∈
        (process_file S (resparser.init blockSize h0 fileSize uninitialised)
          allocatedRanges).final.trace →
      (∃ front ∈ allocatedRanges, pos < front.end_ ∧
        (n : Int) = min (blockSize : Int) (front.end_ - pos) ∧
        n = requestedLength blockSize front pos) ∧
      1 ≤ n ∧ n ≤ blockSize ∧
      ∀ buff, result = some buff → buff.length ≤ n ∧ buff.length ≤ blockSize := by
    intro pos n result hm
    obtain ⟨⟨front, hf, hlt, he⟩, hlo, hhi, hb⟩ := hJ _ hm
    refine ⟨⟨front, hf, hlt, he, ?_⟩, hlo, hhi, ?_⟩
    · have := requestedLength_eq blockSize front pos hlt h32
      omega
    · intro buff hres
      have hle := hb buff hres
      exact ⟨hle, le_trans hle hhi⟩
  refine ⟨?_, hread, ?_, ?_, ?_, ?_⟩
  · intro hth
    obtain ⟨pos, rs, t, h, ⟨hn, -, -⟩, hc⟩ := hcause _ hth
    rcases hc with ⟨he, -⟩ | ⟨-, -, hnil⟩ | ⟨he, -⟩ | ⟨he, -⟩ | ⟨he, -⟩
    · cases he
    · exact hn hnil
    · cases he
    · cases he
    · cases he
  · intro pre pos n result post ht hc
    obtain ⟨buff, hres, hlen⟩ :=
      (process_file_readAbort S blockSize fileSize uninitialised h0 allocatedRanges).read_continued
        pre post pos n result ht hc
    obtain ⟨-, -, -, hb⟩ := hread pos n result (by rw [ht]; simp)
    exact ⟨buff, hres, hlen, (hb buff hres).2⟩
  · intro p hp
    exact coalesce_nonempty _ p (by rw [hcore]; exact List.mem_append_left _ hp)
  · intro z hz
    obtain ⟨pos, n, buff, hm, hlen, rfl⟩ := mem_zeroBlocks_read _ z hz
    obtain ⟨-, -, -, hb⟩ := hread pos n (some buff) hm
    obtain ⟨-, hle⟩ := hb buff rfl
    dsimp only
    omega
  · intro s s' pos pos' front rest hbs hlt hb
    obtain ⟨front', rest', buff, hd, hrs, -, hrd, hlen, hpos, hcase⟩ :=
      process_file_block_ok S _ _ _ _ _ hb
    simp only [List.cons.injEq] at hrs
    obtain ⟨rfl, rfl⟩ := hrs
    rw [hbs] at hrd hcase
    obtain ⟨-, -, hhi⟩ := requestedLength_bounds blockSize front pos hlt h1 h32
    have hle := hS _ _ _ _ _ hrd
    exact ⟨buff, hd, hrd, by omega, by omega, hpos, hcase⟩

/-- Witness for C18: the 6-byte file `[0000][AB]` with block size 4 and the
range `[0,6)`. The second read asks for `min(4, 6 - 4) = 2` bytes and gets
them, and the one request is `[0,4)`. -/
theorem C18_read_length_and_buffer_bounds_witness :
    sparseFileStorage.ReadBounded ∧ 1 ≤ 4 ∧ 4 < 4294967296 ∧
    ([⟨0, 6⟩] : List range) ≠ [] ∧
    (process_file sparseFileStorage (resparser.init 4 exampleSixBytes 6 0)
      [⟨0, 6⟩]).final.trace =
      [IoEvent.read 0 4 (some [0, 0, 0, 0])] ++ IoEvent.read 4 2 (some [65, 66]) ::
        [IoEvent.deallocate ⟨0, 4⟩] ∧
    ((∃ front ∈ ([⟨0, 6⟩] : List range), 4 < front.end_ ∧
        ((2 : Nat) : Int) = min ((4 : Nat) : Int) (front.end_ - 4) ∧
        2 = requestedLength 4 front 4) ∧
      1 ≤ 2 ∧ 2 ≤ 4 ∧
      ∀ buff : List UInt8, some [65, 66] = some buff → buff.length ≤ 2 ∧ buff.length ≤ 4) ∧
    (∃ buff : List UInt8, some [65, 66] = some buff ∧ 1 ≤ buff.length ∧ buff.length ≤ 4) ∧
    ∀ p ∈ flushed (process_file sparseFileStorage (resparser.init 4 exampleSixBytes 6 0)
        [⟨0, 6⟩]).final.trace,
      p.FileOffset < p.BeyondFinalZero :=
  ⟨sparseFileStorage_readBounded, by decide, by decide, by simp, by decide,
    (C18_read_length_and_buffer_bounds sparseFileStorage sparseFileStorage_readBounded 4
      (by decide) (by decide) 6 0 exampleSixBytes [⟨0, 6⟩] (by simp)).2.1 4 2
      (some [65, 66]) (by decide),
    (C18_read_length_and_buffer_bounds sparseFileStorage sparseFileStorage_readBounded 4
      (by decide) (by decide) 6 0 exampleSixBytes [⟨0, 6⟩] (by simp)).2.2.1
      [IoEvent.read 0 4 (some [0, 0, 0, 0])] 4 2 (some [65, 66])
      [IoEvent.deallocate ⟨0, 4⟩] (by decide) (Or.inl (by simp)),
    (C18_read_length_and_buffer_bounds sparseFileStorage sparseFileStorage_readBounded 4
      (by decide) (by decide) 6 0 exampleSixBytes [⟨0, 6⟩] (by simp)).2.2.2.1⟩

/-! ## The enumerator -/

theorem get_allocated_ranges_items_eq (st : AllocatedRangesScan σ) :
    ∀ (buff : List FILE_ALLOCATED_RANGE_BUFFER),
      get_allocated_ranges_items st buff =
        { st with
          result := st.result ++ buff.map (fun b => ⟨b.FileOffset, b.FileOffset + b.Length⟩)
          totalAllocated := st.totalAllocated + (buff.map (fun b => b.Length)).sum
          pos := (buff.getLast?.map (fun b => b.FileOffset + b.Length)).getD st.pos } := by
  intro buff
  induction buff using List.reverseRecOn with
  | nil => simp [get_allocated_ranges_items]
  | append_singleton l b ih =>
    unfold get_allocated_ranges_items at ih ⊢
    rw [List.foldl_append, ih]
    simp [add_assoc]

theorem get_allocated_ranges_loop_progress (Q : QueryStorage σ) (capacity : Nat)
    (fileSize : Int) (hQ : Q.Progress capacity) :
    ∀ (fuel : Nat) (st : AllocatedRangesScan σ), 1 ≤ fuel →
      (st.done = false → st.pos < fileSize → (fileSize - st.pos).toNat < fuel) →
      enumerationThrown (get_allocated_ranges_loop Q capacity fileSize fuel st) ≠
        some .fuelExhausted ∧
      (enumerationFinal (get_allocated_ranges_loop Q capacity fileSize fuel st)).queries.length ≤
        st.queries.length + (if st.done = false then (fileSize - st.pos).toNat else 0) := by
  intro fuel
  induction fuel with
  | zero => intro st h; omega
  | succ fuel ih =>
    intro st _ hf
    unfold get_allocated_ranges_loop
    by_cases hc : st.done = false ∧ st.pos < fileSize
    · rw [if_pos hc]
      obtain ⟨hd, hlt⟩ := hc
      have hfuel := hf hd hlt
      dsimp only
      cases hq : Q.FSCTL_QUERY_ALLOCATED_RANGES st.fileHandle
          ⟨st.pos, fileSize - st.pos⟩ capacity with
      | mk resp h =>
        cases resp with
        | failure =>
          dsimp only
          refine ⟨by simp [enumerationThrown], ?_⟩
          simp only [enumerationFinal, List.length_append, List.length_singleton, hd, if_true]
          omega
        | success buff =>
          dsimp only
          rw [get_allocated_ranges_items_eq]
          have := ih
            { fileHandle := h
              result := st.result ++ buff.map (fun b => ⟨b.FileOffset, b.FileOffset + b.Length⟩)
              totalAllocated := st.totalAllocated + (buff.map (fun b => b.Length)).sum
              pos := (buff.getLast?.map (fun b => b.FileOffset + b.Length)).getD st.pos
              done := true
              queries := st.queries ++ [⟨st.pos, fileSize - st.pos⟩] }
            (by omega) (by intro h; cases h)
          refine ⟨this.1, le_trans this.2 ?_⟩
          simp only [List.length_append, List.length_singleton, hd, if_true]
          simp
          omega
        | moreData buff =>
          dsimp only
          rw [get_allocated_ranges_items_eq]
          obtain ⟨last, hlast, hgt⟩ := hQ _ _ _ _ hq
          dsimp only at hgt
          have := ih
            { fileHandle := h
              result := st.result ++ buff.map (fun b => ⟨b.FileOffset, b.FileOffset + b.Length⟩)
              totalAllocated := st.totalAllocated + (buff.map (fun b => b.Length)).sum
              pos := (buff.getLast?.map (fun b => b.FileOffset + b.Length)).getD st.pos
              done := false
              queries := st.queries ++ [⟨st.pos, fileSize - st.pos⟩] }
            (by omega)
            (by
              intro _ hlt'
              simp only [hlast, Option.map_some', Option.getD_some] at hlt' ⊢
              omega)
          refine ⟨this.1, le_trans this.2 ?_⟩
          simp only [List.length_append, List.length_singleton, hd, if_true, hlast,
            Option.map_some', Option.getD_some]
          omega
    · rw [if_neg hc]
      exact ⟨by simp [enumerationThrown], by simp [enumerationFinal]⟩

theorem get_allocated_ranges_loop_stuck (capacity : Nat) (fileSize : Int) :
    ∀ (fuel : Nat) (st : AllocatedRangesScan Unit), st.done = false → st.pos < fileSize →
      get_allocated_ranges_loop stuckQueryStorage capacity fileSize fuel st =
        .error (.fuelExhausted,
          { st with queries := st.queries ++
              List.replicate fuel ⟨st.pos, fileSize - st.pos⟩ }) := by
  intro fuel
  induction fuel with
  | zero =>
    intro st _ _
    simp [get_allocated_ranges_loop]
  | succ fuel ih =>
    intro st hd hlt
    unfold get_allocated_ranges_loop
    rw [if_pos ⟨hd, hlt⟩]
    have hq : stuckQueryStorage.FSCTL_QUERY_ALLOCATED_RANGES st.fileHandle
        ⟨st.pos, fileSize - st.pos⟩ capacity = (.moreData [], st.fileHandle) := rfl
    dsimp only
    rw [hq]
    dsimp only [get_allocated_ranges_items, List.foldl]
    rw [ih { st with
      done := false
      queries := st.queries ++ [⟨st.pos, fileSize - st.pos⟩] } rfl hlt]
    simp [List.replicate_succ, hd]

/-- C17. The enumeration loop of `get_allocated_ranges` terminates under a
progress condition on the storage layer: if every answer flagged "more data"
has at least one entry and its last entry ends strictly after the queried
position, then for every `fileSize` the loop ends, normally or with "Cannot
get allocated ranges", as soon as the fuel exceeds `fileSize`, having issued
at most `fileSize` queries. Without the condition it need not end: against a
storage layer that answers "more data" with no entry, which does not satisfy
the condition, and a file of positive size the loop uses up every amount of
fuel, `pos` staying at 0 and the query `(0, fileSize)` being repeated each
time. -/
theorem C17_enumeration_terminates_under_progress (Q : QueryStorage σ) (hQ : Q.Progress 64)
    (fileHandle : σ) (fileSize : Int) :
    (∀ fuel, fileSize.toNat < fuel →
      enumerationThrown (get_allocated_ranges Q fileHandle fileSize fuel) ≠
        some .fuelExhausted ∧
      (enumerationFinal (get_allocated_ranges Q fileHandle fileSize fuel)).queries.length ≤
        fileSize.toNat) ∧
    (0 < fileSize →
      ¬ stuckQueryStorage.Progress 64 ∧
      ∀ fuel, get_allocated_ranges stuckQueryStorage () fileSize fuel =
        .error (.fuelExhausted,
          { AllocatedRangesScan.init () with
            queries := List.replicate fuel ⟨0, fileSize⟩ })) := by
  constructor
  · intro fuel hf
    have := get_allocated_ranges_loop_progress Q 64 fileSize hQ fuel
      (AllocatedRangesScan.init fileHandle) (by omega)
      (by
        intro _ _
        simp only [AllocatedRangesScan.init]
        omega)
    refine ⟨this.1, le_trans this.2 ?_⟩
    simp [AllocatedRangesScan.init]
  · intro hpos
    constructor
    · intro hP
      obtain ⟨last, hl, -⟩ := hP () ⟨0, 0⟩ [] () rfl
      cases hl
    · intro fuel
      have := get_allocated_ranges_loop_stuck 64 fileSize fuel (AllocatedRangesScan.init ())
        rfl hpos
      simpa [AllocatedRangesScan.init] using this
theorem map_range_buffer (X : List range) :
    ((X.map (fun r => ({ FileOffset := r.start, Length := r.end_ - r.start } :
        FILE_ALLOCATED_RANGE_BUFFER))).map
      (fun b => ({ start := b.FileOffset, end_ := b.FileOffset + b.Length } : range))) = X := by
  induction X with
  | nil => rfl
  | cons r X ih =>
    simp only [List.map_cons, ih]
    congr 1
    cases r
    simp

theorem sum_length_buffer (X : List range) :
    (((X.map (fun r => ({ FileOffset := r.start, Length := r.end_ - r.start } :
        FILE_ALLOCATED_RANGE_BUFFER))).map (fun b => b.Length)).sum) = totalAllocated X := by
  induction X with
  | nil => rfl
  | cons r X ih =>
    simp only [List.map_cons, List.sum_cons, ih, totalAllocated]

theorem totalAllocated_append (A B : List range) :
    totalAllocated (A ++ B) = totalAllocated A + totalAllocated B := by
  induction A with
  | nil => simp [totalAllocated]
  | cons a A ih => simp [totalAllocated, ih, add_assoc]

theorem batch_positions_shift (B : List range) (k : Nat) (hk : 1 ≤ k) (hlen : k < B.length) :
    (List.range ((B.length - 1) / k)).map (fun j => (B.getD ((j + 1) * k - 1) ⟨0, 0⟩).end_) =
      (B.getD (k - 1) ⟨0, 0⟩).end_ ::
        (List.range (((B.drop k).length - 1) / k)).map
          (fun j => ((B.drop k).getD ((j + 1) * k - 1) ⟨0, 0⟩).end_) := by
  have h1 : (B.length - 1) / k = ((B.drop k).length - 1) / k + 1 := by
    have h2 : B.length - 1 = ((B.drop k).length - 1) + k := by
      rw [List.length_drop]
      omega
    rw [h2, Nat.add_div_right _ (by omega : 0 < k)]
  rw [h1, List.range_succ_eq_map, List.map_cons, List.map_map]
  congr 1
  · simp
  · apply List.map_congr_left
    intro j _
    simp only [Function.comp, List.getD_eq_getElem?_getD, List.getElem?_drop]
    have h3 : (j + 1).succ * k - 1 = k + ((j + 1) * k - 1) := by
      rw [Nat.succ_mul, Nat.succ_mul]
      omega
    rw [← h3]

theorem listQueryStorage_progress (L : List range) (hne : ∀ r ∈ L, r.start < r.end_)
    (k : Nat) (hk : 1 ≤ k) : (listQueryStorage L).Progress k := by
  intro h q buff h' hq
  simp only [listQueryStorage] at hq
  split at hq
  · rename_i hlt
    simp only [Prod.mk.injEq, QueryResponse.moreData.injEq] at hq
    obtain ⟨rfl, -⟩ := hq
    have hne' : (L.filter (fun r => decide (q.FileOffset ≤ r.start))).take k ≠ [] := by
      intro h0
      have := congrArg List.length h0
      rw [List.length_take] at this
      simp only [List.length_nil] at this
      omega
    obtain ⟨last, hlast⟩ := Option.isSome_iff_exists.mp
      (by rw [List.getLast?_isSome]; exact hne' :
        ((L.filter (fun r => decide (q.FileOffset ≤ r.start))).take k).getLast?.isSome = true)
    have hmem : last ∈ L.filter (fun r => decide (q.FileOffset ≤ r.start)) :=
      List.mem_of_mem_take (List.mem_of_getLast?_eq_some hlast)
    rw [List.mem_filter] at hmem
    obtain ⟨hL, hge⟩ := hmem
    have hge' : q.FileOffset ≤ last.start := by simpa using hge
    have := hne last hL
    refine ⟨⟨last.start, last.end_ - last.start⟩, ?_, ?_⟩
    · rw [List.getLast?_map, hlast]
      rfl
    · dsimp only
      omega
  · simp only [Prod.mk.injEq] at hq
    cases hq.1

theorem listQueryStorage_query (L A B : List range) (pos len : Int) (k : Nat)
    (hL : L = A ++ B) (hA : ∀ r ∈ A, r.start < pos) (hB : ∀ r ∈ B, pos ≤ r.start) :
    (listQueryStorage L).FSCTL_QUERY_ALLOCATED_RANGES () ⟨pos, len⟩ k =
      if k < B.length then
        (.moreData ((B.take k).map (fun r => ⟨r.start, r.end_ - r.start⟩)), ())
      else
        (.success ((B.take k).map (fun r => ⟨r.start, r.end_ - r.start⟩)), ()) := by
  have hf : L.filter (fun r => decide (pos ≤ r.start)) = B := by
    rw [hL, List.filter_append]
    have h1 : A.filter (fun r => decide (pos ≤ r.start)) = [] := by
      rw [List.filter_eq_nil_iff]
      intro r hr
      have := hA r hr
      simp only [decide_eq_true_eq]
      omega
    have h2 : B.filter (fun r => decide (pos ≤ r.start)) = B := by
      rw [List.filter_eq_self]
      intro r hr
      simpa using hB r hr
    rw [h1, h2, List.nil_append]
  simp only [listQueryStorage, hf]

theorem get_allocated_ranges_loop_list_last (L : List range) (fileSize : Int) (k : Nat)
    (fuel : Nat) (A B : List range) (st : AllocatedRangesScan Unit)
    (hB : B.length ≤ k) (hfuel : 2 ≤ fuel) (hL : L = A ++ B)
    (hA : ∀ r ∈ A, r.start < st.pos) (hBge : ∀ r ∈ B, st.pos ≤ r.start)
    (hd : st.done = false) (hlt : st.pos < fileSize) (hres : st.result = A) :
    ∃ st', get_allocated_ranges_loop (listQueryStorage L) k fileSize fuel st = .ok st' ∧
      st'.result = L ∧
      st'.totalAllocated = st.totalAllocated + totalAllocated B ∧
      st'.queries = st.queries ++
        (st.pos :: (List.range ((B.length - 1) / k)).map
          (fun j => (B.getD ((j + 1) * k - 1) ⟨0, 0⟩).end_)).map
          (fun p => ⟨p, fileSize - p⟩) := by
  obtain ⟨f, rfl⟩ : ∃ f, fuel = f + 1 + 1 := ⟨fuel - 2, by omega⟩
  unfold get_allocated_ranges_loop
  rw [if_pos ⟨hd, hlt⟩]
  dsimp only
  rw [listQueryStorage_query L A B st.pos (fileSize - st.pos) k hL hA hBge,
    if_neg (by omega), List.take_of_length_le hB]
  dsimp only
  rw [get_allocated_ranges_items_eq, map_range_buffer, sum_length_buffer]
  unfold get_allocated_ranges_loop
  rw [if_neg (by simp)]
  refine ⟨_, rfl, ?_, rfl, ?_⟩
  · rw [hL, hres]
  · have h0 : (B.length - 1) / k = 0 := by
      by_cases hk0 : k = 0
      · subst hk0
        simp
      · exact Nat.div_eq_of_lt (by omega)
    rw [h0]
    rfl

theorem get_allocated_ranges_loop_list (L : List range) (fileSize : Int) (k : Nat) (hk : 1 ≤ k)
    (hne : ∀ r ∈ L, r.start < r.end_) (hin : ∀ r ∈ L, 0 ≤ r.start ∧ r.end_ ≤ fileSize)
    (hsorted : L.Pairwise (fun a b => a.end_ ≤ b.start)) :
    ∀ (n fuel : Nat) (A B : List range) (st : AllocatedRangesScan Unit),
      B.length ≤ n → n + 2 ≤ fuel → L = A ++ B →
      (∀ r ∈ A, r.start < st.pos) → (∀ r ∈ B, st.pos ≤ r.start) →
      st.done = false → st.pos < fileSize → st.result = A →
      ∃ st', get_allocated_ranges_loop (listQueryStorage L) k fileSize fuel st = .ok st' ∧
        st'.result = L ∧
        st'.totalAllocated = st.totalAllocated + totalAllocated B ∧
        st'.queries = st.queries ++
          (st.pos :: (List.range ((B.length - 1) / k)).map
            (fun j => (B.getD ((j + 1) * k - 1) ⟨0, 0⟩).end_)).map
            (fun p => ⟨p, fileSize - p⟩) := by
  intro n
  induction n with
  | zero =>
    intro fuel A B st hB hfuel hL hA hBge hd hlt hres
    exact get_allocated_ranges_loop_list_last L fileSize k fuel A B st (by omega) (by omega)
      hL hA hBge hd hlt hres
  | succ n ih =>
    intro fuel A B st hB hfuel hL hA hBge hd hlt hres
    by_cases hkB : k < B.length
    · obtain ⟨f, rfl⟩ : ∃ f, fuel = f + 1 := ⟨fuel - 1, by omega⟩
      have hk1 : k - 1 < B.length := by omega
      have hlast : (B.take k).getLast? = some (B.get ⟨k - 1, hk1⟩) := by
        rw [List.getLast?_eq_getElem?, List.length_take, List.getElem?_take]
        simp only [min_eq_left (le_of_lt hkB)]
        rw [if_pos (by omega), List.getElem?_eq_getElem hk1]
        rfl
      have hsB : B.Pairwise (fun a b => a.end_ ≤ b.start) := by
        rw [hL] at hsorted
        exact (List.pairwise_append.mp hsorted).2.1
      have hBL : ∀ r ∈ B, r ∈ L := fun r hr => hL ▸ List.mem_append_right A hr
      have hidx := List.pairwise_iff_getElem.mp hsB
      have hlastB : B.get ⟨k - 1, hk1⟩ ∈ B := List.get_mem B _ _
      have hlastne := hne _ (hBL _ hlastB)
      have hlastge := hBge _ hlastB
      have hnext := hidx (k - 1) k hk1 hkB (by omega)
      have hnextne := hne _ (hBL _ (List.getElem_mem hkB))
      have hnextin := hin _ (hBL _ (List.getElem_mem hkB))
      have hlast' : B[k - 1] = B.get ⟨k - 1, hk1⟩ := rfl
      rw [hlast'] at hnext
      obtain ⟨st', hrun, hres', htot', hq'⟩ := ih f (A ++ B.take k) (B.drop k)
        { fileHandle := ()
          result := A ++ B.take k
          totalAllocated := st.totalAllocated + totalAllocated (B.take k)
          pos := (B.get ⟨k - 1, hk1⟩).end_
          done := false
          queries := st.queries ++ [⟨st.pos, fileSize - st.pos⟩] }
        (by rw [List.length_drop]; omega) (by omega)
        (by rw [List.append_assoc, List.take_append_drop]; exact hL)
        (by
          intro r hr
          dsimp only
          rcases List.mem_append.mp hr with hr | hr
          · have := hA r hr
            omega
          · obtain ⟨i, hi, rfl⟩ := List.mem_iff_getElem.mp hr
            rw [List.length_take] at hi
            rw [List.getElem_take]
            by_cases hik : i = k - 1
            · subst hik
              exact hlastne
            · have h1 := hidx i (k - 1) (by omega) hk1 (by omega)
              have h2 := hne _ (hBL _ (List.getElem_mem (by omega : i < B.length)))
              rw [hlast'] at h1
              omega)
        (by
          intro r hr
          dsimp only
          obtain ⟨i, hi, rfl⟩ := List.mem_iff_getElem.mp hr
          rw [List.length_drop] at hi
          rw [List.getElem_drop]
          have h1 := hidx (k - 1) (k + i) hk1 (by omega) (by omega)
          rw [hlast'] at h1
          exact h1)
        rfl
        (by
          dsimp only
          omega)
        rfl
      refine ⟨st', ?_, hres', ?_, ?_⟩
      · conv_lhs => unfold get_allocated_ranges_loop
        rw [if_pos ⟨hd, hlt⟩]
        dsimp only
        rw [listQueryStorage_query L A B st.pos (fileSize - st.pos) k hL hA hBge, if_pos hkB]
        dsimp only
        rw [get_allocated_ranges_items_eq, map_range_buffer, sum_length_buffer,
          List.getLast?_map, hlast, hres]
        have hp : (B.get ⟨k - 1, hk1⟩).start +
            ((B.get ⟨k - 1, hk1⟩).end_ - (B.get ⟨k - 1, hk1⟩).start) =
            (B.get ⟨k - 1, hk1⟩).end_ := by omega
        simp only [Option.map_some', Option.getD_some, hp]
        exact hrun
      · rw [htot']
        dsimp only
        rw [add_assoc, ← totalAllocated_append, List.take_append_drop]
      · rw [hq', batch_positions_shift B k hk hkB]
        have hg : B.getD (k - 1) ⟨0, 0⟩ = B.get ⟨k - 1, hk1⟩ := by
          rw [List.getD_eq_getElem?_getD, List.getElem?_eq_getElem hk1]
          rfl
        rw [hg]
        simp
    · exact get_allocated_ranges_loop_list_last L fileSize k fuel A B st (by omega) (by omega)
        hL hA hBge hd hlt hres
/-- C12. The result of the enumerator does not depend on the batch capacity:
against a storage layer that holds a list `L` of non-empty ranges, sorted,
non-overlapping and within `[0, fileSize)`, and answers each query with the
first `k` ranges of `L` starting at or after the queried position, flagging
"more data" exactly when more remain, `get_allocated_ranges` with a buffer of
any capacity `k ≥ 1` returns, once the fuel covers its queries, exactly `L`,
with `totalAllocated` the sum of its lengths; the queries are issued at 0 and
then at the end of the last range of each batch, that is at the ends of
`L[k-1]`, `L[2k-1]`, and so on, each for the rest of the file. Whatever the
storage, a batch is appended to the result in order and leaves `pos` at the
end of its last entry; the capacity of the source is 64. -/
theorem C12_enumerator_independent_of_capacity (L : List range) (fileSize : Int) (k : Nat)
    (hk : 1 ≤ k) (hne : ∀ r ∈ L, r.start < r.end_)
    (hin : ∀ r ∈ L, 0 ≤ r.start ∧ r.end_ ≤ fileSize)
    (hsorted : L.Pairwise (fun a b => a.end_ ≤ b.start))
    (fuel : Nat) (hfuel : L.length + 2 ≤ fuel) :
    (∃ st, get_allocated_ranges_sized (listQueryStorage L) k () fileSize fuel = .ok st ∧
      st.result = L ∧
      st.totalAllocated = totalAllocated L ∧
      st.queries =
        if 0 < fileSize then
          (0 :: (List.range ((L.length - 1) / k)).map
            (fun j => (L.getD ((j + 1) * k - 1) ⟨0, 0⟩).end_)).map
            (fun p => ⟨p, fileSize - p⟩)
        else []) ∧
    (∀ (st : AllocatedRangesScan Unit) (buff : List FILE_ALLOCATED_RANGE_BUFFER) last,
      buff.getLast? = some last →
      (get_allocated_ranges_items st buff).result =
        st.result ++ buff.map (fun b => ⟨b.FileOffset, b.FileOffset + b.Length⟩) ∧
      (get_allocated_ranges_items st buff).pos = last.FileOffset + last.Length) ∧
    get_allocated_ranges (listQueryStorage L) () fileSize fuel =
      get_allocated_ranges_sized (listQueryStorage L) 64 () fileSize fuel := by
  refine ⟨?_, ?_, rfl⟩
  · by_cases hfs : 0 < fileSize
    · obtain ⟨st', hrun, hres, htot, hq⟩ :=
        get_allocated_ranges_loop_list L fileSize k hk hne hin hsorted L.length fuel [] L
          (AllocatedRangesScan.init ()) (le_refl _) hfuel rfl (fun r hr => by cases hr)
          (fun r hr => (hin r hr).1) rfl hfs rfl
      refine ⟨st', hrun, hres, ?_, ?_⟩
      · rw [htot]
        simp [AllocatedRangesScan.init]
      · rw [hq, if_pos hfs]
        simp [AllocatedRangesScan.init]
    · have hnil : L = [] := by
        cases L with
        | nil => rfl
        | cons r rest =>
          have h1 := hne r (List.mem_cons_self _ _)
          have h2 := hin r (List.mem_cons_self _ _)
          omega
      subst hnil
      obtain ⟨f, rfl⟩ : ∃ f, fuel = f + 1 := ⟨fuel - 1, by simp at hfuel; omega⟩
      refine ⟨AllocatedRangesScan.init (), ?_, rfl, rfl, ?_⟩
      · unfold get_allocated_ranges_sized get_allocated_ranges_loop
        rw [if_neg]
        rintro ⟨-, h⟩
        exact hfs h
      · rw [if_neg hfs]
        rfl
  · intro st buff last hlast
    rw [get_allocated_ranges_items_eq]
    simp [hlast]

theorem C12_enumerator_independent_of_capacity_witness :
    1 ≤ 2 ∧ (∀ r ∈ ([⟨0, 4⟩, ⟨8, 12⟩, ⟨16, 20⟩] : List range), r.start < r.end_) ∧
    (∀ r ∈ ([⟨0, 4⟩, ⟨8, 12⟩, ⟨16, 20⟩] : List range), 0 ≤ r.start ∧ r.end_ ≤ 20) ∧
    ([⟨0, 4⟩, ⟨8, 12⟩, ⟨16, 20⟩] : List range).Pairwise (fun a b => a.end_ ≤ b.start) ∧
    ([⟨0, 4⟩, ⟨8, 12⟩, ⟨16, 20⟩] : List range).length + 2 ≤ 5 ∧
    (enumerationFinal (get_allocated_ranges_sized
      (listQueryStorage [⟨0, 4⟩, ⟨8, 12⟩, ⟨16, 20⟩]) 2 () 20 5)).queries = [⟨0, 20⟩, ⟨12, 8⟩] ∧
    ∃ st, get_allocated_ranges_sized
        (listQueryStorage [⟨0, 4⟩, ⟨8, 12⟩, ⟨16, 20⟩]) 2 () 20 5 = .ok st ∧
      st.result = [⟨0, 4⟩, ⟨8, 12⟩, ⟨16, 20⟩] ∧
      st.totalAllocated = totalAllocated [⟨0, 4⟩, ⟨8, 12⟩, ⟨16, 20⟩] ∧
      st.queries =
        if (0 : Int) < 20 then
          (0 :: (List.range ((([⟨0, 4⟩, ⟨8, 12⟩, ⟨16, 20⟩] : List range).length - 1) / 2)).map
            (fun j => (([⟨0, 4⟩, ⟨8, 12⟩, ⟨16, 20⟩] : List range).getD
              ((j + 1) * 2 - 1) ⟨0, 0⟩).end_)).map
            (fun p => ⟨p, 20 - p⟩)
        else [] :=
  ⟨by decide, by decide, by decide, by decide, by decide, by decide,
    (C12_enumerator_independent_of_capacity [⟨0, 4⟩, ⟨8, 12⟩, ⟨16, 20⟩] 20 2 (by decide)
      (by decide) (by decide) (by decide) 5 (by decide)).1⟩

theorem exampleManyRanges_nonempty : ∀ r ∈ exampleManyRanges, r.start < r.end_ := by
  intro r hr
  obtain ⟨i, -, rfl⟩ := List.mem_map.mp hr
  dsimp only
  omega

/-- Witness for C17: a storage layer holding 65 one-byte ranges of a 130-byte
file meets the progress condition for the 64-entry buffer of the source and
answers the first query with "more data" and 64 entries, the last of them
`[126,127)`; the run then queries at 127, is answered with the last range and
ends normally after 2 queries. -/
theorem C17_enumeration_terminates_under_progress_witness :
    (listQueryStorage exampleManyRanges).Progress 64 ∧
    ((listQueryStorage exampleManyRanges).FSCTL_QUERY_ALLOCATED_RANGES () ⟨0, 130⟩ 64).1 =
      .moreData ((exampleManyRanges.take 64).map (fun r => ⟨r.start, r.end_ - r.start⟩)) ∧
    (exampleManyRanges.take 64).getLast? = some ⟨126, 127⟩ ∧
    (enumerationFinal (get_allocated_ranges (listQueryStorage exampleManyRanges) () 130
      131)).queries = [⟨0, 130⟩, ⟨127, 3⟩] ∧
    (enumerationFinal (get_allocated_ranges (listQueryStorage exampleManyRanges) () 130
      131)).result = exampleManyRanges ∧
    enumerationThrown (get_allocated_ranges (listQueryStorage exampleManyRanges) () 130 131) =
      none ∧
    (enumerationThrown (get_allocated_ranges (listQueryStorage exampleManyRanges) () 130 131) ≠
        some .fuelExhausted ∧
      (enumerationFinal
        (get_allocated_ranges (listQueryStorage exampleManyRanges) () 130 131)).queries.length ≤
        (130 : Int).toNat) :=
  ⟨listQueryStorage_progress _ exampleManyRanges_nonempty 64 (by decide), by decide, by decide,
    by decide, by decide, by decide,
    (C17_enumeration_terminates_under_progress (listQueryStorage exampleManyRanges)
      (listQueryStorage_progress _ exampleManyRanges_nonempty 64 (by decide)) () 130).1 131
      (by decide)⟩

/-! ## The scan over a list whose first range starts at offset 0 -/

theorem allocatedZeroBlocks_append (bs : Nat) (bytes : List UInt8) (a b : List range) :
    allocatedZeroBlocks bs bytes (a ++ b) =
      allocatedZeroBlocks bs bytes a ++ allocatedZeroBlocks bs bytes b := by
  induction a with
  | nil => rfl
  | cons r a ih => simp [allocatedZeroBlocks, ih]

theorem allocatedReads_append (bs : Nat) (a b : List range) :
    allocatedReads bs (a ++ b) = allocatedReads bs a ++ allocatedReads bs b := by
  induction a with
  | nil => rfl
  | cons r a ih => simp [allocatedReads, ih]

theorem rangeNumBlocks_eq (bs : Nat) (hbs1 : 1 ≤ bs) (r : range) (k : Nat)
    (h : r.end_ ≤ r.start + ((k * bs : Nat) : Int))
    (hk : ∀ k', k = k' + 1 → r.start + ((k' * bs : Nat) : Int) < r.end_) :
    k = rangeNumBlocks bs r := by
  unfold rangeNumBlocks
  apply Nat.le_antisymm
  · rw [Nat.le_div_iff_mul_le (by omega)]
    cases k with
    | zero => omega
    | succ k' =>
      have := hk k' rfl
      have : (k' + 1) * bs = k' * bs + bs := by ring
      omega
  · have : ((r.end_ - r.start).toNat + bs - 1) / bs < k + 1 := by
      rw [Nat.div_lt_iff_lt_mul (by omega)]
      have : (k + 1) * bs = k * bs + bs := by ring
      omega
    omega

theorem lt_rangeNumBlocks_iff (bs : Nat) (hbs1 : 1 ≤ bs) (r : range) (j : Nat) :
    j < rangeNumBlocks bs r ↔ j * bs < (r.end_ - r.start).toNat := by
  unfold rangeNumBlocks
  rw [Nat.lt_iff_add_one_le, Nat.le_div_iff_mul_le (by omega)]
  have : (j + 1) * bs = j * bs + bs := by ring
  omega

theorem allocatedZeroBlocks_of_empty (bs : Nat) (hbs1 : 1 ≤ bs) (bytes : List UInt8) :
    ∀ (rs : List range), (∀ r ∈ rs, r.end_ ≤ r.start) →
      allocatedZeroBlocks bs bytes rs = [] ∧ allocatedReads bs rs = [] := by
  intro rs
  induction rs with
  | nil => intro _; exact ⟨rfl, rfl⟩
  | cons r rs ih =>
    intro h
    have h0 : rangeNumBlocks bs r = 0 := by
      have := h r (List.mem_cons_self _ _)
      unfold rangeNumBlocks
      apply Nat.div_eq_of_lt
      omega
    obtain ⟨h1, h2⟩ := ih (fun x hx => h x (List.mem_cons_of_mem _ hx))
    simp [allocatedZeroBlocks, allocatedReads, h0, h1, h2, rangeZeroBlocks, rangeReads]

/-- A read of block `k` of the front range, inside the file, returns all the
bytes asked for, and is the next block of the range. -/
theorem rangeZeroBlocks_succ_read (bs : Nat) (hbs1 : 1 ≤ bs) (bytes : List UInt8)
    (front : range) (k : Nat) (pos : Int) (n : Nat) (buff : List UInt8)
    (hpos : pos = front.start + ((k * bs : Nat) : Int))
    (hn : (n : Int) = min (bs : Int) (front.end_ - pos)) (hlt : pos < front.end_)
    (hbuff : buff = (bytes.drop pos.toNat).take n)
    (hend : front.end_ ≤ (bytes.length : Int)) (h0 : 0 ≤ pos) :
    buff.length = n ∧ 1 ≤ n ∧
    pos + (n : Int) = min (front.start + (((k + 1) * bs : Nat) : Int)) front.end_ ∧
    rangeZeroBlocks bs bytes front (k + 1) =
      rangeZeroBlocks bs bytes front k ++ zeroBlocks [IoEvent.read pos n (some buff)] ∧
    rangeReads bs front (k + 1) = rangeReads bs front k ++ [(pos, n)] := by
  have hk1 : (k + 1) * bs = k * bs + bs := by ring
  have hlen : buff.length = n := by
    rw [hbuff, List.length_take, List.length_drop]
    omega
  have hn1 : 1 ≤ n := by omega
  have hblock : rangeBlock bs front k = ⟨pos, pos + (n : Int)⟩ := by
    unfold rangeBlock
    rw [hk1]
    congr 1
    · exact hpos.symm
    · push_cast
      omega
  have hbytes : intervalBytes bytes (rangeBlock bs front k) = buff := by
    rw [hblock, hbuff]
    unfold intervalBytes
    dsimp only
    congr 1
    omega
  refine ⟨hlen, hn1, ?_, ?_, ?_⟩
  · rw [hk1]
    push_cast
    omega
  · unfold rangeZeroBlocks
    rw [List.range_succ, List.filterMap_append]
    congr 1
    have hrz : rangeZeroBlock bs bytes front k =
        if buff.all (fun b => b == 0) = true then some ⟨pos, pos + (n : Int)⟩ else none := by
      unfold rangeZeroBlock
      rw [hbytes, hblock]
    simp only [List.filterMap_cons, List.filterMap_nil, hrz]
    by_cases hz : buff.all (fun b => b == 0) = true
    · rw [zeroBlocks_read_some _ _ _ (by omega) hz, if_pos hz, hlen]
    · rw [zeroBlocks_read_nonzero _ _ _ (Or.inr (by simpa using hz)), if_neg hz]
  · unfold rangeReads
    rw [List.range_succ, List.map_append]
    congr 1
    simp only [List.map_cons, List.map_nil, hblock]
    congr 2
    simp

theorem SortedRanges.start_nonneg {front : range} {rest : List range}
    (h : SortedRanges (front :: rest)) (h0 : front.start = 0) :
    ∀ r ∈ front :: rest, 0 ≤ r.start := by
  intro r hr
  have hfe := h.1 front (List.mem_cons_self _ _)
  rcases List.mem_cons.mp hr with rfl | hr
  · omega
  · have := h.rel_of_mem r hr
    omega

/-- The scan of a file over a sorted list of ranges inside the file whose
first range starts at offset 0 reads the ranges one after the other, block by
block. -/
theorem scanFile_rangeScan (bs : Nat) (hbs1 : 1 ≤ bs) (hbs2 : bs < 4294967296)
    (f : SparseFile) (rs0 : List range) (u : Int) (hsorted : SortedRanges rs0)
    (hin : ∀ r ∈ rs0, r.end_ ≤ (f.bytes.length : Int))
    (hfirst : ∃ front rest, rs0 = front :: rest ∧ front.start = 0) :
    ScanOutcome sparseFileStorage bs (f.bytes.length : Int) (RangeScan bs f.bytes rs0)
      (scanFile bs f rs0 u) := by
  apply process_file_spec
  · obtain ⟨front, rest, rfl, hf0⟩ := hfirst
    have hfe := hsorted.1 front (List.mem_cons_self _ _)
    refine ⟨⟨rfl, by simp [zeroBlocks]⟩, [], front, rest, 0, rfl, rfl, ?_, by omega, rfl, rfl⟩
    simp only [Nat.zero_mul, Nat.cast_zero, add_zero]
    omega
  · rintro pos front next rest t h ⟨hF, done, front', rest', k, hrs0, hrs, hpos, hk, hz, hr⟩ _ hge
    simp only [List.cons.injEq] at hrs
    obtain ⟨rfl, rfl⟩ := hrs
    have hkn := rangeNumBlocks_eq bs hbs1 front k (by omega) hk
    have hnext : next ∈ rs0 := by rw [hrs0]; simp
    have hne := hsorted.1 next hnext
    refine ⟨hF, done ++ [front], next, rest, 0, by rw [hrs0]; simp, rfl, ?_, by omega, ?_, ?_⟩
    · simp only [Nat.zero_mul, Nat.cast_zero, add_zero]
      omega
    · rw [hz, allocatedZeroBlocks_append, hkn]
      simp [allocatedZeroBlocks, rangeZeroBlocks]
    · rw [hr, allocatedReads_append, hkn]
      simp [allocatedReads, rangeReads]
  · rintro pos front rest t h buff hd ⟨hF, done, front', rest', k, hrs0, hrs, hpos, hk, hz, hr⟩
      hlt hpf hseek hrd
    obtain ⟨hF', hbuff, hpos0⟩ := hF.read hseek hrd
    simp only [List.cons.injEq] at hrs
    obtain ⟨rfl, rfl⟩ := hrs
    have hfront : front ∈ rs0 := by rw [hrs0]; simp
    have hposk : pos = front.start + ((k * bs : Nat) : Int) := by omega
    have hn := requestedLength_eq bs front pos hpf hbs2
    obtain ⟨hlen, -, hpos', hzb, hrb⟩ := rangeZeroBlocks_succ_read bs hbs1 f.bytes front k pos
      (requestedLength bs front pos) buff hposk hn hpf hbuff (hin front hfront) hpos0
    refine ⟨hF', done, front, rest, k + 1, hrs0, rfl, ?_, ?_, ?_, ?_⟩
    · rw [hlen, hpos']
    · intro k' hk'
      have : k' = k := by omega
      rw [this, ← hposk]
      exact hpf
    · rw [zeroBlocks_append, hz, hzb, List.append_assoc]
    · rw [readsOf_append, hr, hrb, List.append_assoc]
      rfl
  · rintro pos front rest t h ⟨hF, done, front', rest', k, hrs0, hrs, hpos, hk, hz, hr⟩ _ hpf hseek
      hrd
    simp [sparseFileStorage] at hrd
  · rintro pos rs t h p h' ⟨hF, done, front', rest', k, hrs0, hrs, hpos, hk, hz, hr⟩ hp hf
    refine ⟨hF.dealloc hp hf, done, front', rest', k, hrs0, hrs, hpos, hk, ?_, ?_⟩
    · rw [zeroBlocks_append, zeroBlocks_deallocate, List.append_nil, hz]
    · rw [readsOf_append, hr]
      simp [readsOf]
  · rintro pos rs t h p ⟨hF, done, front', rest', k, hrs0, hrs, hpos, hk, hz, hr⟩ _ hf
    simp [sparseFileStorage] at hf

/-- The scan over a sorted list of ranges inside the file whose first range
starts at offset 0 returns normally. -/
theorem scanFile_ranges_ok (bs : Nat) (hbs1 : 1 ≤ bs) (hbs2 : bs < 4294967296)
    (f : SparseFile) (rs0 : List range) (u : Int) (hsorted : SortedRanges rs0)
    (hin : ∀ r ∈ rs0, r.end_ ≤ (f.bytes.length : Int))
    (hfirst : ∃ front rest, rs0 = front :: rest ∧ front.start = 0) :
    (scanFile bs f rs0 u).thrown = none := by
  cases hth : (scanFile bs f rs0 u).thrown with
  | none => rfl
  | some e =>
    exfalso
    have hnn : ∀ r ∈ rs0, 0 ≤ r.start := by
      obtain ⟨front, rest, rfl, hf0⟩ := hfirst
      exact hsorted.start_nonneg hf0
    obtain ⟨pos, rs, t, h, ⟨hF, done, front, rest, k, hrs0, hrs, hpos, -, -, -⟩, hc⟩ :=
      (scanFile_rangeScan bs hbs1 hbs2 f rs0 u hsorted hin hfirst).2.2.2 e hth
    have hfront : front ∈ rs0 := by rw [hrs0]; simp
    have h1 := hnn front hfront
    have h2 := hsorted.1 front hfront
    have h3 := hin front hfront
    rcases hc with ⟨-, -, hseek⟩ | ⟨-, -, hnil⟩ | ⟨-, hlt, front', rest', hfr, hpf, -, hrd⟩ |
      ⟨-, p, -, hf⟩ | ⟨-, -, hg⟩
    · simp only [sparseFileStorage, decide_eq_false_iff_not] at hseek
      omega
    · rw [hnil] at hrs
      cases hrs
    · rw [hrs] at hfr
      simp only [List.cons.injEq] at hfr
      obtain ⟨rfl, -⟩ := hfr
      have hn := requestedLength_eq bs front pos hpf hbs2
      rcases hrd with hrd | ⟨hd, hrd⟩
      · simp [sparseFileStorage] at hrd
      · simp only [sparseFileStorage, Option.some.injEq, Prod.mk.injEq] at hrd
        have hlen := congrArg List.length hrd.1
        rw [hF.1] at hlen
        simp only [List.length_take, List.length_drop, List.length_nil] at hlen
        omega
    · simp [sparseFileStorage] at hf
    · simp [sparseFileStorage] at hg

/-- At the end of a normal run over such a list every block of every range
has been read, and nothing else: the reads are the blocks of the ranges and
the zero blocks found are the all-zero ones among them. -/
theorem scanFile_ranges_final (bs : Nat) (hbs1 : 1 ≤ bs) (hbs2 : bs < 4294967296)
    (f : SparseFile) (rs0 : List range) (u : Int) (hsorted : SortedRanges rs0)
    (hin : ∀ r ∈ rs0, r.end_ ≤ (f.bytes.length : Int))
    (hfirst : ∃ front rest, rs0 = front :: rest ∧ front.start = 0) :
    zeroBlocks (scanFile bs f rs0 u).final.trace = allocatedZeroBlocks bs f.bytes rs0 ∧
    readsOf (scanFile bs f rs0 u).final.trace = allocatedReads bs rs0 := by
  have hok := scanFile_ranges_ok bs hbs1 hbs2 f rs0 u hsorted hin hfirst
  obtain ⟨⟨pos, rs, ⟨-, done, front, rest, k, hrs0, hrs, hpos, hk, hz, hr⟩, hend⟩, -, -, -⟩ :=
    scanFile_rangeScan bs hbs1 hbs2 f rs0 u hsorted hin hfirst
  have hfront : front ∈ rs0 := by rw [hrs0]; simp
  have h2 := hsorted.1 front hfront
  have h3 := hin front hfront
  have hsuf : SortedRanges (front :: rest) := by
    rw [hrs0] at hsorted
    exact hsorted.append_right
  have hdone : front.end_ ≤ front.start + ((k * bs : Nat) : Int) ∧
      ∀ r ∈ rest, r.end_ ≤ r.start := by
    rcases hend hok with h | ⟨front', hfr, hge⟩
    · refine ⟨by omega, ?_⟩
      intro r hr
      have h4 := hsuf.rel_of_mem r hr
      have h5 := hin r (by rw [hrs0]; simp [hr])
      omega
    · rw [hrs] at hfr
      simp only [List.cons.injEq] at hfr
      obtain ⟨rfl, rfl⟩ := hfr
      exact ⟨by omega, fun r hr => by cases hr⟩
  have hkn := rangeNumBlocks_eq bs hbs1 front k hdone.1 hk
  obtain ⟨he1, he2⟩ := allocatedZeroBlocks_of_empty bs hbs1 f.bytes rest hdone.2
  constructor
  · rw [hz, hrs0, allocatedZeroBlocks_append, hkn]
    simp [allocatedZeroBlocks, he1]
  · rw [hr, hrs0, allocatedReads_append, hkn]
    simp [allocatedReads, he2]

theorem mem_rangeZeroBlocks (bs : Nat) (bytes : List UInt8) (r : range) (k : Nat)
    (y : FILE_ZERO_DATA_INFORMATION) :
    y ∈ rangeZeroBlocks bs bytes r k ↔
      ∃ j, j < k ∧ (intervalBytes bytes (rangeBlock bs r j)).all (fun b => b == 0) = true ∧
        y = rangeBlock bs r j := by
  unfold rangeZeroBlocks
  rw [List.mem_filterMap]
  constructor
  · rintro ⟨j, hj, hy⟩
    rw [List.mem_range] at hj
    unfold rangeZeroBlock at hy
    split at hy
    · rename_i hc
      simp only [Option.some.injEq] at hy
      exact ⟨j, hj, hc, hy.symm⟩
    · cases hy
  · rintro ⟨j, hj, hz, rfl⟩
    refine ⟨j, List.mem_range.mpr hj, ?_⟩
    unfold rangeZeroBlock
    rw [if_pos hz]

theorem mem_allocatedZeroBlocks (bs : Nat) (bytes : List UInt8) (y : FILE_ZERO_DATA_INFORMATION) :
    ∀ (rs : List range), y ∈ allocatedZeroBlocks bs bytes rs ↔
      ∃ r ∈ rs, ∃ j, j < rangeNumBlocks bs r ∧
        (intervalBytes bytes (rangeBlock bs r j)).all (fun b => b == 0) = true ∧
        y = rangeBlock bs r j := by
  intro rs
  induction rs with
  | nil => simp [allocatedZeroBlocks]
  | cons r rs ih =>
    simp only [allocatedZeroBlocks, List.mem_append, mem_rangeZeroBlocks, ih, List.mem_cons,
      exists_eq_or_imp]

/-- A position lies in one of the all-zero blocks of the ranges exactly when
it lies in a range and the block of that range holding it is all zero. -/
theorem inBlock_allocatedZeroBlocks (bs : Nat) (hbs1 : 1 ≤ bs) (bytes : List UInt8)
    (rs : List range) (x : Int) :
    InBlock (allocatedZeroBlocks bs bytes rs) x ↔ InZeroAllocatedBlock bs bytes rs x := by
  constructor
  · rintro ⟨y, hy, h1, h2⟩
    obtain ⟨r, hr, j, hj, hz, rfl⟩ := (mem_allocatedZeroBlocks bs bytes y rs).mp hy
    simp only [rangeBlock] at h1 h2
    have hk1 : (j + 1) * bs = j * bs + bs := by ring
    rw [hk1] at h2
    have hdiv : (x - r.start).toNat / bs = j := by
      apply div_eq_of_bounds <;> omega
    refine ⟨r, hr, by omega, by omega, ?_⟩
    rw [hdiv]
    exact hz
  · rintro ⟨r, hr, h1, h2, hz⟩
    have hdm := Nat.div_add_mod (x - r.start).toNat bs
    have hml := Nat.mod_lt (x - r.start).toNat (show bs > 0 by omega)
    have hc : bs * ((x - r.start).toNat / bs) = (x - r.start).toNat / bs * bs :=
      Nat.mul_comm _ _
    have hk1 : ((x - r.start).toNat / bs + 1) * bs = (x - r.start).toNat / bs * bs + bs := by
      ring
    refine ⟨rangeBlock bs r ((x - r.start).toNat / bs),
      (mem_allocatedZeroBlocks bs bytes _ rs).mpr
        ⟨r, hr, (x - r.start).toNat / bs, ?_, hz, rfl⟩, ?_, ?_⟩
    · rw [lt_rangeNumBlocks_iff bs hbs1]
      omega
    · simp only [rangeBlock]
      omega
    · simp only [rangeBlock]
      rw [hk1]
      omega

/-- C4, amended. For every file, every block size from 1 to 2^32 - 1 (a
`DWORD`) and every sorted non-overlapping list of allocated ranges inside the
file whose first range starts at offset 0, the run of `process_file` returns
normally and the requests it issues are exactly the maximal runs of positions
that lie in an all-zero block of an allocated range, each range being split
into consecutive blocks of `blockSize` bytes from its start, the last one
possibly shorter. The reads of the run are the blocks of the ranges, one read
per block in order, so every block of every range is examined and nothing
else. Zero detection is per block: zero bytes of a block that also holds a
non-zero byte are not deallocated. -/
theorem C4_flushed_are_maximal_zero_block_runs (blockSize : Nat) (hbs1 : 1 ≤ blockSize)
    (hbs2 : blockSize < 4294967296) (f : SparseFile) (allocatedRanges : List range)
    (uninitialised : Int) (hsorted : SortedRanges allocatedRanges)
    (hin : ∀ r ∈ allocatedRanges, r.end_ ≤ (f.bytes.length : Int))
    (hfirst : ∃ front rest, allocatedRanges = front :: rest ∧ front.start = 0) :
    (scanFile blockSize f allocatedRanges uninitialised).thrown = none ∧
    (∀ z, z ∈ flushed (scanFile blockSize f allocatedRanges uninitialised).final.trace ↔
      MaximalRun (InZeroAllocatedBlock blockSize f.bytes allocatedRanges) z) ∧
    readsOf (scanFile blockSize f allocatedRanges uninitialised).final.trace =
      allocatedReads blockSize allocatedRanges := by
  have hok := scanFile_ranges_ok blockSize hbs1 hbs2 f allocatedRanges uninitialised hsorted hin
    hfirst
  obtain ⟨hz, hr⟩ := scanFile_ranges_final blockSize hbs1 hbs2 f allocatedRanges uninitialised
    hsorted hin hfirst
  obtain ⟨⟨_, _, hJ, -⟩, -, hfl, -⟩ :=
    process_file_scanOrder sparseFileStorage sparseFileStorage_readBounded blockSize
      (f.bytes.length : Int) uninitialised f allocatedRanges hsorted
  have hasc : Ascending (zeroBlocks
      (scanFile blockSize f allocatedRanges uninitialised).final.trace) := hJ.2.1
  have hflushed : flushed (scanFile blockSize f allocatedRanges uninitialised).final.trace =
      coalesce (zeroBlocks (scanFile blockSize f allocatedRanges uninitialised).final.trace) :=
    (hfl hok).1
  refine ⟨hok, ?_, hr⟩
  intro z
  rw [hflushed, mem_coalesce_iff_maximalRun _ hasc z, hz]
  exact MaximalRun.congr (inBlock_allocatedZeroBlocks blockSize hbs1 f.bytes allocatedRanges) z

/-- Witness for C4 amended: the 12-byte file `[0000][0A][0000][BC]` with block
size 4 and the allocated ranges `[0,6)` and `[6,12)`. The blocks are `[0,4)`,
`[4,6)`, `[6,10)`, `[10,12)`; the all-zero ones are `[0,4)` and `[6,10)`, and
those are the two requests, while the zero byte at offset 4 stays. -/
theorem C4_flushed_are_maximal_zero_block_runs_witness :
    (1 ≤ 4 ∧ 4 < 4294967296) ∧ SortedRanges exampleTwoRanges.allocated ∧
    (∀ r ∈ exampleTwoRanges.allocated, r.end_ ≤ (exampleTwoRanges.bytes.length : Int)) ∧
    (∃ front rest, exampleTwoRanges.allocated = front :: rest ∧ front.start = 0) ∧
    flushed (scanFile 4 exampleTwoRanges exampleTwoRanges.allocated 0).final.trace =
      [⟨0, 4⟩, ⟨6, 10⟩] ∧
    allocatedReads 4 exampleTwoRanges.allocated = [(0, 4), (4, 2), (6, 4), (10, 2)] ∧
    ((scanFile 4 exampleTwoRanges exampleTwoRanges.allocated 0).thrown = none ∧
      (∀ z, z ∈ flushed (scanFile 4 exampleTwoRanges exampleTwoRanges.allocated 0).final.trace ↔
        MaximalRun (InZeroAllocatedBlock 4 exampleTwoRanges.bytes exampleTwoRanges.allocated)
          z) ∧
      readsOf (scanFile 4 exampleTwoRanges exampleTwoRanges.allocated 0).final.trace =
        allocatedReads 4 exampleTwoRanges.allocated) :=
  ⟨⟨by decide, by decide⟩, by simp [SortedRanges, exampleTwoRanges], by decide,
    ⟨⟨0, 6⟩, [⟨6, 12⟩], rfl, rfl⟩, by decide, by decide,
    C4_flushed_are_maximal_zero_block_runs 4 (by decide) (by decide) exampleTwoRanges
      exampleTwoRanges.allocated 0 (by simp [SortedRanges, exampleTwoRanges]) (by decide)
      ⟨⟨0, 6⟩, [⟨6, 12⟩], rfl, rfl⟩⟩

end Resparse
